import Mathlib

/-!
# Verification of `internal/urllib/url.go`

A shallow embedding of the URL helpers of `internal/urllib` (`IsAbsoluteURL`,
`GetAbsoluteURL`, `AbsoluteURL`, `RootURL`, `IsHTTPS`, `Domain`,
`DomainWithoutWWW`, `JoinBaseURLAndPath`) together with the parts of the Go
standard library they call (`strings`, `path`, `net/url`, transcribed from the
go1.22 sources; `net/url.JoinPath` in its later form, which reports the error of
`setPath`), followed by theorems about them.

A Go `string` is an immutable sequence of bytes; it is embedded as a list of
bytes, each byte a natural number below 256.  Go functions returning
`(value, error)` are embedded as pairs whose second component is `none` when
the Go error is `nil`.
-/

namespace Urllib

/-- A Go string: its bytes in order. -/
abbrev GoString := List Nat

/-- The Go string literal with the given (ASCII) text. -/
def str (s : String) : GoString := s.toList.map Char.toNat

/-! ## Package `strings` -/

/-- Go `strings.HasPrefix`. -/
def HasPrefix (s pre : GoString) : Bool := pre.isPrefixOf s

/-- Go `strings.HasSuffix`. -/
def HasSuffix (s suf : GoString) : Bool := suf.isSuffixOf s

/-- Go `strings.TrimPrefix`. -/
def TrimPrefix (s pre : GoString) : GoString :=
  if HasPrefix s pre then s.drop pre.length else s

/-- Go `strings.Index`: index of the first instance of `sep` in `s`, `none` for Go's `-1`. -/
def Index : GoString → GoString → Option Nat
  | [], sep => if sep.isPrefixOf [] then some 0 else none
  | c :: cs, sep =>
    if sep.isPrefixOf (c :: cs) then some 0
    else (Index cs sep).map (· + 1)

/-- Go `strings.LastIndex`: index of the last instance of `sep` in `s`, `none` for Go's `-1`. -/
def LastIndex : GoString → GoString → Option Nat
  | [], sep => if sep.isPrefixOf [] then some 0 else none
  | c :: cs, sep =>
    match LastIndex cs sep with
    | some i => some (i + 1)
    | none => if sep.isPrefixOf (c :: cs) then some 0 else none

/-- Go `strings.Contains`. -/
def Contains (s sep : GoString) : Bool := (Index s sep).isSome

/-- Go `strings.Cut`: `(before, after, found)`. -/
def Cut (s sep : GoString) : GoString × GoString × Bool :=
  match Index s sep with
  | some i => (s.take i, s.drop (i + sep.length), true)
  | none => (s, [], false)

/-- Go `strings.Count` for a one-byte separator (the only use in `net/url.parse`). -/
def Count (s : GoString) (c : Nat) : Nat := s.count c

/-- Go `strings.ToLower` on an ASCII string (its only argument in `net/url.parse` is a
scheme, of ASCII letters, digits, `+`, `-` and `.`). -/
def ToLower (s : GoString) : GoString :=
  s.map fun c => if 'A'.toNat ≤ c ∧ c ≤ 'Z'.toNat then c + ('a'.toNat - 'A'.toNat) else c

/-- Go `strings.EqualFold` on ASCII strings: equality up to the case of ASCII letters. -/
def EqualFold (s t : GoString) : Bool := ToLower s == ToLower t

/-! ## Package `net/url`: escaping -/

/-- The `encoding` modes of `net/url`. -/
inductive Encoding
  | encodePath
  | encodePathSegment
  | encodeHost
  | encodeZone
  | encodeUserPassword
  | encodeQueryComponent
  | encodeFragment
deriving DecidableEq, Repr

open Encoding

/-- The reasons for which `net/url` rejects a string. -/
inductive ErrKind
  | invalidControlCharacter
  | emptyURL
  | invalidURIForRequest
  | missingProtocolScheme
  | firstPathSegmentColon
  | missingBracketInHost
  | invalidPort (colonPort : GoString)
  | invalidUserinfo
  | EscapeError (s : GoString)
  | InvalidHostError (s : GoString)
deriving DecidableEq, Repr

/-- Go `net/url.Error`: the operation, the URL and the underlying reason. -/
structure Error where
  Op : GoString
  URL : GoString
  Err : ErrKind
deriving DecidableEq, Repr

/-- Go `net/url.ishex`. -/
def ishex (c : Nat) : Bool :=
  ('0'.toNat ≤ c && c ≤ '9'.toNat) || ('a'.toNat ≤ c && c ≤ 'f'.toNat) ||
    ('A'.toNat ≤ c && c ≤ 'F'.toNat)

/-- Go `net/url.unhex`. -/
def unhex (c : Nat) : Nat :=
  if '0'.toNat ≤ c ∧ c ≤ '9'.toNat then c - '0'.toNat
  else if 'a'.toNat ≤ c ∧ c ≤ 'f'.toNat then c - 'a'.toNat + 10
  else if 'A'.toNat ≤ c ∧ c ≤ 'F'.toNat then c - 'A'.toNat + 10
  else 0

/-- Go `net/url.shouldEscape`: whether byte `c` must be escaped in the given mode.
Bytes 39 and 34 are the single and the double quote. -/
def shouldEscape (c : Nat) (mode : Encoding) : Bool :=
  if ('a'.toNat ≤ c ∧ c ≤ 'z'.toNat) ∨ ('A'.toNat ≤ c ∧ c ≤ 'Z'.toNat) ∨
      ('0'.toNat ≤ c ∧ c ≤ '9'.toNat) then false
  else if (mode = encodeHost ∨ mode = encodeZone) ∧
      c ∈ ['!'.toNat, '$'.toNat, '&'.toNat, 39, '('.toNat, ')'.toNat, '*'.toNat, '+'.toNat,
        ','.toNat, ';'.toNat, '='.toNat, ':'.toNat, '['.toNat, ']'.toNat, '<'.toNat,
        '>'.toNat, 34] then false
  else if c ∈ ['-'.toNat, '_'.toNat, '.'.toNat, '~'.toNat] then false
  else if c ∈ ['$'.toNat, '&'.toNat, '+'.toNat, ','.toNat, '/'.toNat, ':'.toNat, ';'.toNat,
      '='.toNat, '?'.toNat, '@'.toNat] then
    match mode with
    | encodePath => c == '?'.toNat
    | encodePathSegment =>
      c == '/'.toNat || c == ';'.toNat || c == ','.toNat || c == '?'.toNat
    | encodeUserPassword =>
      c == '@'.toNat || c == '/'.toNat || c == '?'.toNat || c == ':'.toNat
    | encodeQueryComponent => true
    | encodeFragment => false
    -- no case of the inner switch: control reaches the final `return true`
    | encodeHost => true
    | encodeZone => true
  else if mode = encodeFragment ∧ c ∈ ['!'.toNat, '('.toNat, ')'.toNat, '*'.toNat] then false
  else true

/-- The first loop of Go `net/url.unescape`: checks that every `%` starts a well-formed
escape and, in the host modes, that no byte is forbidden; `none` when the string is
accepted. -/
def unescapeCheck (mode : Encoding) : GoString → Option ErrKind
  | [] => none
  | c :: rest =>
    if c = '%'.toNat then
      match rest with
      | h1 :: h2 :: rest2 =>
        if !ishex h1 || !ishex h2 then some (.EscapeError ((c :: rest).take 3))
        else if mode = encodeHost ∧ unhex h1 < 8 ∧ [c, h1, h2] ≠ str "%25" then
          some (.EscapeError [c, h1, h2])
        else if mode = encodeZone ∧ [c, h1, h2] ≠ str "%25" ∧
            unhex h1 * 16 + unhex h2 ≠ ' '.toNat ∧
            shouldEscape (unhex h1 * 16 + unhex h2) encodeHost then
          some (.EscapeError [c, h1, h2])
        else unescapeCheck mode rest2
      | _ => some (.EscapeError ((c :: rest).take 3))
    else if c = '+'.toNat then unescapeCheck mode rest
    else if (mode = encodeHost ∨ mode = encodeZone) ∧ c < 0x80 ∧ shouldEscape c encodeHost then
      some (.InvalidHostError [c])
    else unescapeCheck mode rest

/-- The second loop of Go `net/url.unescape`: replaces every `%XY` by the byte
`unhex X << 4 | unhex Y` and, in query-component mode, every `+` by a space. -/
def unescapeDecode (mode : Encoding) : GoString → GoString
  | [] => []
  | c :: rest =>
    if c = '%'.toNat then
      match rest with
      | h1 :: h2 :: rest2 => (unhex h1 * 16 + unhex h2) :: unescapeDecode mode rest2
      | _ => []
    else if c = '+'.toNat then
      (if mode = encodeQueryComponent then ' '.toNat else '+'.toNat) :: unescapeDecode mode rest
    else c :: unescapeDecode mode rest

/-- Go `net/url.unescape`.  (The source returns `s` itself when the first loop saw no
`%` and no `+` to replace; the second loop leaves such a string unchanged.) -/
def unescape (s : GoString) (mode : Encoding) : Except ErrKind GoString :=
  match unescapeCheck mode s with
  | some e => .error e
  | none => .ok (unescapeDecode mode s)

/-- The table `upperhex` of `net/url`. -/
def upperhex : GoString := str "0123456789ABCDEF"

/-- Go `net/url.escape`.  The two hexadecimal digits are `upperhex[c>>4]` and
`upperhex[c&15]`; on a byte both indices are below 16. -/
def escape (s : GoString) (mode : Encoding) : GoString :=
  s.flatMap fun c =>
    if c = ' '.toNat ∧ mode = encodeQueryComponent then ['+'.toNat]
    else if shouldEscape c mode then
      ['%'.toNat, upperhex.getD (c / 16 % 16) 0, upperhex.getD (c % 16) 0]
    else [c]

/-- Go `net/url.validEncoded`. Byte 39 is the single quote. -/
def validEncoded (s : GoString) (mode : Encoding) : Bool :=
  s.all fun c =>
    if c ∈ ['!'.toNat, '$'.toNat, '&'.toNat, 39, '('.toNat, ')'.toNat, '*'.toNat, '+'.toNat,
        ','.toNat, ';'.toNat, '='.toNat, ':'.toNat, '@'.toNat] then true
    else if c ∈ ['['.toNat, ']'.toNat] then true
    else if c = '%'.toNat then true
    else !shouldEscape c mode

/-! ## Package `net/url`: parsing -/

/-- Go `net/url.stringContainsCTLByte`. -/
def stringContainsCTLByte (s : GoString) : Bool :=
  s.any fun b => b < ' '.toNat || b == 0x7f

/-- The loop of Go `net/url.getScheme`: `i` is the index of the first byte of the
remaining input. -/
def getSchemeLoop (rawURL : GoString) : Nat → GoString → GoString × GoString × Option ErrKind
  | _, [] => ([], rawURL, none)
  | i, c :: cs =>
    if ('a'.toNat ≤ c ∧ c ≤ 'z'.toNat) ∨ ('A'.toNat ≤ c ∧ c ≤ 'Z'.toNat) then
      getSchemeLoop rawURL (i + 1) cs
    else if ('0'.toNat ≤ c ∧ c ≤ '9'.toNat) ∨ c = '+'.toNat ∨ c = '-'.toNat ∨ c = '.'.toNat then
      if i = 0 then ([], rawURL, none) else getSchemeLoop rawURL (i + 1) cs
    else if c = ':'.toNat then
      if i = 0 then ([], [], some .missingProtocolScheme)
      else (rawURL.take i, rawURL.drop (i + 1), none)
    else ([], rawURL, none)

/-- Go `net/url.getScheme`: `(scheme, path, err)`. -/
def getScheme (rawURL : GoString) : GoString × GoString × Option ErrKind :=
  getSchemeLoop rawURL 0 rawURL

/-- Go `net/url.validOptionalPort`. -/
def validOptionalPort (port : GoString) : Bool :=
  match port with
  | [] => true
  | c :: rest =>
    if c ≠ ':'.toNat then false
    else rest.all fun b => !(b < '0'.toNat || b > '9'.toNat)

/-- Go `net/url.validUserinfo`. Byte 39 is the single quote. -/
def validUserinfo (s : GoString) : Bool :=
  s.all fun r =>
    ('A'.toNat ≤ r && r ≤ 'Z'.toNat) || ('a'.toNat ≤ r && r ≤ 'z'.toNat) ||
    ('0'.toNat ≤ r && r ≤ '9'.toNat) ||
    decide (r ∈ ['-'.toNat, '.'.toNat, '_'.toNat, ':'.toNat, '~'.toNat, '!'.toNat, '$'.toNat,
      '&'.toNat, 39, '('.toNat, ')'.toNat, '*'.toNat, '+'.toNat, ','.toNat, ';'.toNat,
      '='.toNat, '%'.toNat, '@'.toNat])

/-- Go `net/url.Userinfo`. -/
structure Userinfo where
  username : GoString
  password : GoString
  passwordSet : Bool
deriving DecidableEq, Repr

/-- Go `net/url.URL`. -/
structure URL where
  Scheme : GoString := []
  Opaque : GoString := []
  User : Option Userinfo := none
  Host : GoString := []
  Path : GoString := []
  RawPath : GoString := []
  OmitHost : Bool := false
  ForceQuery : Bool := false
  RawQuery : GoString := []
  Fragment : GoString := []
  RawFragment : GoString := []
deriving DecidableEq, Repr

/-- Go `net/url.parseHost`. -/
def parseHost (host : GoString) : Except ErrKind GoString :=
  if HasPrefix host (str "[") then
    match LastIndex host (str "]") with
    | none => .error .missingBracketInHost
    | some i =>
      let colonPort := host.drop (i + 1)
      if !validOptionalPort colonPort then .error (.invalidPort colonPort)
      else
        match Index (host.take i) (str "%25") with
        | some zone => do
          let host1 ← unescape (host.take zone) encodeHost
          let host2 ← unescape ((host.take i).drop zone) encodeZone
          let host3 ← unescape (host.drop i) encodeHost
          .ok (host1 ++ host2 ++ host3)
        | none => unescape host encodeHost
  else
    match LastIndex host (str ":") with
    | some i =>
      let colonPort := host.drop i
      if !validOptionalPort colonPort then .error (.invalidPort colonPort)
      else unescape host encodeHost
    | none => unescape host encodeHost

/-- Go `net/url.parseAuthority`: `(user, host)` or the error. -/
def parseAuthority (authority : GoString) : Except ErrKind (Option Userinfo × GoString) :=
  match LastIndex authority (str "@") with
  | none => do
    let host ← parseHost authority
    .ok (none, host)
  | some i => do
    let host ← parseHost (authority.drop (i + 1))
    let userinfo := authority.take i
    if !validUserinfo userinfo then .error .invalidUserinfo
    else if !Contains userinfo (str ":") then do
      let userinfo ← unescape userinfo encodeUserPassword
      .ok (some ⟨userinfo, [], false⟩, host)
    else do
      let (username, password, _) := Cut userinfo (str ":")
      let username ← unescape username encodeUserPassword
      let password ← unescape password encodeUserPassword
      .ok (some ⟨username, password, true⟩, host)

/-- Go `(*URL).setPath`. -/
def URL.setPath (u : URL) (p : GoString) : Except ErrKind URL :=
  match unescape p encodePath with
  | .error e => .error e
  | .ok path =>
    if p = escape path encodePath then .ok { u with Path := path, RawPath := [] }
    else .ok { u with Path := path, RawPath := p }

/-- Go `(*URL).setFragment`. -/
def URL.setFragment (u : URL) (f : GoString) : Except ErrKind URL :=
  match unescape f encodeFragment with
  | .error e => .error e
  | .ok frag =>
    if f = escape frag encodeFragment then .ok { u with Fragment := frag, RawFragment := [] }
    else .ok { u with Fragment := frag, RawFragment := f }

/-- The statements of Go `net/url.parse` that split the query off `rest`:
`(ForceQuery, RawQuery, rest)`. -/
def parseQuery (rest : GoString) : Bool × GoString × GoString :=
  if HasSuffix rest (str "?") ∧ Count rest '?'.toNat = 1 then
    (true, [], rest.take (rest.length - 1))
  else
    let (r, q, _) := Cut rest (str "?")
    (false, q, r)

/-- The statements of Go `net/url.parse` that follow the query split: `url` holds the
scheme and the query, `rest` is what remains to be parsed (opaque part, or authority
and path). -/
def parseRest (url : URL) (rest : GoString) (viaRequest : Bool) : Except ErrKind URL :=
  if !HasPrefix rest (str "/") ∧ url.Scheme ≠ [] then
    -- rootless paths are opaque
    .ok { url with Opaque := rest }
  else if !HasPrefix rest (str "/") ∧ viaRequest then .error .invalidURIForRequest
  else if !HasPrefix rest (str "/") ∧ Contains (Cut rest (str "/")).1 (str ":") then
    .error .firstPathSegmentColon
  else if (url.Scheme ≠ [] ∨ (!viaRequest ∧ !HasPrefix rest (str "///"))) ∧
      HasPrefix rest (str "//") then
    let authority := rest.drop 2
    let (authority, rest) : GoString × GoString :=
      match Index authority (str "/") with
      | some i => (authority.take i, authority.drop i)
      | none => (authority, [])
    match parseAuthority authority with
    | .error e => .error e
    | .ok (user, host) => { url with User := user, Host := host }.setPath rest
  else if url.Scheme ≠ [] ∧ HasPrefix rest (str "/") then
    { url with OmitHost := true }.setPath rest
  else url.setPath rest

/-- Go `net/url.parse`. -/
def parse (rawURL : GoString) (viaRequest : Bool) : Except ErrKind URL :=
  if stringContainsCTLByte rawURL then .error .invalidControlCharacter
  else if rawURL = [] ∧ viaRequest then .error .emptyURL
  else if rawURL = str "*" then .ok { Path := str "*" }
  else
    match getScheme rawURL with
    | (_, _, some e) => .error e
    | (scheme, rest, none) =>
      let (forceQuery, rawQuery, rest) := parseQuery rest
      parseRest { Scheme := ToLower scheme, ForceQuery := forceQuery, RawQuery := rawQuery }
        rest viaRequest

/-- Go `net/url.Parse`. -/
def Parse (rawURL : GoString) : Except Error URL :=
  let (u, frag, _) := Cut rawURL (str "#")
  match parse u false with
  | .error e => .error ⟨str "parse", u, e⟩
  | .ok url =>
    if frag = [] then .ok url
    else
      match url.setFragment frag with
      | .error e => .error ⟨str "parse", rawURL, e⟩
      | .ok url => .ok url

/-- Go `(*URL).IsAbs`. -/
def URL.IsAbs (u : URL) : Bool := u.Scheme ≠ []

/-! ## Package `net/url`: printing -/

/-- Go `(*URL).EscapedPath`. -/
def URL.EscapedPath (u : URL) : GoString :=
  let rawValid : Bool :=
    u.RawPath ≠ [] && validEncoded u.RawPath encodePath &&
      (match unescape u.RawPath encodePath with
        | .ok p => p == u.Path
        | .error _ => false)
  if rawValid then u.RawPath
  else if u.Path = str "*" then str "*"
  else escape u.Path encodePath

/-- Go `(*URL).EscapedFragment`. -/
def URL.EscapedFragment (u : URL) : GoString :=
  let rawValid : Bool :=
    u.RawFragment ≠ [] && validEncoded u.RawFragment encodeFragment &&
      (match unescape u.RawFragment encodeFragment with
        | .ok f => f == u.Fragment
        | .error _ => false)
  if rawValid then u.RawFragment
  else escape u.Fragment encodeFragment

/-- Go `(*Userinfo).String`. -/
def Userinfo.String (u : Userinfo) : GoString :=
  let s := escape u.username encodeUserPassword
  if u.passwordSet then s ++ str ":" ++ escape u.password encodeUserPassword else s

/-- The statements of Go `(*URL).String` that write the authority (`//`, the user
information and the host) to the builder `buf`. -/
def URL.writeAuthority (u : URL) (buf : GoString) : GoString :=
  if u.Scheme ≠ [] ∨ u.Host ≠ [] ∨ u.User ≠ none then
    if u.OmitHost ∧ u.Host = [] ∧ u.User = none then buf
    else
      let buf : GoString :=
        if u.Host ≠ [] ∨ u.Path ≠ [] ∨ u.User ≠ none then buf ++ str "//" else buf
      let buf : GoString :=
        match u.User with
        | some ui => buf ++ ui.String ++ str "@"
        | none => buf
      if u.Host ≠ [] then buf ++ escape u.Host encodeHost else buf
  else buf

/-- The statements of Go `(*URL).String` that write the path to the builder `buf`. -/
def URL.writePath (u : URL) (buf : GoString) : GoString :=
  let path := u.EscapedPath
  let buf : GoString :=
    if path ≠ [] ∧ path.head? ≠ some '/'.toNat ∧ u.Host ≠ [] then buf ++ str "/" else buf
  let buf : GoString :=
    if buf = [] ∧ Contains (Cut path (str "/")).1 (str ":") then buf ++ str "./" else buf
  buf ++ path

/-- The statements of Go `(*URL).String` that write the query and the fragment to the
builder `buf`. -/
def URL.writeQueryFragment (u : URL) (buf : GoString) : GoString :=
  let buf : GoString :=
    if u.ForceQuery ∨ u.RawQuery ≠ [] then buf ++ str "?" ++ u.RawQuery else buf
  if u.Fragment ≠ [] then buf ++ str "#" ++ u.EscapedFragment else buf

/-- Go `(*URL).String`; `buf` is the `strings.Builder` being filled. -/
def URL.String (u : URL) : GoString :=
  let buf : GoString := if u.Scheme ≠ [] then u.Scheme ++ str ":" else []
  let buf : GoString :=
    if u.Opaque ≠ [] then buf ++ u.Opaque else u.writePath (u.writeAuthority buf)
  u.writeQueryFragment buf

/-! ## Package `net/url`: reference resolution -/

/-- The loop of Go `net/url.resolvePath`: `dst` is the builder, `first` the flag of the
source; returns the builder and the last `elem`.  The loop body consumes at least one
byte of `remaining` whenever it goes round again, so `remaining.length + 1` iterations
are enough. -/
def resolvePathLoop : Nat → GoString → GoString → Bool → GoString × GoString
  | 0, _, dst, _ => (dst, [])
  | fuel + 1, remaining, dst, first =>
    let (elem, remaining, found) := Cut remaining (str "/")
    let (dst, first) : GoString × Bool :=
      if elem = str "." then (dst, false)
      else if elem = str ".." then
        let s := dst.drop 1
        match LastIndex s (str "/") with
        | none => (str "/", true)
        | some index => (str "/" ++ s.take index, first)
      else ((if !first then dst ++ str "/" else dst) ++ elem, false)
    if found then resolvePathLoop fuel remaining dst first else (dst, elem)

/-- Go `net/url.resolvePath`. -/
def resolvePath (base ref : GoString) : GoString :=
  let full : GoString :=
    if ref = [] then base
    else if ref.head? ≠ some '/'.toNat then
      (match LastIndex base (str "/") with
        | some i => base.take (i + 1)
        | none => []) ++ ref
    else ref
  if full = [] then []
  else
    let (dst, elem) := resolvePathLoop (full.length + 1) full (str "/") true
    let dst : GoString := if elem = str "." ∨ elem = str ".." then dst ++ str "/" else dst
    if dst.length > 1 ∧ dst.get? 1 = some '/'.toNat then dst.drop 1 else dst

/-- The effect of a call `url.setPath(p)` whose error is ignored: on error the URL is
left as it was. -/
def URL.setPathIgnoringError (u : URL) (p : GoString) : URL :=
  match u.setPath p with
  | .ok v => v
  | .error _ => u

/-- Go `(*URL).ResolveReference`. -/
def URL.ResolveReference (u ref : URL) : URL :=
  let url : URL := if ref.Scheme = [] then { ref with Scheme := u.Scheme } else ref
  if ref.Scheme ≠ [] ∨ ref.Host ≠ [] ∨ ref.User ≠ none then
    url.setPathIgnoringError (resolvePath ref.EscapedPath [])
  else if ref.Opaque ≠ [] then
    { url with User := none, Host := [], Path := [] }
  else
    let url : URL :=
      if ref.Path = [] ∧ !ref.ForceQuery ∧ ref.RawQuery = [] then
        let url : URL := { url with RawQuery := u.RawQuery }
        if ref.Fragment = [] then
          { url with Fragment := u.Fragment, RawFragment := u.RawFragment }
        else url
      else url
    if ref.Path = [] ∧ u.Opaque ≠ [] then
      { url with Opaque := u.Opaque, User := none, Host := [], Path := [] }
    else
      { url with Host := u.Host, User := u.User }.setPathIgnoringError
        (resolvePath u.EscapedPath ref.EscapedPath)

/-! ## Package `path` -/

/-- The inner loop of the `..` case of Go `path.Clean`: from index `w`, moves back
while `w > dotdot` and the byte at `w` is not a slash. -/
def cleanBacktrack (out : GoString) (dotdot : Nat) : Nat → Nat
  | 0 => 0
  | w + 1 =>
    if w + 1 > dotdot ∧ out.getD (w + 1) 0 ≠ '/'.toNat then cleanBacktrack out dotdot w
    else w + 1

/-- The main loop of Go `path.Clean`: `rest` is `path[r:]`, `out` the bytes written so
far (the `lazybuf` of the source, of length `out.w`).  Every iteration consumes at
least one byte of `rest`, so `path.length` iterations are enough. -/
def cleanLoop (rooted : Bool) : Nat → GoString → GoString → Nat → GoString
  | 0, _, out, _ => out
  | fuel + 1, rest, out, dotdot =>
    match rest with
    | [] => out
    | c :: rest1 =>
      if c = '/'.toNat then cleanLoop rooted fuel rest1 out dotdot
      else if c = '.'.toNat ∧ (rest1 = [] ∨ rest1.head? = some '/'.toNat) then
        cleanLoop rooted fuel rest1 out dotdot
      else if c = '.'.toNat ∧ rest1.head? = some '.'.toNat ∧
          (rest1.drop 1 = [] ∨ (rest1.drop 1).head? = some '/'.toNat) then
        if out.length > dotdot then
          cleanLoop rooted fuel (rest1.drop 1)
            (out.take (cleanBacktrack out dotdot (out.length - 1))) dotdot
        else if !rooted then
          let out : GoString := (if out.length > 0 then out ++ str "/" else out) ++ str ".."
          cleanLoop rooted fuel (rest1.drop 1) out out.length
        else cleanLoop rooted fuel (rest1.drop 1) out dotdot
      else
        let out : GoString :=
          if (rooted ∧ out.length ≠ 1) ∨ (!rooted ∧ out.length ≠ 0) then out ++ str "/" else out
        cleanLoop rooted fuel ((c :: rest1).dropWhile (· ≠ '/'.toNat))
          (out ++ (c :: rest1).takeWhile (· ≠ '/'.toNat)) dotdot

/-- Go `path.Clean`. -/
def Clean (path : GoString) : GoString :=
  if path = [] then str "."
  else
    let rooted : Bool := path.head? = some '/'.toNat
    let out : GoString :=
      if rooted then cleanLoop rooted path.length (path.drop 1) (str "/") 1
      else cleanLoop rooted path.length path [] 0
    if out.length = 0 then str "." else out

/-- Go `path.Join`. -/
def Join (elem : List GoString) : GoString :=
  if (elem.map List.length).sum = 0 then []
  else
    Clean (elem.foldl (fun buf e =>
      if buf ≠ [] ∨ e ≠ [] then (if buf ≠ [] then buf ++ str "/" else buf) ++ e else buf) [])

/-- Go `(*URL).JoinPath`. -/
def URL.JoinPath (u : URL) (elem : List GoString) : URL :=
  let elem0 := u.EscapedPath
  let elem : List GoString :=
    (if !HasPrefix elem0 (str "/") then str "/" ++ elem0 else elem0) :: elem
  let p : GoString :=
    if !HasPrefix elem0 (str "/") then (Join elem).drop 1 else Join elem
  let p : GoString :=
    if HasSuffix (elem.getLastD []) (str "/") ∧ !HasSuffix p (str "/") then p ++ str "/" else p
  u.setPathIgnoringError p

/-- The statements of Go `(*URL).joinPath` that compute the joined path `p`: the same
statements as in `(*URL).JoinPath`. -/
def URL.joinedPath (u : URL) (elem : List GoString) : GoString :=
  let elem0 := u.EscapedPath
  let elem : List GoString :=
    (if !HasPrefix elem0 (str "/") then str "/" ++ elem0 else elem0) :: elem
  let p : GoString :=
    if !HasPrefix elem0 (str "/") then (Join elem).drop 1 else Join elem
  if HasSuffix (elem.getLastD []) (str "/") ∧ !HasSuffix p (str "/") then p ++ str "/" else p

/-- Go `(*URL).joinPath`: the copy of `u` after `setPath(p)`, and the error of `setPath`.
It is `(*URL).JoinPath` together with the error that `JoinPath` drops. -/
def URL.joinPath (u : URL) (elem : List GoString) : URL × Option ErrKind :=
  match u.setPath (u.joinedPath elem) with
  | .ok url => (url, none)
  | .error e => (u, some e)

/-- The Go `error` values that `net/url.JoinPath` returns: the `*url.Error` of `Parse`, or
the error of `setPath` as `joinPath` returns it. -/
inductive JoinPathError
  | parse (err : Error)
  | setPath (err : ErrKind)
deriving DecidableEq, Repr

/-- Go `net/url.JoinPath`: `(result, err)`.  It returns the error of `joinPath`, as the
releases after go1.22 do (in go1.22 itself the error of `setPath` is dropped). -/
def JoinPath (base : GoString) (elem : List GoString) : GoString × Option JoinPathError :=
  match Parse base with
  | .error e => ([], some (.parse e))
  | .ok url =>
    match url.joinPath elem with
    | (_, some e) => ([], some (.setPath e))
    | (res, none) => (res.String, none)

/-! ## Package `urllib` -/

/-- The errors built by `fmt.Errorf` in `url.go`, one constructor per format string. -/
inductive Err
  | unableToParseInputURL (err : Error)
  | unableToParseBaseURL (err : Error)
  | emptyBaseURL
  | emptyPath
  | invalidBaseURL (err : Error)
  | unableToJoin (baseURL path : GoString) (err : JoinPathError)
deriving DecidableEq, Repr

/-- `IsAbsoluteURL` returns true if the link is absolute. -/
def IsAbsoluteURL (link : GoString) : Bool :=
  match Parse link with
  | .error _ => false
  | .ok u => u.IsAbs

/-- `GetAbsoluteURL` returns the absolute form of `input` if possible, as well as its
parsed form: `(absURL, u, err)`. -/
def GetAbsoluteURL (input : GoString) : GoString × Option URL × Option Err :=
  if HasPrefix input (str "//") then (str "https:" ++ input, none, none)
  else if HasPrefix input (str "https://") ∨ HasPrefix input (str "http://") then
    (input, none, none)
  else
    match Parse input with
    | .error err => ([], none, some (.unableToParseInputURL err))
    | .ok u => if u.IsAbs then (u.String, some u, none) else ([], some u, none)

/-- `AbsoluteURL` converts the input URL as absolute URL if necessary: `(url, err)`. -/
def AbsoluteURL (baseURL input : GoString) : GoString × Option Err :=
  match GetAbsoluteURL input with
  | (_, _, some err) => ([], some err)
  | (absURL, u, none) =>
    if absURL ≠ [] then (absURL, none)
    else
      match Parse baseURL with
      | .error err => ([], some (.unableToParseBaseURL err))
      | .ok base =>
        match u with
        | some u => ((base.ResolveReference u).String, none)
        -- not reached: `u` is nil only together with a non-empty `absURL`
        | none => ([], none)

/-- `RootURL` returns absolute URL without the path. -/
def RootURL (websiteURL : GoString) : GoString :=
  let websiteURL : GoString :=
    if HasPrefix websiteURL (str "//") then str "https://" ++ websiteURL.drop 2
    else websiteURL
  match AbsoluteURL websiteURL [] with
  | (_, some _) => websiteURL
  | (absoluteURL, none) =>
    match Parse absoluteURL with
    | .error _ => absoluteURL
    | .ok u => u.Scheme ++ str "://" ++ u.Host ++ str "/"

/-- `IsHTTPS` returns true if the URL is using HTTPS. -/
def IsHTTPS (websiteURL : GoString) : Bool :=
  match Parse websiteURL with
  | .error _ => false
  | .ok parsedURL => EqualFold parsedURL.Scheme (str "https")

/-- `Domain` returns only the domain part of the given URL. -/
def Domain (websiteURL : GoString) : GoString :=
  match Parse websiteURL with
  | .error _ => websiteURL
  | .ok parsedURL => parsedURL.Host

/-- `DomainWithoutWWW` returns only the domain part of the given URL, with the "www."
prefix removed if present. -/
def DomainWithoutWWW (websiteURL : GoString) : GoString :=
  TrimPrefix (Domain websiteURL) (str "www.")

/-- `JoinBaseURLAndPath` returns a URL string with the provided path elements joined
together: `(url, err)`. -/
def JoinBaseURLAndPath (baseURL path : GoString) : GoString × Option Err :=
  if baseURL = [] then ([], some .emptyBaseURL)
  else if path = [] then ([], some .emptyPath)
  else
    match Parse baseURL with
    | .error err => ([], some (.invalidBaseURL err))
    | .ok _ =>
      match JoinPath baseURL [path] with
      | (_, some err) => ([], some (.unableToJoin baseURL path err))
      | (finalURL, none) => (finalURL, none)

/-! ## Vocabulary of the specification -/

/-- An ASCII letter or digit. -/
def isAlnum (c : Nat) : Bool :=
  ('a'.toNat ≤ c && c ≤ 'z'.toNat) || ('A'.toNat ≤ c && c ≤ 'Z'.toNat) ||
    ('0'.toNat ≤ c && c ≤ '9'.toNat)

/-- A byte allowed in the hosts of the specification: an ASCII letter or digit, `.` or
`-`. -/
def isHostByte (c : Nat) : Bool := isAlnum c || c == '.'.toNat || c == '-'.toNat

/-- A byte allowed in the paths and queries of the specification: an ASCII letter or digit,
or `/`. -/
def isPathByte (c : Nat) : Bool := isAlnum c || c == '/'.toNat

/-- A byte that is never escaped and has no role in the syntax of a URL other than
separating path segments: an ASCII letter or digit, `/`, `.` or `-`. -/
def isPlainByte (c : Nat) : Bool :=
  isAlnum c || c == '/'.toNat || c == '.'.toNat || c == '-'.toNat

/-- A validly percent-encoded string: every `%` is followed by two hexadecimal digits. -/
def validEscapes : GoString → Bool
  | [] => true
  | c :: rest =>
    if c = '%'.toNat then
      match rest with
      | h1 :: h2 :: rest2 => ishex h1 && ishex h2 && validEscapes rest2
      | _ => false
    else validEscapes rest

/-- A segment of the specification: a non-empty string of ASCII letters and digits. -/
def isSegment (s : GoString) : Bool := !s.isEmpty && s.all isAlnum

/-- The segments, each one preceded by a slash: `/s1/s2/.../sn`. -/
def slashed (segs : List GoString) : GoString := (segs.map fun s => str "/" ++ s).flatten

/-- The segments joined by slashes: `s1/s2/.../sn`. -/
def joined (segs : List GoString) : GoString := (str "/").intercalate segs

/-- An ASCII letter. -/
def isLetter (c : Nat) : Bool :=
  ('a'.toNat ≤ c && c ≤ 'z'.toNat) || ('A'.toNat ≤ c && c ≤ 'Z'.toNat)

/-- A byte that `getScheme` accepts after the first one: an ASCII letter or digit, `+`, `-`
or `.`. -/
def isSchemeByte (c : Nat) : Bool :=
  isLetter c || ('0'.toNat ≤ c && c ≤ '9'.toNat) || c == '+'.toNat || c == '-'.toNat ||
    c == '.'.toNat

/-- A scheme as `getScheme` accepts it: a letter followed by scheme bytes. -/
def validScheme : GoString → Bool
  | [] => false
  | c :: rest => isLetter c && rest.all isSchemeByte

/-- A byte that a parsed host holds and that is parsed back as itself: a byte other than
`%` that is not ASCII or that `unescape` accepts unescaped in a host. -/
def isRawHostByte (c : Nat) : Bool :=
  decide (c < 256) && (c != '%'.toNat) && (decide (128 ≤ c) || !shouldEscape c encodeHost)

/-! ## Lemmas on the library functions -/

theorem setPath_ok {u v : URL} {p : GoString} (h : u.setPath p = .ok v) :
    v.Scheme = u.Scheme ∧ v.Opaque = u.Opaque ∧ v.User = u.User ∧ v.Host = u.Host ∧
    v.OmitHost = u.OmitHost ∧ v.ForceQuery = u.ForceQuery ∧ v.RawQuery = u.RawQuery ∧
    v.Fragment = u.Fragment ∧ v.RawFragment = u.RawFragment := by
  unfold URL.setPath at h
  split at h
  · cases h
  · split at h <;> (cases h; simp)

theorem setFragment_ok {u v : URL} {f : GoString} (h : u.setFragment f = .ok v) :
    v.Scheme = u.Scheme ∧ v.Opaque = u.Opaque ∧ v.User = u.User ∧ v.Host = u.Host ∧
    v.Path = u.Path ∧ v.RawPath = u.RawPath ∧
    v.OmitHost = u.OmitHost ∧ v.ForceQuery = u.ForceQuery ∧ v.RawQuery = u.RawQuery := by
  unfold URL.setFragment at h
  split at h
  · cases h
  · split at h <;> (cases h; simp)

theorem parseRest_ok_scheme {url u : URL} {rest : GoString} {v : Bool}
    (h : parseRest url rest v = .ok u) : u.Scheme = url.Scheme := by
  unfold parseRest at h
  split at h
  · cases h; rfl
  split at h
  · cases h
  split at h
  · cases h
  split at h
  · simp only at h
    split at h
    · cases h
    · exact (setPath_ok h).1
  split at h
  · exact (setPath_ok h).1
  · exact (setPath_ok h).1

theorem parse_ok_scheme {raw : GoString} {v : Bool} {u : URL} (h : parse raw v = .ok u) :
    u.Scheme = ToLower (getScheme raw).1 := by
  unfold parse at h
  split at h
  · cases h
  split at h
  · cases h
  split at h
  · rename_i h1 h2 h3; cases h; subst h3; decide
  split at h
  · cases h
  rename_i scheme rest heq
  rw [heq]
  simp only at h
  exact parseRest_ok_scheme h

theorem Parse_ok_scheme {raw : GoString} {u : URL} (h : Parse raw = .ok u) :
    u.Scheme = ToLower (getScheme (Cut raw (str "#")).1).1 := by
  unfold Parse at h
  simp only at h
  split at h
  · cases h
  rename_i url hp
  split at h
  · cases h; exact parse_ok_scheme hp
  split at h
  · cases h
  · rename_i url2 hf
    cases h
    rw [(setFragment_ok hf).1]; exact parse_ok_scheme hp

theorem Index_cons_single (c x : Nat) (cs : GoString) :
    Index (c :: cs) [x] = if x = c then some 0 else (Index cs [x]).map (· + 1) := by
  simp [Index, List.isPrefixOf]

theorem Cut_cons_single_ne {c x : Nat} (cs : GoString) (h : x ≠ c) :
    Cut (c :: cs) [x] = (c :: (Cut cs [x]).1, (Cut cs [x]).2.1, (Cut cs [x]).2.2) := by
  unfold Cut
  rw [Index_cons_single, if_neg h]
  cases Index cs [x] <;> simp

theorem Cut_fst_pfx (s sep : GoString) : (Cut s sep).1 <+: s := by
  unfold Cut
  cases Index s sep with
  | none => simp
  | some i => exact List.take_prefix i s

theorem HasPrefix_iff (s pre : GoString) : HasPrefix s pre = true ↔ pre <+: s := by
  simp [HasPrefix]

theorem getScheme_slash (t : GoString) :
    getScheme ('/'.toNat :: t) = ([], '/'.toNat :: t, none) := by
  simp [getScheme, getSchemeLoop]

theorem writeAuthority_pfx (u : URL) (buf : GoString) : buf <+: u.writeAuthority buf := by
  unfold URL.writeAuthority
  simp only []
  split_ifs <;> (try split) <;>
    simp [List.append_assoc]

theorem writePath_pfx (u : URL) (buf : GoString) : buf <+: u.writePath buf := by
  unfold URL.writePath
  simp only []
  split_ifs <;> simp [List.append_assoc]

theorem writeQueryFragment_pfx (u : URL) (buf : GoString) :
    buf <+: u.writeQueryFragment buf := by
  unfold URL.writeQueryFragment
  simp only []
  split_ifs <;> simp [List.append_assoc]

theorem String_pfx (u : URL) :
    (if u.Scheme ≠ [] then u.Scheme ++ str ":" else []) <+: u.String := by
  unfold URL.String
  simp only []
  refine List.IsPrefix.trans ?_ (writeQueryFragment_pfx _ _)
  split_ifs with h1 h2 h2
  · simp
  · exact (writeAuthority_pfx _ _).trans (writePath_pfx _ _)
  · simp
  · simp

theorem String_ne_nil (u : URL) (h : u.Scheme ≠ []) : u.String ≠ [] := by
  have hp := String_pfx u
  rw [if_pos h] at hp
  intro hc
  rw [hc] at hp
  simp at hp
  exact absurd hp.2 (by decide)

theorem Cut_fst_cons_ne {c x : Nat} (cs : GoString) (h : x ≠ c) :
    (Cut (c :: cs) [x]).1 = c :: (Cut cs [x]).1 := by
  rw [Cut_cons_single_ne cs h]

/-- A URL that starts with `/` has no scheme. -/
theorem Parse_scheme_of_slash {t : GoString} {u : URL}
    (h : Parse ('/'.toNat :: t) = .ok u) : u.Scheme = [] := by
  have := Parse_ok_scheme h
  rw [show str "#" = ['#'.toNat] from rfl, Cut_fst_cons_ne _ (by decide), getScheme_slash] at this
  simpa [ToLower] using this

theorem HasPrefix_cons_of {s : GoString} {c : Nat} {rest : GoString}
    (h : HasPrefix s (c :: rest) = true) : ∃ t, s = c :: t := by
  rw [HasPrefix_iff] at h
  obtain ⟨t, ht⟩ := h
  exact ⟨rest ++ t, by simp [← ht]⟩

theorem Parse_ok_iff_IsAbs (input : GoString) :
    IsAbsoluteURL input = true ↔ ∃ u, Parse input = .ok u ∧ u.Scheme ≠ [] := by
  unfold IsAbsoluteURL
  cases h : Parse input with
  | error e => simp
  | ok u => simp [URL.IsAbs]

/-- The three shapes of input of `GetAbsoluteURL`. -/
theorem GetAbsoluteURL_of_slashes {input : GoString} (h : HasPrefix input (str "//") = true) :
    GetAbsoluteURL input = (str "https:" ++ input, none, none) := by
  unfold GetAbsoluteURL; rw [if_pos h]

theorem GetAbsoluteURL_of_http {input : GoString} (h1 : HasPrefix input (str "//") = false)
    (h2 : HasPrefix input (str "https://") = true ∨ HasPrefix input (str "http://") = true) :
    GetAbsoluteURL input = (input, none, none) := by
  unfold GetAbsoluteURL; rw [if_neg (by simp [h1]), if_pos h2]

theorem GetAbsoluteURL_of_other {input : GoString} (h1 : HasPrefix input (str "//") = false)
    (h2 : HasPrefix input (str "https://") = false) (h3 : HasPrefix input (str "http://") = false) :
    GetAbsoluteURL input =
      match Parse input with
      | .error err => ([], none, some (.unableToParseInputURL err))
      | .ok u => if u.IsAbs then (u.String, some u, none) else ([], some u, none) := by
  unfold GetAbsoluteURL; rw [if_neg (by simp [h1]), if_neg (by simp [h2, h3])]

theorem HasPrefix_ne_nil {s : GoString} {c : Nat} {rest : GoString}
    (h : HasPrefix s (c :: rest) = true) : s ≠ [] := by
  obtain ⟨t, rfl⟩ := HasPrefix_cons_of h
  simp

theorem getScheme_http (t : GoString) :
    getScheme (str "http:" ++ t) = (str "http", t, none) := by
  simp [getScheme, getSchemeLoop, str]

theorem getScheme_https (t : GoString) :
    getScheme (str "https:" ++ t) = (str "https", t, none) := by
  simp [getScheme, getSchemeLoop, str]

theorem Cut_hash_http (t : GoString) :
    (Cut (str "http:" ++ t) (str "#")).1 = str "http:" ++ (Cut t (str "#")).1 := by
  show (Cut ('h'.toNat :: 't'.toNat :: 't'.toNat :: 'p'.toNat :: ':'.toNat :: t) ['#'.toNat]).1 = _
  rw [Cut_fst_cons_ne _ (by decide), Cut_fst_cons_ne _ (by decide), Cut_fst_cons_ne _ (by decide),
    Cut_fst_cons_ne _ (by decide), Cut_fst_cons_ne _ (by decide)]
  rfl

theorem Cut_hash_https (t : GoString) :
    (Cut (str "https:" ++ t) (str "#")).1 = str "https:" ++ (Cut t (str "#")).1 := by
  show (Cut ('h'.toNat :: 't'.toNat :: 't'.toNat :: 'p'.toNat :: 's'.toNat :: ':'.toNat :: t)
    ['#'.toNat]).1 = _
  rw [Cut_fst_cons_ne _ (by decide), Cut_fst_cons_ne _ (by decide), Cut_fst_cons_ne _ (by decide),
    Cut_fst_cons_ne _ (by decide), Cut_fst_cons_ne _ (by decide), Cut_fst_cons_ne _ (by decide)]
  rfl

/-- A string that starts with `http:` or `https:` and parses has that scheme. -/
theorem Parse_scheme_of_http {input : GoString} {u : URL}
    (h : HasPrefix input (str "https://") = true ∨ HasPrefix input (str "http://") = true)
    (hp : Parse input = .ok u) : u.Scheme = str "https" ∨ u.Scheme = str "http" := by
  have hs := Parse_ok_scheme hp
  rcases h with h | h
  · left
    obtain ⟨t, rfl⟩ := (HasPrefix_iff _ _).1 h
    rw [show str "https://" ++ t = str "https:" ++ (str "//" ++ t) from rfl, Cut_hash_https,
      getScheme_https] at hs
    rw [hs]; rfl
  · right
    obtain ⟨t, rfl⟩ := (HasPrefix_iff _ _).1 h
    rw [show str "http://" ++ t = str "http:" ++ (str "//" ++ t) from rfl, Cut_hash_http,
      getScheme_http] at hs
    rw [hs]; rfl

theorem AbsoluteURL_of_parse_error {baseURL input : GoString} {err : Error}
    (h1 : HasPrefix input (str "//") = false) (h2 : HasPrefix input (str "https://") = false)
    (h3 : HasPrefix input (str "http://") = false) (hp : Parse input = .error err) :
    AbsoluteURL baseURL input = ([], some (.unableToParseInputURL err)) := by
  unfold AbsoluteURL
  rw [GetAbsoluteURL_of_other h1 h2 h3, hp]

theorem setPath_ok_fields {u v : URL} {p : GoString} (h : u.setPath p = .ok v) :
    ∃ path raw, v = { u with Path := path, RawPath := raw } := by
  unfold URL.setPath at h
  split at h
  · cases h
  · split at h <;> (cases h; exact ⟨_, _, rfl⟩)

theorem setPathIgnoringError_fields (u : URL) (p : GoString) :
    ∃ path raw, u.setPathIgnoringError p = { u with Path := path, RawPath := raw } := by
  unfold URL.setPathIgnoringError
  split
  · rename_i v h; exact setPath_ok_fields h
  · exact ⟨u.Path, u.RawPath, rfl⟩

/-- What `parseRest` leaves in the fields other than the path. -/
theorem parseRest_ok_fields {url u : URL} {rest : GoString} {v : Bool}
    (h : parseRest url rest v = .ok u) :
    u.Scheme = url.Scheme ∧ u.ForceQuery = url.ForceQuery ∧ u.RawQuery = url.RawQuery ∧
    u.Fragment = url.Fragment ∧ u.RawFragment = url.RawFragment ∧
    ((u.Opaque = rest ∧ u.Host = url.Host ∧ u.User = url.User ∧ u.Path = url.Path ∧
        url.Scheme ≠ [] ∧ HasPrefix rest (str "/") = false) ∨
      (u.Opaque = url.Opaque ∧ HasPrefix rest (str "//") = true) ∨
      (u.Opaque = url.Opaque ∧ u.Host = url.Host ∧ u.User = url.User)) := by
  unfold parseRest at h
  split at h
  · rename_i hc
    cases h
    simp only [true_and]
    left
    simp at hc
    simp [hc]
  split at h
  · cases h
  split at h
  · cases h
  split at h
  · rename_i hc
    simp only at h
    split at h
    · cases h
    · obtain ⟨p, r, rfl⟩ := setPath_ok_fields h
      simp [hc.2]
  split at h
  · obtain ⟨p, r, rfl⟩ := setPath_ok_fields h
    simp
  · obtain ⟨p, r, rfl⟩ := setPath_ok_fields h
    simp

/-- The results of the scanning loop of `getScheme`. -/
theorem getSchemeLoop_cases (raw : GoString) (i : Nat) (s : GoString) :
    getSchemeLoop raw i s = ([], raw, none) ∨
    getSchemeLoop raw i s = ([], [], some .missingProtocolScheme) ∨
    ∃ j, 0 < j ∧ getSchemeLoop raw i s = (raw.take j, raw.drop (j + 1), none) := by
  induction s generalizing i with
  | nil => left; rfl
  | cons c cs ih =>
    unfold getSchemeLoop
    split
    · exact ih _
    split
    · split
      · left; rfl
      · exact ih _
    split
    · split
      · right; left; rfl
      · right; right; exact ⟨i, by omega, rfl⟩
    · left; rfl

theorem Parse_nil : Parse [] = .ok {} := by rfl

theorem GetAbsoluteURL_nil : GetAbsoluteURL [] = ([], some {}, none) := by rfl

theorem EscapedPath_empty : ({} : URL).EscapedPath = [] := by rfl

/-- Setting the path changes no other field. -/
theorem setPathIgnoringError_keeps (u : URL) (p : GoString) :
    (u.setPathIgnoringError p).Scheme = u.Scheme ∧
    (u.setPathIgnoringError p).Opaque = u.Opaque ∧
    (u.setPathIgnoringError p).User = u.User ∧
    (u.setPathIgnoringError p).Host = u.Host ∧
    (u.setPathIgnoringError p).OmitHost = u.OmitHost ∧
    (u.setPathIgnoringError p).ForceQuery = u.ForceQuery ∧
    (u.setPathIgnoringError p).RawQuery = u.RawQuery ∧
    (u.setPathIgnoringError p).Fragment = u.Fragment ∧
    (u.setPathIgnoringError p).RawFragment = u.RawFragment := by
  obtain ⟨path, raw, h⟩ := setPathIgnoringError_fields u p
  rw [h]
  simp

/-- Resolving the empty reference. -/
theorem ResolveReference_empty (base : URL) :
    base.ResolveReference {} =
      if base.Opaque ≠ [] then
        { Scheme := base.Scheme, Opaque := base.Opaque, RawQuery := base.RawQuery,
          Fragment := base.Fragment, RawFragment := base.RawFragment }
      else
        ({ Scheme := base.Scheme, User := base.User, Host := base.Host,
           RawQuery := base.RawQuery, Fragment := base.Fragment,
           RawFragment := base.RawFragment } : URL).setPathIgnoringError
          (resolvePath base.EscapedPath []) := by
  unfold URL.ResolveReference
  simp only [EscapedPath_empty]
  simp

/-- A validly escaped path: every `%` is followed by two hexadecimal digits. -/
theorem unescapeCheck_path_cons_ne {c : Nat} (s : GoString) (h : c ≠ '%'.toNat) :
    unescapeCheck encodePath (c :: s) = unescapeCheck encodePath s := by
  conv_lhs => unfold unescapeCheck
  simp only [if_neg h]
  split
  · rfl
  · simp

theorem unescapeCheck_path_percent (h1 h2 : Nat) (s : GoString) :
    unescapeCheck encodePath ('%'.toNat :: h1 :: h2 :: s) = none ↔
      ishex h1 = true ∧ ishex h2 = true ∧ unescapeCheck encodePath s = none := by
  by_cases a : ishex h1 = true <;> by_cases b : ishex h2 = true <;> simp [unescapeCheck, a, b]

theorem unescapeCheck_path_percent_short (s : GoString) (h : s.length < 2) :
    unescapeCheck encodePath ('%'.toNat :: s) ≠ none := by
  match s, h with
  | [], _ => simp [unescapeCheck]
  | [a], _ => simp [unescapeCheck]

theorem unescapeCheck_path_append : ∀ (n : Nat) (a b : GoString), a.length ≤ n →
    unescapeCheck encodePath a = none → unescapeCheck encodePath b = none →
    unescapeCheck encodePath (a ++ b) = none := by
  intro n
  induction n with
  | zero =>
    intro a b hl ha hb
    have : a = [] := List.length_eq_zero.mp (by omega)
    subst this; simpa using hb
  | succ n ih =>
    intro a b hl ha hb
    match a, hl, ha with
    | [], _, _ => simpa using hb
    | c :: a1, hl, ha =>
      by_cases hc : c = '%'.toNat
      · subst hc
        match a1, hl, ha with
        | [], _, ha => exact absurd ha (unescapeCheck_path_percent_short [] (by simp))
        | [x], _, ha => exact absurd ha (unescapeCheck_path_percent_short [x] (by simp))
        | h1 :: h2 :: a2, hl, ha =>
          rw [unescapeCheck_path_percent] at ha
          show unescapeCheck encodePath ('%'.toNat :: h1 :: h2 :: (a2 ++ b)) = none
          rw [unescapeCheck_path_percent]
          exact ⟨ha.1, ha.2.1, ih a2 b (by simp at hl; omega) ha.2.2 hb⟩
      · rw [unescapeCheck_path_cons_ne _ hc] at ha
        show unescapeCheck encodePath (c :: (a1 ++ b)) = none
        rw [unescapeCheck_path_cons_ne _ hc]
        exact ih a1 b (by simp at hl; omega) ha hb

theorem ishex_slash : ishex '/'.toNat = false := by decide

theorem unescapeCheck_path_split : ∀ (n : Nat) (a b : GoString), a.length ≤ n →
    unescapeCheck encodePath (a ++ '/'.toNat :: b) = none →
    unescapeCheck encodePath a = none ∧ unescapeCheck encodePath b = none := by
  intro n
  induction n with
  | zero =>
    intro a b hl h
    have : a = [] := List.length_eq_zero.mp (by omega)
    subst this
    rw [List.nil_append, unescapeCheck_path_cons_ne _ (by decide)] at h
    exact ⟨rfl, h⟩
  | succ n ih =>
    intro a b hl h
    match a, hl, h with
    | [], _, h =>
      rw [List.nil_append, unescapeCheck_path_cons_ne _ (by decide)] at h
      exact ⟨rfl, h⟩
    | c :: a1, hl, h =>
      by_cases hc : c = '%'.toNat
      · subst hc
        match a1, hl, h with
        | [], _, h =>
          exfalso
          match b, h with
          | [], h => exact unescapeCheck_path_percent_short _ (by simp) h
          | x :: b1, h =>
            have h : unescapeCheck encodePath ('%'.toNat :: '/'.toNat :: x :: b1) = none := h
            rw [unescapeCheck_path_percent] at h
            exact absurd h.1 (by decide)
        | [x], _, h =>
          exfalso
          have h : unescapeCheck encodePath ('%'.toNat :: x :: '/'.toNat :: b) = none := h
          rw [unescapeCheck_path_percent] at h
          exact absurd h.2.1 (by decide)
        | h1 :: h2 :: a2, hl, h =>
          have h : unescapeCheck encodePath ('%'.toNat :: h1 :: h2 :: (a2 ++ '/'.toNat :: b)) =
            none := h
          rw [unescapeCheck_path_percent] at h
          obtain ⟨e1, e2⟩ := ih a2 b (by simp at hl; omega) h.2.2
          exact ⟨(unescapeCheck_path_percent _ _ _).2 ⟨h.1, h.2.1, e1⟩, e2⟩
      · have h : unescapeCheck encodePath (c :: (a1 ++ '/'.toNat :: b)) = none := h
        rw [unescapeCheck_path_cons_ne _ hc] at h
        obtain ⟨e1, e2⟩ := ih a1 b (by simp at hl; omega) h
        rw [unescapeCheck_path_cons_ne _ hc]
        exact ⟨e1, e2⟩

theorem unescapeDecode_path_cons_ne {c : Nat} (s : GoString) (h : c ≠ '%'.toNat) :
    unescapeDecode encodePath (c :: s) = c :: unescapeDecode encodePath s := by
  conv_lhs => unfold unescapeDecode
  simp only [if_neg h]
  split
  · rename_i hp; rw [hp]; rfl
  · rfl

/-- A string without `%` is validly escaped and is its own decoding. -/
theorem unescape_path_of_no_percent (s : GoString) (h : ∀ x ∈ s, x ≠ '%'.toNat) :
    unescapeCheck encodePath s = none ∧ unescapeDecode encodePath s = s := by
  induction s with
  | nil => exact ⟨rfl, rfl⟩
  | cons c cs ih =>
    have hc : c ≠ '%'.toNat := h c (List.mem_cons_self _ _)
    obtain ⟨e1, e2⟩ := ih (fun x hx => h x (List.mem_cons_of_mem _ hx))
    rw [unescapeCheck_path_cons_ne _ hc, unescapeDecode_path_cons_ne _ hc, e2]
    exact ⟨e1, rfl⟩

theorem shouldEscape_percent (mode : Encoding) : shouldEscape '%'.toNat mode = true := by
  cases mode <;> decide

theorem upperhex_ishex (k : Nat) (h : k < 16) : ishex (upperhex.getD k 0) = true := by
  interval_cases k <;> decide

/-- The output of `escape` in path mode is validly escaped. -/
theorem unescapeCheck_escape (s : GoString) :
    unescapeCheck encodePath (escape s encodePath) = none := by
  induction s with
  | nil => rfl
  | cons c cs ih =>
    have hcons : escape (c :: cs) encodePath =
        (if shouldEscape c encodePath then
          ['%'.toNat, upperhex.getD (c / 16 % 16) 0, upperhex.getD (c % 16) 0]
        else [c]) ++ escape cs encodePath := by
      simp [escape, List.flatMap_cons]
    rw [hcons]
    split
    · show unescapeCheck encodePath ('%'.toNat :: _ :: _ :: escape cs encodePath) = none
      rw [unescapeCheck_path_percent]
      exact ⟨upperhex_ishex _ (Nat.mod_lt _ (by decide)),
        upperhex_ishex _ (Nat.mod_lt _ (by decide)), ih⟩
    · rename_i hse
      have hc : c ≠ '%'.toNat := by
        rintro rfl
        exact hse (shouldEscape_percent _)
      show unescapeCheck encodePath (c :: escape cs encodePath) = none
      rw [unescapeCheck_path_cons_ne _ hc]
      exact ih

theorem unescape_ok_iff (s p : GoString) (mode : Encoding) :
    unescape s mode = .ok p ↔ unescapeCheck mode s = none ∧ p = unescapeDecode mode s := by
  unfold unescape
  cases unescapeCheck mode s with
  | none => simp [eq_comm]
  | some e => simp

/-- The escaped path of a URL is validly escaped. -/
theorem unescapeCheck_EscapedPath (u : URL) : unescapeCheck encodePath u.EscapedPath = none := by
  unfold URL.EscapedPath
  simp only
  split
  · rename_i h
    simp only [Bool.and_eq_true] at h
    have h3 := h.2
    split at h3
    · rename_i p hp
      exact ((unescape_ok_iff _ _ _).1 hp).1
    · cases h3
  split
  · rfl
  · exact unescapeCheck_escape _

theorem cleanLoop_nil (rooted : Bool) (fuel : Nat) (out : GoString) (dotdot : Nat) :
    cleanLoop rooted fuel [] out dotdot = out := by
  cases fuel <;> rfl

/-- One iteration of the loop of `Clean` on a rooted path. -/
theorem cleanLoop_cons (fuel c : Nat) (rest1 out : GoString) :
    cleanLoop true (fuel + 1) (c :: rest1) out 1 =
      if c = '/'.toNat then cleanLoop true fuel rest1 out 1
      else if c = '.'.toNat ∧ (rest1 = [] ∨ rest1.head? = some '/'.toNat) then
        cleanLoop true fuel rest1 out 1
      else if c = '.'.toNat ∧ rest1.head? = some '.'.toNat ∧
          (rest1.drop 1 = [] ∨ (rest1.drop 1).head? = some '/'.toNat) then
        cleanLoop true fuel (rest1.drop 1)
          (if out.length > 1 then out.take (cleanBacktrack out 1 (out.length - 1)) else out) 1
      else
        cleanLoop true fuel ((c :: rest1).dropWhile (· ≠ '/'.toNat))
          ((if out.length ≠ 1 then out ++ str "/" else out) ++
            (c :: rest1).takeWhile (· ≠ '/'.toNat)) 1 := by
  conv_lhs => unfold cleanLoop
  simp only [Bool.not_true, Bool.false_eq_true, if_false, false_and, or_false, true_and]
  split_ifs <;> rfl

theorem takeWhile_append_slash (a b : GoString) :
    (a ++ '/'.toNat :: b).takeWhile (· ≠ '/'.toNat) = a.takeWhile (· ≠ '/'.toNat) := by
  induction a with
  | nil => simp
  | cons c cs ih =>
    by_cases h : c = '/'.toNat
    · simp [List.takeWhile_cons, h]
    · simp only [List.cons_append, List.takeWhile_cons, ne_eq, h, not_false_eq_true,
        decide_True, if_true]
      rw [← ih]

theorem dropWhile_append_slash (a b : GoString) :
    (a ++ '/'.toNat :: b).dropWhile (· ≠ '/'.toNat) =
      a.dropWhile (· ≠ '/'.toNat) ++ '/'.toNat :: b := by
  induction a with
  | nil => simp
  | cons c cs ih =>
    by_cases h : c = '/'.toNat
    · simp [List.dropWhile_cons, h]
    · simp only [List.cons_append, List.dropWhile_cons, ne_eq, h, not_false_eq_true,
        decide_True, if_true]
      rw [← ih]

theorem dropWhile_length_le (a : GoString) :
    (a.dropWhile (· ≠ '/'.toNat)).length ≤ a.length :=
  (List.dropWhile_suffix _).length_le

theorem cleanLoop_dot_cond_append (c : Nat) (x1 seg : GoString) :
    (c = '.'.toNat ∧ (x1 ++ '/'.toNat :: seg = [] ∨
      (x1 ++ '/'.toNat :: seg).head? = some '/'.toNat)) ↔
    (c = '.'.toNat ∧ (x1 = [] ∨ x1.head? = some '/'.toNat)) := by
  cases x1 <;> simp

theorem cleanLoop_dotdot_cond_append (c : Nat) (x1 seg : GoString) :
    (c = '.'.toNat ∧ (x1 ++ '/'.toNat :: seg).head? = some '.'.toNat ∧
      ((x1 ++ '/'.toNat :: seg).drop 1 = [] ∨
        ((x1 ++ '/'.toNat :: seg).drop 1).head? = some '/'.toNat)) ↔
    (c = '.'.toNat ∧ x1.head? = some '.'.toNat ∧
      (x1.drop 1 = [] ∨ (x1.drop 1).head? = some '/'.toNat)) := by
  match x1 with
  | [] => simp
  | [y] => simp
  | y :: z :: x2 => simp

/-- Cleaning a rooted path that ends with a slash and a plain last element: the element is
appended to what cleaning the rest gives. -/
theorem cleanLoop_append_segment (s0 : Nat) (ss : GoString) (h0 : s0 ≠ '/'.toNat)
    (h1 : s0 ≠ '.'.toNat) (hs : ∀ y ∈ ss, y ≠ '/'.toNat) :
    ∀ (fuel : Nat) (x out : GoString), x.length + (s0 :: ss).length + 1 ≤ fuel →
      cleanLoop true fuel (x ++ '/'.toNat :: s0 :: ss) out 1 =
        (if (cleanLoop true fuel x out 1).length ≠ 1 then cleanLoop true fuel x out 1 ++ str "/"
          else cleanLoop true fuel x out 1) ++ s0 :: ss := by
  intro fuel
  induction fuel with
  | zero => intro x out h; simp at h
  | succ fuel ih =>
    intro x out h
    match x with
    | [] =>
      obtain ⟨f, rfl⟩ : ∃ f, fuel = f + 1 := ⟨fuel - 1, by simp at h; omega⟩
      have htw : (s0 :: ss).takeWhile (· ≠ '/'.toNat) = s0 :: ss := by
        rw [List.takeWhile_eq_self_iff]
        intro y hy
        rcases List.mem_cons.1 hy with rfl | hy
        · simpa using h0
        · simpa using hs y hy
      have hdw : (s0 :: ss).dropWhile (· ≠ '/'.toNat) = [] := by
        rw [List.dropWhile_eq_nil_iff]
        intro y hy
        rcases List.mem_cons.1 hy with rfl | hy
        · simpa using h0
        · simpa using hs y hy
      rw [List.nil_append, cleanLoop_cons, if_pos rfl, cleanLoop_cons, if_neg h0,
        if_neg (fun hc => h1 hc.1), if_neg (fun hc => h1 hc.1), htw, hdw, cleanLoop_nil,
        cleanLoop_nil]
    | c :: x1 =>
      rw [List.cons_append, cleanLoop_cons, cleanLoop_cons]
      have hl : x1.length + (s0 :: ss).length + 1 ≤ fuel := by
        simp only [List.length_cons] at h ⊢; omega
      by_cases hc1 : c = '/'.toNat
      · rw [if_pos hc1, if_pos hc1]
        exact ih x1 out hl
      rw [if_neg hc1, if_neg hc1]
      by_cases hc2 : c = '.'.toNat ∧ (x1 = [] ∨ x1.head? = some '/'.toNat)
      · rw [if_pos hc2, if_pos ((cleanLoop_dot_cond_append c x1 (s0 :: ss)).2 hc2)]
        exact ih x1 out hl
      rw [if_neg hc2, if_neg (fun hc => hc2 ((cleanLoop_dot_cond_append c x1 (s0 :: ss)).1 hc))]
      by_cases hc3 : c = '.'.toNat ∧ x1.head? = some '.'.toNat ∧
          (x1.drop 1 = [] ∨ (x1.drop 1).head? = some '/'.toNat)
      · rw [if_pos hc3, if_pos ((cleanLoop_dotdot_cond_append c x1 (s0 :: ss)).2 hc3)]
        obtain ⟨y, x2, rfl⟩ : ∃ y x2, x1 = y :: x2 := by
          cases x1 with
          | nil => simp at hc3
          | cons y x2 => exact ⟨y, x2, rfl⟩
        simp only [List.cons_append, List.drop_succ_cons, List.drop_zero]
        exact ih x2 _ (by simp only [List.length_cons] at hl ⊢; omega)
      rw [if_neg hc3,
        if_neg (fun hc => hc3 ((cleanLoop_dotdot_cond_append c x1 (s0 :: ss)).1 hc))]
      rw [← List.cons_append, takeWhile_append_slash, dropWhile_append_slash]
      refine ih _ _ ?_
      have := dropWhile_length_le (c :: x1)
      have h2 : (c :: x1).dropWhile (· ≠ '/'.toNat) = x1.dropWhile (· ≠ '/'.toNat) := by
        rw [List.dropWhile_cons, if_pos (by simpa using hc1)]
      rw [h2]
      have := dropWhile_length_le x1
      omega

/-- Where the backward scan of the `..` case of `Clean` stops. -/
theorem cleanBacktrack_spec (out : GoString) :
    ∀ w, 1 ≤ w → 1 ≤ cleanBacktrack out 1 w ∧ cleanBacktrack out 1 w ≤ w ∧
      (cleanBacktrack out 1 w = 1 ∨ out.getD (cleanBacktrack out 1 w) 0 = '/'.toNat) := by
  intro w
  induction w with
  | zero => intro h; omega
  | succ w ih =>
    intro _
    unfold cleanBacktrack
    split
    · rename_i hc
      obtain ⟨a, b, c⟩ := ih (by omega)
      exact ⟨a, by omega, c⟩
    · rename_i hc
      refine ⟨by omega, le_refl _, ?_⟩
      by_cases h1 : w + 1 > 1
      · right
        by_contra h2
        exact hc ⟨h1, h2⟩
      · left; omega

theorem unescapeCheck_path_take_of_slash (out : GoString) (k : Nat)
    (hv : unescapeCheck encodePath out = none) (hk : out.getD k 0 = '/'.toNat) :
    unescapeCheck encodePath (out.take k) = none := by
  by_cases hlt : k < out.length
  · have hsplit : out = out.take k ++ '/'.toNat :: out.drop (k + 1) := by
      have hget : out[k] = '/'.toNat := by
        rw [List.getD_eq_getElem _ _ hlt] at hk
        exact hk
      rw [← hget]
      simp
    rw [hsplit] at hv
    exact (unescapeCheck_path_split _ _ _ (le_refl _) hv).1
  · rw [List.take_of_length_le (by omega)]
    exact hv

theorem head_take_of_pos (out : GoString) (k : Nat) (hk : 1 ≤ k) :
    (out.take k).head? = out.head? := by
  obtain ⟨j, rfl⟩ : ∃ j, k = j + 1 := ⟨k - 1, by omega⟩
  cases out <;> simp

/-- Cleaning a validly escaped rooted path gives a validly escaped rooted path. -/
theorem cleanLoop_valid : ∀ (fuel : Nat) (x out : GoString),
    unescapeCheck encodePath x = none → unescapeCheck encodePath out = none →
    out.head? = some '/'.toNat →
    unescapeCheck encodePath (cleanLoop true fuel x out 1) = none ∧
      (cleanLoop true fuel x out 1).head? = some '/'.toNat := by
  intro fuel
  induction fuel with
  | zero => intro x out _ ho hh; exact ⟨ho, hh⟩
  | succ fuel ih =>
    intro x out hx ho hh
    match x, hx with
    | [], _ => rw [cleanLoop_nil]; exact ⟨ho, hh⟩
    | c :: x1, hx =>
      rw [cleanLoop_cons]
      by_cases hc1 : c = '/'.toNat
      · rw [if_pos hc1]
        subst hc1
        rw [unescapeCheck_path_cons_ne _ (by decide)] at hx
        exact ih x1 out hx ho hh
      rw [if_neg hc1]
      by_cases hc2 : c = '.'.toNat ∧ (x1 = [] ∨ x1.head? = some '/'.toNat)
      · rw [if_pos hc2]
        obtain ⟨rfl, -⟩ := hc2
        rw [unescapeCheck_path_cons_ne _ (by decide)] at hx
        exact ih x1 out hx ho hh
      rw [if_neg hc2]
      by_cases hc3 : c = '.'.toNat ∧ x1.head? = some '.'.toNat ∧
          (x1.drop 1 = [] ∨ (x1.drop 1).head? = some '/'.toNat)
      · rw [if_pos hc3]
        obtain ⟨rfl, hy, -⟩ := hc3
        obtain ⟨y, x2, rfl⟩ : ∃ y x2, x1 = y :: x2 := by
          cases x1 with
          | nil => simp at hy
          | cons y x2 => exact ⟨y, x2, rfl⟩
        have hy2 : y = '.'.toNat := by simpa using hy
        subst hy2
        rw [unescapeCheck_path_cons_ne _ (by decide),
          unescapeCheck_path_cons_ne _ (by decide)] at hx
        simp only [List.drop_succ_cons, List.drop_zero]
        split
        · rename_i hlen
          obtain ⟨b1, b2, b3⟩ := cleanBacktrack_spec out (out.length - 1) (by omega)
          refine ih x2 _ hx ?_ ?_
          · rcases b3 with b3 | b3
            · rw [b3]
              obtain ⟨o0, os, rfl⟩ : ∃ o0 os, out = o0 :: os := by
                cases out with
                | nil => simp at hh
                | cons o0 os => exact ⟨o0, os, rfl⟩
              have : o0 = '/'.toNat := by simpa using hh
              subst this
              rfl
            · exact unescapeCheck_path_take_of_slash out _ ho b3
          · rw [head_take_of_pos _ _ b1]; exact hh
        · exact ih x2 out hx ho hh
      rw [if_neg hc3]
      have hsplit := List.takeWhile_append_dropWhile (· ≠ '/'.toNat) (c :: x1)
      have hvalid : unescapeCheck encodePath ((c :: x1).takeWhile (· ≠ '/'.toNat)) = none ∧
          unescapeCheck encodePath ((c :: x1).dropWhile (· ≠ '/'.toNat)) = none := by
        cases hdw : (c :: x1).dropWhile (· ≠ '/'.toNat) with
        | nil =>
          rw [hdw, List.append_nil] at hsplit
          rw [hsplit]
          exact ⟨hx, rfl⟩
        | cons d ds =>
          have hd : d = '/'.toNat := by
            have := List.head_dropWhile_not (· ≠ '/'.toNat) (c :: x1) (by rw [hdw]; simp)
            simp only [hdw, List.head_cons] at this
            simpa using this
          subst hd
          rw [hdw] at hsplit
          rw [← hsplit] at hx
          obtain ⟨e1, e2⟩ := unescapeCheck_path_split _ _ _ (le_refl _) hx
          exact ⟨e1, by rw [unescapeCheck_path_cons_ne _ (by decide)]; exact e2⟩
      refine ih _ _ hvalid.2 ?_ ?_
      · refine unescapeCheck_path_append _ _ _ (le_refl _) ?_ hvalid.1
        split
        · exact unescapeCheck_path_append _ _ _ (le_refl _) ho rfl
        · exact ho
      · obtain ⟨o0, os, rfl⟩ : ∃ o0 os, out = o0 :: os := by
          cases out with
          | nil => simp at hh
          | cons o0 os => exact ⟨o0, os, rfl⟩
        split <;> simpa using hh

theorem HasSuffix_iff (s suf : GoString) : HasSuffix s suf = true ↔ suf <:+ s := by
  simp [HasSuffix]

theorem writePath_eq (u : URL) (buf : GoString) :
    ∃ b, u.writePath buf = b ++ u.EscapedPath := by
  unfold URL.writePath
  exact ⟨_, rfl⟩

theorem writeQueryFragment_eq (u : URL) (buf path raw : GoString) :
    ({ u with Path := path, RawPath := raw } : URL).writeQueryFragment buf =
      buf ++ u.writeQueryFragment [] := by
  unfold URL.writeQueryFragment URL.EscapedFragment
  simp only []
  split_ifs <;> simp [List.append_assoc]

theorem shouldEscape_isAlnum {x : Nat} (h : isAlnum x = true) (mode : Encoding) :
    shouldEscape x mode = false := by
  simp only [isAlnum, Bool.or_eq_true, Bool.and_eq_true, decide_eq_true_eq] at h
  unfold shouldEscape
  rw [if_pos]
  tauto

theorem escape_append (a b : GoString) (mode : Encoding) :
    escape (a ++ b) mode = escape a mode ++ escape b mode := by
  simp [escape, List.flatMap_append]

/-- The loop of `Clean` never runs out of fuel: once the fuel covers the bytes left to read,
more fuel changes nothing. -/
theorem cleanLoop_fuel (rooted : Bool) : ∀ (fuel : Nat) (rest out : GoString) (dotdot : Nat),
    rest.length ≤ fuel →
    cleanLoop rooted (fuel + 1) rest out dotdot = cleanLoop rooted fuel rest out dotdot := by
  intro fuel
  induction fuel with
  | zero =>
    intro rest out dotdot h
    have : rest = [] := List.length_eq_zero.mp (by omega)
    subst this
    rw [cleanLoop_nil, cleanLoop_nil]
  | succ n ih =>
    intro rest out dotdot h
    match rest, h with
    | [], _ => rw [cleanLoop_nil, cleanLoop_nil]
    | c :: rest1, h =>
      have hl : rest1.length ≤ n := by simp only [List.length_cons] at h; omega
      have hd : (rest1.drop 1).length ≤ n := by rw [List.length_drop]; omega
      have hw : ((c :: rest1).dropWhile (· ≠ '/'.toNat)).length ≤ n ∨ c = '/'.toNat := by
        by_cases hc : c = '/'.toNat
        · exact Or.inr hc
        · left
          rw [List.dropWhile_cons, if_pos (by simpa using hc)]
          exact (dropWhile_length_le rest1).trans hl
      conv_lhs => unfold cleanLoop
      conv_rhs => unfold cleanLoop
      simp only []
      split_ifs <;> first
        | exact ih _ _ _ hl
        | exact ih _ _ _ hd
        | exact ih _ _ _ (hw.resolve_right (by assumption))

theorem Index_lt {s sep : GoString} {i : Nat} (hsep : sep ≠ []) (h : Index s sep = some i) :
    i < s.length := by
  induction s generalizing i with
  | nil =>
    unfold Index at h
    cases sep with
    | nil => exact absurd rfl hsep
    | cons a b => simp [List.isPrefixOf] at h
  | cons c cs ih =>
    unfold Index at h
    split at h
    · cases h; simp
    · cases hi : Index cs sep with
      | none => rw [hi] at h; simp at h
      | some j =>
        rw [hi] at h
        simp only [Option.map_some', Option.some.injEq] at h
        have := ih hi
        simp only [List.length_cons]
        omega

/-- The loop of `resolvePath` never runs out of fuel. -/
theorem resolvePathLoop_fuel : ∀ (fuel : Nat) (remaining dst : GoString) (first : Bool),
    remaining.length + 1 ≤ fuel →
    resolvePathLoop (fuel + 1) remaining dst first = resolvePathLoop fuel remaining dst first := by
  intro fuel
  induction fuel with
  | zero => intro remaining dst first h; omega
  | succ n ih =>
    intro remaining dst first h
    conv_lhs => unfold resolvePathLoop
    conv_rhs => unfold resolvePathLoop
    simp only []
    cases hcut : Index remaining (str "/") with
    | none => simp [Cut, hcut]
    | some i =>
      have hi := Index_lt (by decide) hcut
      simp only [Cut, hcut, if_true]
      apply ih
      rw [List.length_drop]
      have : (str "/").length = 1 := rfl
      omega

/-! ### Searching for a byte that does not occur -/

theorem Index_single_none {s : GoString} {c : Nat} (h : c ∉ s) : Index s [c] = none := by
  induction s with
  | nil => simp [Index, List.isPrefixOf]
  | cons x xs ih =>
    rw [Index_cons_single, if_neg (fun e => h (by rw [e]; exact List.mem_cons_self _ _)),
      ih (fun e => h (List.mem_cons_of_mem _ e))]
    rfl

theorem Index_single_append {a : GoString} {c : Nat} (b : GoString) (h : c ∉ a) :
    Index (a ++ c :: b) [c] = some a.length := by
  induction a with
  | nil => simp [Index_cons_single]
  | cons x xs ih =>
    rw [List.cons_append, Index_cons_single,
      if_neg (fun e => h (by rw [e]; exact List.mem_cons_self _ _)),
      ih (fun e => h (List.mem_cons_of_mem _ e))]
    rfl

theorem LastIndex_cons_of_some {x c i : Nat} {xs : GoString} (h : LastIndex xs [c] = some i) :
    LastIndex (x :: xs) [c] = some (i + 1) := by
  conv_lhs => unfold LastIndex
  rw [h]

theorem LastIndex_cons_of_none {x c : Nat} {xs : GoString} (h : LastIndex xs [c] = none) :
    LastIndex (x :: xs) [c] = if c = x then some 0 else none := by
  conv_lhs => unfold LastIndex
  rw [h]
  simp [List.isPrefixOf]

theorem LastIndex_single_none {s : GoString} {c : Nat} (h : c ∉ s) : LastIndex s [c] = none := by
  induction s with
  | nil => simp [LastIndex, List.isPrefixOf]
  | cons x xs ih =>
    rw [LastIndex_cons_of_none (ih (fun e => h (List.mem_cons_of_mem _ e))),
      if_neg (fun e => h (by rw [e]; exact List.mem_cons_self _ _))]

theorem LastIndex_single_append (a : GoString) {b : GoString} {c : Nat} (h : c ∉ b) :
    LastIndex (a ++ c :: b) [c] = some a.length := by
  induction a with
  | nil =>
    rw [List.nil_append, LastIndex_cons_of_none (LastIndex_single_none h), if_pos rfl]
    rfl
  | cons x xs ih =>
    rw [List.cons_append, LastIndex_cons_of_some ih]
    rfl

theorem Cut_single_none {s : GoString} {c : Nat} (h : c ∉ s) : Cut s [c] = (s, [], false) := by
  unfold Cut
  rw [Index_single_none h]

theorem Cut_single_append {a : GoString} {c : Nat} (b : GoString) (h : c ∉ a) :
    Cut (a ++ c :: b) [c] = (a, b, true) := by
  unfold Cut
  rw [Index_single_append b h]
  simp

theorem Contains_single_false {s : GoString} {c : Nat} (h : c ∉ s) : Contains s [c] = false := by
  unfold Contains
  rw [Index_single_none h]
  rfl

/-! ### Unfolding `Parse` -/

/-- Parsing a string without `#`. -/
theorem Parse_of_no_hash {raw : GoString} (h : '#'.toNat ∉ raw) :
    Parse raw =
      match parse raw false with
      | .error e => .error ⟨str "parse", raw, e⟩
      | .ok url => .ok url := by
  unfold Parse
  rw [show str "#" = ['#'.toNat] from rfl, Cut_single_none h]
  simp only
  cases parse raw false <;> rfl

/-- Parsing, once the scheme has been split off. -/
theorem parse_of_getScheme {raw scheme rest : GoString} (h1 : stringContainsCTLByte raw = false)
    (h2 : raw ≠ str "*") (h3 : getScheme raw = (scheme, rest, none)) :
    parse raw false =
      parseRest { Scheme := ToLower scheme, ForceQuery := (parseQuery rest).1,
                  RawQuery := (parseQuery rest).2.1 } (parseQuery rest).2.2 false := by
  unfold parse
  rw [if_neg (by simp [h1]), if_neg (by simp), if_neg h2, h3]

theorem getSchemeLoop_no_colon (raw : GoString) (i : Nat) {s : GoString} (h : ':'.toNat ∉ s) :
    getSchemeLoop raw i s = ([], raw, none) := by
  induction s generalizing i with
  | nil => rfl
  | cons c cs ih =>
    have hc : ¬ c = ':'.toNat := fun e => h (by rw [e]; exact List.mem_cons_self _ _)
    have ih' := fun i => ih i (fun e => h (List.mem_cons_of_mem _ e))
    unfold getSchemeLoop
    split_ifs <;> first | rfl | exact ih' _

/-- A string without colon has no scheme. -/
theorem getScheme_no_colon {s : GoString} (h : ':'.toNat ∉ s) : getScheme s = ([], s, none) :=
  getSchemeLoop_no_colon s 0 h

theorem getSchemeLoop_letters (rest : GoString) : ∀ (s pre : GoString),
    (∀ c ∈ s, ('a'.toNat ≤ c ∧ c ≤ 'z'.toNat) ∨ ('A'.toNat ≤ c ∧ c ≤ 'Z'.toNat)) →
    pre ++ s ≠ [] →
    getSchemeLoop (pre ++ s ++ ':'.toNat :: rest) pre.length (s ++ ':'.toNat :: rest) =
      (pre ++ s, rest, none) := by
  intro s
  induction s with
  | nil =>
    intro pre _ hne
    have hp : pre.length ≠ 0 := by
      intro h0; exact hne (by simpa using List.length_eq_zero.mp h0)
    simp only [List.append_nil, List.nil_append] at hne ⊢
    unfold getSchemeLoop
    rw [if_neg (by decide), if_neg (by decide), if_pos rfl, if_neg hp]
    simp
  | cons c cs ih =>
    intro pre hs _
    have hc := hs c (List.mem_cons_self _ _)
    rw [List.cons_append]
    unfold getSchemeLoop
    rw [if_pos hc]
    have := ih (pre ++ [c]) (fun x hx => hs x (List.mem_cons_of_mem _ hx)) (by simp)
    simp only [List.append_assoc, List.singleton_append, List.length_append, List.length_singleton,
      List.cons_append] at this ⊢
    exact this

/-- A non-empty string of letters followed by a colon is a scheme. -/
theorem getScheme_letters {s : GoString} (rest : GoString)
    (hs : ∀ c ∈ s, ('a'.toNat ≤ c ∧ c ≤ 'z'.toNat) ∨ ('A'.toNat ≤ c ∧ c ≤ 'Z'.toNat))
    (hne : s ≠ []) : getScheme (s ++ ':'.toNat :: rest) = (s, rest, none) := by
  have := getSchemeLoop_letters rest s [] hs (by simpa using hne)
  simpa [getScheme] using this

/-- Resolving the empty input against a base. -/
theorem AbsoluteURL_nil_of_ok {w : GoString} {base : URL} (h : Parse w = .ok base) :
    AbsoluteURL w [] = ((base.ResolveReference {}).String, none) := by
  unfold AbsoluteURL
  rw [GetAbsoluteURL_nil]
  simp only [h, ne_eq, not_true_eq_false, if_false]

theorem AbsoluteURL_nil_of_error {w : GoString} {err : Error} (h : Parse w = .error err) :
    AbsoluteURL w [] = ([], some (.unableToParseBaseURL err)) := by
  unfold AbsoluteURL
  rw [GetAbsoluteURL_nil]
  simp only [h, ne_eq, not_true_eq_false, if_false]

/-- The three outcomes of `RootURL` on an input that does not start with `//`. -/
theorem RootURL_of_abs_error {w x : GoString} {e : Err} (h : HasPrefix w (str "//") = false)
    (ha : AbsoluteURL w [] = (x, some e)) : RootURL w = w := by
  unfold RootURL
  simp only [h, Bool.false_eq_true, if_false, ha]

theorem RootURL_of_reparse_error {w a : GoString} {e : Error}
    (h : HasPrefix w (str "//") = false) (ha : AbsoluteURL w [] = (a, none))
    (hp : Parse a = .error e) : RootURL w = a := by
  unfold RootURL
  simp only [h, Bool.false_eq_true, if_false, ha, hp]

theorem RootURL_of_reparse_ok {w a : GoString} {u : URL}
    (h : HasPrefix w (str "//") = false) (ha : AbsoluteURL w [] = (a, none))
    (hp : Parse a = .ok u) : RootURL w = u.Scheme ++ str "://" ++ u.Host ++ str "/" := by
  unfold RootURL
  simp only [h, Bool.false_eq_true, if_false, ha, hp]

theorem RootURL_of_slashes (rest : GoString) :
    RootURL (str "//" ++ rest) = RootURL (str "https://" ++ rest) := by
  have h1 : HasPrefix (str "//" ++ rest) (str "//") = true := by
    rw [HasPrefix_iff]; exact List.prefix_append _ _
  have h2 : HasPrefix (str "https://" ++ rest) (str "//") = false := by rfl
  conv_lhs => unfold RootURL
  conv_rhs => unfold RootURL
  simp only [h1, h2, if_true, Bool.false_eq_true, if_false]
  rfl

theorem RootURL_of_parse_error {w : GoString} {err : Error}
    (h : HasPrefix w (str "//") = false) (hp : Parse w = .error err) : RootURL w = w := by
  exact RootURL_of_abs_error h (AbsoluteURL_nil_of_error hp)

theorem ToLower_idem (s : GoString) : ToLower (ToLower s) = ToLower s := by
  unfold ToLower
  rw [List.map_map]
  apply List.map_congr_left
  intro c _
  have e1 : 'A'.toNat = 65 := rfl
  have e2 : 'Z'.toNat = 90 := rfl
  have e3 : 'a'.toNat = 97 := rfl
  simp only [Function.comp, e1, e2, e3]
  split_ifs <;> omega

theorem EqualFold_https_iff (s : GoString) :
    EqualFold s (str "https") = true ↔ ToLower s = str "https" := by
  unfold EqualFold
  rw [show ToLower (str "https") = str "https" from rfl]
  simp

/-- The bytes of a case variant of `https` are letters. -/
theorem letters_of_ToLower_https {s : GoString} (h : ToLower s = str "https") :
    ∀ c ∈ s, ('a'.toNat ≤ c ∧ c ≤ 'z'.toNat) ∨ ('A'.toNat ≤ c ∧ c ≤ 'Z'.toNat) := by
  intro c hc
  have hm : (if 'A'.toNat ≤ c ∧ c ≤ 'Z'.toNat then c + ('a'.toNat - 'A'.toNat) else c) ∈
      ToLower s := by
    unfold ToLower
    exact List.mem_map_of_mem _ hc
  rw [h] at hm
  have e1 : 'A'.toNat = 65 := rfl
  have e2 : 'Z'.toNat = 90 := rfl
  have e3 : 'a'.toNat = 97 := rfl
  have e4 : 'z'.toNat = 122 := rfl
  have e5 : str "https" = [104, 116, 116, 112, 115] := rfl
  rw [e1, e2, e3, e5] at hm
  rw [e1, e2, e3, e4]
  simp only [List.mem_cons, List.mem_singleton, List.not_mem_nil, or_false] at hm
  split_ifs at hm <;> omega

theorem stringContainsCTLByte_append (a b : GoString) :
    stringContainsCTLByte (a ++ b) = (stringContainsCTLByte a || stringContainsCTLByte b) := by
  simp [stringContainsCTLByte, List.any_append]

theorem stringContainsCTLByte_false {s : GoString}
    (h : ∀ c ∈ s, ' '.toNat ≤ c ∧ c ≠ 0x7f) : stringContainsCTLByte s = false := by
  unfold stringContainsCTLByte
  rw [List.any_eq_false]
  intro c hc
  obtain ⟨a, b⟩ := h c hc
  have e : ' '.toNat = 32 := rfl
  rw [e] at a
  simp only [e, Bool.or_eq_true, decide_eq_true_eq, beq_iff_eq, not_or, not_lt]
  exact ⟨a, b⟩

/-- Every case variant of `https` followed by `://example.com` parses with the scheme
`https`. -/
theorem Parse_https_variant {s : GoString} (h : ToLower s = str "https") :
    Parse (s ++ str "://example.com") =
      .ok { Scheme := str "https", Host := str "example.com" } := by
  have hl := letters_of_ToLower_https h
  have hne : s ≠ [] := by
    rintro rfl
    exact absurd h (by decide)
  have e1 : 'A'.toNat = 65 := rfl
  have e2 : 'Z'.toNat = 90 := rfl
  have e3 : 'a'.toNat = 97 := rfl
  have e4 : 'z'.toNat = 122 := rfl
  have hhash : '#'.toNat ∉ s ++ str "://example.com" := by
    intro hm
    rcases List.mem_append.1 hm with hm | hm
    · have := hl _ hm
      rw [e1, e2, e3, e4, show '#'.toNat = 35 from rfl] at this
      omega
    · exact absurd hm (by decide)
  have hctl : stringContainsCTLByte (s ++ str "://example.com") = false := by
    rw [stringContainsCTLByte_append, stringContainsCTLByte_false, show
      stringContainsCTLByte (str "://example.com") = false from rfl]
    · rfl
    · intro c hc
      have := hl c hc
      rw [e1, e2, e3, e4] at this
      rw [show ' '.toNat = 32 from rfl]
      omega
  have hstar : s ++ str "://example.com" ≠ str "*" := by
    intro he
    have := congrArg List.length he
    simp [str] at this
  have hgs : getScheme (s ++ str "://example.com") = (s, str "//example.com", none) :=
    getScheme_letters (str "//example.com") hl hne
  rw [Parse_of_no_hash hhash, parse_of_getScheme hctl hstar hgs, h]
  rfl

/-! ### Plain bytes -/

theorem isPlainByte_cases {c : Nat} (h : isPlainByte c = true) :
    (48 ≤ c ∧ c ≤ 57) ∨ (65 ≤ c ∧ c ≤ 90) ∨ (97 ≤ c ∧ c ≤ 122) ∨ c = 47 ∨ c = 46 ∨ c = 45 := by
  simp only [isPlainByte, isAlnum, Bool.or_eq_true, Bool.and_eq_true, decide_eq_true_eq,
    beq_iff_eq] at h
  have e1 : 'a'.toNat = 97 := rfl
  have e2 : 'z'.toNat = 122 := rfl
  have e3 : 'A'.toNat = 65 := rfl
  have e4 : 'Z'.toNat = 90 := rfl
  have e5 : '0'.toNat = 48 := rfl
  have e6 : '9'.toNat = 57 := rfl
  have e7 : '/'.toNat = 47 := rfl
  have e8 : '.'.toNat = 46 := rfl
  have e9 : '-'.toNat = 45 := rfl
  rw [e1, e2, e3, e4, e5, e6, e7, e8, e9] at h
  omega

theorem isAlnum_iff {c : Nat} :
    isAlnum c = true ↔ (48 ≤ c ∧ c ≤ 57) ∨ (65 ≤ c ∧ c ≤ 90) ∨ (97 ≤ c ∧ c ≤ 122) := by
  simp only [isAlnum, Bool.or_eq_true, Bool.and_eq_true, decide_eq_true_eq]
  have e1 : 'a'.toNat = 97 := rfl
  have e2 : 'z'.toNat = 122 := rfl
  have e3 : 'A'.toNat = 65 := rfl
  have e4 : 'Z'.toNat = 90 := rfl
  have e5 : '0'.toNat = 48 := rfl
  have e6 : '9'.toNat = 57 := rfl
  rw [e1, e2, e3, e4, e5, e6]
  omega

theorem isPlainByte_of_isAlnum {c : Nat} (h : isAlnum c = true) : isPlainByte c = true := by
  simp [isPlainByte, h]

theorem isPlainByte_of_isPathByte {c : Nat} (h : isPathByte c = true) : isPlainByte c = true := by
  simp only [isPathByte, Bool.or_eq_true] at h
  simp only [isPlainByte, Bool.or_eq_true]
  tauto

theorem isPlainByte_of_isHostByte {c : Nat} (h : isHostByte c = true) :
    isPlainByte c = true ∧ c ≠ '/'.toNat := by
  have h' := h
  simp only [isHostByte, Bool.or_eq_true, beq_iff_eq] at h
  refine ⟨by simp only [isPlainByte, Bool.or_eq_true, beq_iff_eq]; tauto, ?_⟩
  rintro rfl
  exact absurd h' (by decide)

theorem shouldEscape_path_of_plain {c : Nat} (h : isPlainByte c = true) :
    shouldEscape c encodePath = false := by
  rcases isPlainByte_cases h with h | h | h | rfl | rfl | rfl
  · exact shouldEscape_isAlnum (isAlnum_iff.2 (Or.inl h)) _
  · exact shouldEscape_isAlnum (isAlnum_iff.2 (Or.inr (Or.inl h))) _
  · exact shouldEscape_isAlnum (isAlnum_iff.2 (Or.inr (Or.inr h))) _
  · decide
  · decide
  · decide

theorem shouldEscape_host_of_plain {c : Nat} (h : isPlainByte c = true) (hs : c ≠ '/'.toNat) :
    shouldEscape c encodeHost = false := by
  rcases isPlainByte_cases h with h | h | h | rfl | rfl | rfl
  · exact shouldEscape_isAlnum (isAlnum_iff.2 (Or.inl h)) _
  · exact shouldEscape_isAlnum (isAlnum_iff.2 (Or.inr (Or.inl h))) _
  · exact shouldEscape_isAlnum (isAlnum_iff.2 (Or.inr (Or.inr h))) _
  · exact absurd rfl hs
  · decide
  · decide

/-- A plain byte is none of the bytes with a role in the syntax of a URL. -/
theorem plain_not_mem {s : GoString} (h : ∀ c ∈ s, isPlainByte c = true) {x : Nat}
    (hx : x < 45 ∨ x = 58 ∨ x = 63 ∨ x = 64 ∨ x = 91 ∨ x = 127) : x ∉ s := by
  intro hm
  have := isPlainByte_cases (h x hm)
  omega

/-- Escaping leaves a string of plain bytes unchanged, in path mode and, when it has no
slash, in host mode. -/
theorem escape_path_of_plain (s : GoString) (h : ∀ c ∈ s, isPlainByte c = true) :
    escape s encodePath = s := by
  induction s with
  | nil => rfl
  | cons c cs ih =>
    have hc := h c (List.mem_cons_self _ _)
    have : escape (c :: cs) encodePath = escape [c] encodePath ++ escape cs encodePath :=
      escape_append [c] cs _
    rw [this, ih (fun x hx => h x (List.mem_cons_of_mem _ hx))]
    have : escape [c] encodePath = [c] := by
      simp [escape, shouldEscape_path_of_plain hc]
    rw [this]; rfl

theorem escape_host_of_plain (s : GoString) (h : ∀ c ∈ s, isPlainByte c = true)
    (hs : '/'.toNat ∉ s) : escape s encodeHost = s := by
  induction s with
  | nil => rfl
  | cons c cs ih =>
    have hc := h c (List.mem_cons_self _ _)
    have hcs : c ≠ '/'.toNat := fun e => hs (by rw [e]; exact List.mem_cons_self _ _)
    have : escape (c :: cs) encodeHost = escape [c] encodeHost ++ escape cs encodeHost :=
      escape_append [c] cs _
    rw [this, ih (fun x hx => h x (List.mem_cons_of_mem _ hx))
      (fun e => hs (List.mem_cons_of_mem _ e))]
    have : escape [c] encodeHost = [c] := by
      simp [escape, shouldEscape_host_of_plain hc hcs]
    rw [this]; rfl

/-- Unescaping leaves a host of plain bytes unchanged. -/
theorem unescape_host_of_plain (s : GoString) (h : ∀ c ∈ s, isPlainByte c = true)
    (hs : '/'.toNat ∉ s) : unescape s encodeHost = .ok s := by
  have key : unescapeCheck encodeHost s = none ∧ unescapeDecode encodeHost s = s := by
    induction s with
    | nil => exact ⟨rfl, rfl⟩
    | cons c cs ih =>
      have hc := h c (List.mem_cons_self _ _)
      have hcs : c ≠ '/'.toNat := fun e => hs (by rw [e]; exact List.mem_cons_self _ _)
      obtain ⟨i1, i2⟩ := ih (fun x hx => h x (List.mem_cons_of_mem _ hx))
        (fun e => hs (List.mem_cons_of_mem _ e))
      have hse := shouldEscape_host_of_plain hc hcs
      have hnum := isPlainByte_cases hc
      have h37 : ¬ c = '%'.toNat := by rw [show '%'.toNat = 37 from rfl]; omega
      have h43 : ¬ c = '+'.toNat := by rw [show '+'.toNat = 43 from rfl]; omega
      constructor
      · conv_lhs => unfold unescapeCheck
        rw [if_neg h37, if_neg h43, if_neg (by rw [hse]; simp)]
        exact i1
      · conv_lhs => unfold unescapeDecode
        rw [if_neg h37, if_neg h43, i2]
  unfold unescape
  rw [key.1, key.2]

theorem unescape_path_of_plain (s : GoString) (h : ∀ c ∈ s, isPlainByte c = true) :
    unescape s encodePath = .ok s := by
  obtain ⟨a, b⟩ := unescape_path_of_no_percent s (fun x hx => by
    have := isPlainByte_cases (h x hx)
    rw [show '%'.toNat = 37 from rfl]; omega)
  unfold unescape
  rw [a, b]

/-- Setting a path of plain bytes. -/
theorem setPath_of_plain (u : URL) (p : GoString) (h : ∀ c ∈ p, isPlainByte c = true) :
    u.setPath p = .ok { u with Path := p, RawPath := [] } := by
  unfold URL.setPath
  rw [unescape_path_of_plain p h]
  simp only [escape_path_of_plain p h, if_true]

theorem setPathIgnoringError_of_plain (u : URL) (p : GoString)
    (h : ∀ c ∈ p, isPlainByte c = true) :
    u.setPathIgnoringError p = { u with Path := p, RawPath := [] } := by
  unfold URL.setPathIgnoringError
  rw [setPath_of_plain u p h]

/-- The escaped path of a URL whose path consists of plain bytes and was stored without
raw form. -/
theorem EscapedPath_of_plain (u : URL) (hr : u.RawPath = []) (h : ∀ c ∈ u.Path, isPlainByte c = true) :
    u.EscapedPath = u.Path := by
  unfold URL.EscapedPath
  simp only [hr, ne_eq, not_true_eq_false, decide_False, Bool.false_and, Bool.false_eq_true,
    if_false]
  rw [if_neg, escape_path_of_plain _ h]
  intro hstar
  have := h '*'.toNat (by rw [hstar]; decide)
  exact absurd this (by decide)

/-! ### Parsing `scheme://host/path?query` -/

theorem HasSuffix_single_false {s : GoString} {c : Nat} (h : c ∉ s) :
    HasSuffix s [c] = false := by
  by_contra hc
  simp only [Bool.not_eq_false] at hc
  rw [HasSuffix_iff] at hc
  obtain ⟨t, ht⟩ := hc
  exact h (by rw [← ht]; simp)

theorem parseQuery_of_no_query {x : GoString} (h : '?'.toNat ∉ x) :
    parseQuery x = (false, [], x) := by
  unfold parseQuery
  rw [if_neg (by rw [show str "?" = ['?'.toNat] from rfl, HasSuffix_single_false h]; simp),
    show str "?" = ['?'.toNat] from rfl, Cut_single_none h]

theorem parseQuery_of_query {x q : GoString} (hx : '?'.toNat ∉ x) (hq : '?'.toNat ∉ q) :
    parseQuery (x ++ '?'.toNat :: q) = (decide (q = []), q, x) := by
  unfold parseQuery
  by_cases hq0 : q = []
  · subst hq0
    have h1 : HasSuffix (x ++ ['?'.toNat]) (str "?") = true := by
      rw [HasSuffix_iff]; exact List.suffix_append _ _
    have h2 : Count (x ++ ['?'.toNat]) '?'.toNat = 1 := by
      unfold Count
      rw [List.count_append, List.count_eq_zero_of_not_mem hx]
      simp
    rw [if_pos ⟨h1, h2⟩]
    simp
  · have h1 : HasSuffix (x ++ '?'.toNat :: q) (str "?") = false := by
      by_contra hc
      simp only [Bool.not_eq_false] at hc
      rw [HasSuffix_iff] at hc
      obtain ⟨t, ht⟩ := hc
      have hlast : (x ++ '?'.toNat :: q).getLast? = some '?'.toNat := by
        rw [← ht]; simp [str]
      rw [show x ++ '?'.toNat :: q = (x ++ ['?'.toNat]) ++ q by simp,
        List.getLast?_append_of_ne_nil _ hq0] at hlast
      exact hq (List.mem_of_getLast?_eq_some hlast)
    rw [if_neg (by rw [h1]; simp), show str "?" = ['?'.toNat] from rfl, Cut_single_append q hx]
    simp [hq0]

/-- The authority and the path of `//host/path`, for a host and a path of plain bytes. -/
theorem parseRest_of_authority (url : URL) (host tail : GoString) (hsch : url.Scheme ≠ [])
    (hh : ∀ c ∈ host, isPlainByte c = true) (hhs : '/'.toNat ∉ host)
    (ht : ∀ c ∈ tail, isPlainByte c = true) (ht0 : tail = [] ∨ ∃ t, tail = '/'.toNat :: t) :
    parseRest url (str "//" ++ host ++ tail) false =
      .ok { url with User := none, Host := host, Path := tail, RawPath := [] } := by
  have hp1 : HasPrefix (str "//" ++ host ++ tail) (str "/") = true := by rfl
  have hp2 : HasPrefix (str "//" ++ host ++ tail) (str "//") = true := by
    rw [HasPrefix_iff, List.append_assoc]; exact List.prefix_append _ _
  have hat : '@'.toNat ∉ host := plain_not_mem hh (by decide)
  have hbr : HasPrefix host (str "[") = false := by
    by_contra hc
    simp only [Bool.not_eq_false] at hc
    obtain ⟨t, rfl⟩ := HasPrefix_cons_of hc
    exact plain_not_mem hh (x := '['.toNat) (by decide) (List.mem_cons_self _ _)
  have hcol : ':'.toNat ∉ host := plain_not_mem hh (by decide)
  have hph : parseHost host = .ok host := by
    unfold parseHost
    rw [hbr, show str ":" = [':'.toNat] from rfl, LastIndex_single_none hcol]
    simp only [Bool.false_eq_true, if_false]
    exact unescape_host_of_plain host hh hhs
  have hpa : parseAuthority host = .ok (none, host) := by
    unfold parseAuthority
    rw [show str "@" = ['@'.toNat] from rfl, LastIndex_single_none hat]
    simp only [hph]
    rfl
  have hdrop : (str "//" ++ host ++ tail).drop 2 = host ++ tail := by
    rw [List.append_assoc]; rfl
  have hnp : ¬ ((!HasPrefix (str "//" ++ host ++ tail) (str "/")) = true ∧ url.Scheme ≠ []) := by
    rintro ⟨h, -⟩; rw [hp1] at h; cases h
  have hnp2 : ¬ ((!HasPrefix (str "//" ++ host ++ tail) (str "/")) = true ∧ false = true) := by
    rintro ⟨h, -⟩; rw [hp1] at h; cases h
  have hnp3 : ¬ ((!HasPrefix (str "//" ++ host ++ tail) (str "/")) = true ∧
      Contains (Cut (str "//" ++ host ++ tail) (str "/")).1 (str ":") = true) := by
    rintro ⟨h, -⟩; rw [hp1] at h; cases h
  unfold parseRest
  rw [if_neg hnp, if_neg hnp2, if_neg hnp3, if_pos ⟨Or.inl hsch, hp2⟩, hdrop]
  have hsl : str "/" = ['/'.toNat] := rfl
  rcases ht0 with rfl | ⟨t, rfl⟩
  · have hI := Index_single_none hhs
    simp only [List.append_nil, hsl, hI, hpa]
    exact setPath_of_plain _ [] ht
  · have hI := Index_single_append t hhs
    simp only [hsl, hI, List.take_left', List.drop_left', hpa]
    exact setPath_of_plain _ _ ht

/-- Parsing `scheme:rest` for the scheme `http` or `https`, once `rest` is parsed. -/
theorem Parse_of_http_rest {scheme rest : GoString} {v : URL}
    (hs : scheme = str "https" ∨ scheme = str "http")
    (hr : ∀ c ∈ rest, isPlainByte c = true ∨ c = '?'.toNat)
    (h : parseRest { Scheme := scheme, ForceQuery := (parseQuery rest).1,
                     RawQuery := (parseQuery rest).2.1 } (parseQuery rest).2.2 false = .ok v) :
    Parse (scheme ++ ':'.toNat :: rest) = .ok v := by
  have hsl : ∀ c ∈ scheme, ('a'.toNat ≤ c ∧ c ≤ 'z'.toNat) ∨ ('A'.toNat ≤ c ∧ c ≤ 'Z'.toNat) := by
    rcases hs with rfl | rfl <;> decide
  have hsne : scheme ≠ [] := by rcases hs with rfl | rfl <;> decide
  have hlow : ToLower scheme = scheme := by rcases hs with rfl | rfl <;> rfl
  have hnum : ∀ c ∈ scheme ++ ':'.toNat :: rest, 45 ≤ c ∧ c ≤ 122 := by
    intro c hc
    rcases List.mem_append.1 hc with hc | hc
    · have := hsl c hc
      rw [show 'a'.toNat = 97 from rfl, show 'z'.toNat = 122 from rfl,
        show 'A'.toNat = 65 from rfl, show 'Z'.toNat = 90 from rfl] at this
      omega
    · rcases List.mem_cons.1 hc with rfl | hc
      · decide
      · rcases hr c hc with hp | rfl
        · have := isPlainByte_cases hp; omega
        · decide
  have hhash : '#'.toNat ∉ scheme ++ ':'.toNat :: rest := by
    intro hm
    have := hnum _ hm
    rw [show '#'.toNat = 35 from rfl] at this
    omega
  have hctl : stringContainsCTLByte (scheme ++ ':'.toNat :: rest) = false := by
    apply stringContainsCTLByte_false
    intro c hc
    have := hnum c hc
    rw [show ' '.toNat = 32 from rfl]
    omega
  have hstar : scheme ++ ':'.toNat :: rest ≠ str "*" := by
    intro he
    have := hnum '*'.toNat (by rw [he]; decide)
    rw [show '*'.toNat = 42 from rfl] at this
    omega
  rw [Parse_of_no_hash hhash, parse_of_getScheme hctl hstar (getScheme_letters rest hsl hsne),
    hlow, h]

theorem plain_append {a b : GoString} (ha : ∀ c ∈ a, isPlainByte c = true)
    (hb : ∀ c ∈ b, isPlainByte c = true) : ∀ c ∈ a ++ b, isPlainByte c = true := by
  intro c hc
  rcases List.mem_append.1 hc with h | h
  · exact ha c h
  · exact hb c h

/-- Parsing `scheme://host` followed by an empty or rooted path. -/
theorem Parse_http_url {scheme host tail : GoString}
    (hs : scheme = str "https" ∨ scheme = str "http")
    (hh : ∀ c ∈ host, isPlainByte c = true) (hhs : '/'.toNat ∉ host)
    (ht : ∀ c ∈ tail, isPlainByte c = true) (ht0 : tail = [] ∨ ∃ t, tail = '/'.toNat :: t) :
    Parse (scheme ++ str "://" ++ host ++ tail) =
      .ok { Scheme := scheme, Host := host, Path := tail } := by
  have hsne : scheme ≠ [] := by rcases hs with rfl | rfl <;> decide
  have hplain : ∀ c ∈ str "//" ++ host ++ tail, isPlainByte c = true :=
    plain_append (plain_append (by decide) hh) ht
  have hq : '?'.toNat ∉ str "//" ++ host ++ tail := plain_not_mem hplain (by decide)
  have e : scheme ++ str "://" ++ host ++ tail = scheme ++ ':'.toNat :: (str "//" ++ host ++ tail) := by
    simp [str]
  rw [e]
  apply Parse_of_http_rest hs (fun c hc => Or.inl (hplain c hc))
  rw [parseQuery_of_no_query hq]
  exact parseRest_of_authority _ host tail hsne hh hhs ht ht0

/-- Parsing `scheme://host`, an empty or rooted path, `?` and a query. -/
theorem Parse_http_url_query {scheme host tail q : GoString}
    (hs : scheme = str "https" ∨ scheme = str "http")
    (hh : ∀ c ∈ host, isPlainByte c = true) (hhs : '/'.toNat ∉ host)
    (ht : ∀ c ∈ tail, isPlainByte c = true) (ht0 : tail = [] ∨ ∃ t, tail = '/'.toNat :: t)
    (hq : ∀ c ∈ q, isPlainByte c = true) :
    Parse (scheme ++ str "://" ++ host ++ tail ++ str "?" ++ q) =
      .ok { Scheme := scheme, Host := host, Path := tail, ForceQuery := decide (q = []),
            RawQuery := q } := by
  have hsne : scheme ≠ [] := by rcases hs with rfl | rfl <;> decide
  have hplain : ∀ c ∈ str "//" ++ host ++ tail, isPlainByte c = true :=
    plain_append (plain_append (by decide) hh) ht
  have hq1 : '?'.toNat ∉ str "//" ++ host ++ tail := plain_not_mem hplain (by decide)
  have hq2 : '?'.toNat ∉ q := plain_not_mem hq (by decide)
  have e : scheme ++ str "://" ++ host ++ tail ++ str "?" ++ q =
      scheme ++ ':'.toNat :: ((str "//" ++ host ++ tail) ++ '?'.toNat :: q) := by
    simp [str]
  rw [e]
  apply Parse_of_http_rest hs
  · intro c hc
    rcases List.mem_append.1 hc with h | h
    · exact Or.inl (hplain c h)
    · rcases List.mem_cons.1 h with rfl | h
      · exact Or.inr rfl
      · exact Or.inl (hq c h)
  rw [parseQuery_of_query hq1 hq2]
  exact parseRest_of_authority _ host tail hsne hh hhs ht ht0

/-- Parsing a relative reference made of plain bytes. -/
theorem Parse_relative {r : GoString} (hr : ∀ c ∈ r, isPlainByte c = true)
    (h0 : HasPrefix r (str "/") = false) : Parse r = .ok { Path := r } := by
  have hhash : '#'.toNat ∉ r := plain_not_mem hr (by decide)
  have hcol : ':'.toNat ∉ r := plain_not_mem hr (by decide)
  have hq : '?'.toNat ∉ r := plain_not_mem hr (by decide)
  have hctl : stringContainsCTLByte r = false := by
    apply stringContainsCTLByte_false
    intro c hc
    have := isPlainByte_cases (hr c hc)
    rw [show ' '.toNat = 32 from rfl]
    omega
  have hstar : r ≠ str "*" := by
    intro he
    exact plain_not_mem hr (x := '*'.toNat) (by decide) (by rw [he]; decide)
  have h2 : HasPrefix r (str "//") = false := by
    by_contra hc
    simp only [Bool.not_eq_false] at hc
    obtain ⟨t, rfl⟩ := HasPrefix_cons_of hc
    exact absurd h0 (by simp [HasPrefix, str])
  have hcut : Contains (Cut r (str "/")).1 (str ":") = false := by
    apply Contains_single_false
    intro hm
    exact hcol ((Cut_fst_pfx r (str "/")).subset hm)
  rw [Parse_of_no_hash hhash, parse_of_getScheme hctl hstar (getScheme_no_colon hcol),
    parseQuery_of_no_query hq]
  unfold parseRest
  rw [if_neg (by rintro ⟨-, h⟩; exact h rfl), if_neg (by rintro ⟨-, h⟩; cases h),
    if_neg (by rintro ⟨-, h⟩; rw [hcut] at h; cases h),
    if_neg (by rintro ⟨-, h⟩; rw [h2] at h; cases h),
    if_neg (by rintro ⟨h, -⟩; exact h rfl)]
  simp only [setPath_of_plain _ r hr]
  rfl

/-- The string form of a URL with a scheme, a host and a path of plain bytes. -/
theorem String_http_url (u : URL) (hs : u.Scheme ≠ []) (ho : u.Opaque = []) (hu : u.User = none)
    (hh : ∀ c ∈ u.Host, isPlainByte c = true) (hhs : '/'.toNat ∉ u.Host) (hne : u.Host ≠ [])
    (hp : ∀ c ∈ u.Path, isPlainByte c = true) (hr : u.RawPath = []) (hf : u.Fragment = []) :
    u.String =
      u.Scheme ++ str "://" ++ u.Host ++
        (if u.Path ≠ [] ∧ u.Path.head? ≠ some '/'.toNat then str "/" else []) ++ u.Path ++
        (if u.ForceQuery = true ∨ u.RawQuery ≠ [] then str "?" ++ u.RawQuery else []) := by
  have hep : u.EscapedPath = u.Path := EscapedPath_of_plain _ hr hp
  unfold URL.String URL.writeQueryFragment URL.writePath URL.writeAuthority
  simp only [hep, hs, hne, ho, hu, hf, ne_eq, not_false_eq_true, if_true, not_true_eq_false,
    if_false, true_or, or_true, and_false, false_and, and_true,
    escape_host_of_plain u.Host hh hhs]
  split_ifs <;> simp_all [str, List.append_assoc]

/-! ### Reference resolution on plain paths -/

theorem split_at_first {c : Nat} {s : GoString} (h : c ∈ s) :
    ∃ a b, s = a ++ c :: b ∧ c ∉ a := by
  induction s with
  | nil => cases h
  | cons x xs ih =>
    by_cases hx : x = c
    · exact ⟨[], xs, by rw [hx]; rfl, by simp⟩
    · rcases List.mem_cons.1 h with h | h
      · exact absurd h.symm hx
      · obtain ⟨a, b, e, hn⟩ := ih h
        refine ⟨x :: a, b, by rw [e]; rfl, ?_⟩
        intro hm
        rcases List.mem_cons.1 hm with hm | hm
        · exact hx hm.symm
        · exact hn hm

theorem resolvePathLoop_plain_found {fuel : Nat} {rem elem rem' : GoString} (dst : GoString)
    (first : Bool) (hcut : Cut rem (str "/") = (elem, rem', true))
    (h1 : elem ≠ str ".") (h2 : elem ≠ str "..") :
    resolvePathLoop (fuel + 1) rem dst first =
      resolvePathLoop fuel rem' ((if !first then dst ++ str "/" else dst) ++ elem) false := by
  conv_lhs => unfold resolvePathLoop
  rw [hcut]
  simp only [if_neg h1, if_neg h2, if_true]

theorem resolvePathLoop_plain_last {fuel : Nat} {rem elem rem' : GoString} (dst : GoString)
    (first : Bool) (hcut : Cut rem (str "/") = (elem, rem', false))
    (h1 : elem ≠ str ".") (h2 : elem ≠ str "..") :
    resolvePathLoop (fuel + 1) rem dst first =
      ((if !first then dst ++ str "/" else dst) ++ elem, elem) := by
  conv_lhs => unfold resolvePathLoop
  rw [hcut]
  simp only [if_neg h1, if_neg h2, Bool.false_eq_true, if_false]

theorem resolvePathLoop_dotdot_found {fuel i : Nat} {rem rem' : GoString} (dst : GoString)
    (first : Bool) (hcut : Cut rem (str "/") = (str "..", rem', true))
    (hl : LastIndex (dst.drop 1) (str "/") = some i) :
    resolvePathLoop (fuel + 1) rem dst first =
      resolvePathLoop fuel rem' (str "/" ++ (dst.drop 1).take i) first := by
  conv_lhs => unfold resolvePathLoop
  rw [hcut]
  simp only [show str ".." ≠ str "." by decide, if_false, if_true, hl]

theorem ne_dots_of_not_mem {s : GoString} (h : '.'.toNat ∉ s) : s ≠ str "." ∧ s ≠ str ".." := by
  constructor <;> (rintro rfl; exact h (by decide))

/-- On a path without dot the loop of `resolvePath` copies its input. -/
theorem resolvePathLoop_plain : ∀ (fuel : Nat) (rem dst : GoString) (first : Bool),
    rem.length + 1 ≤ fuel → '.'.toNat ∉ rem →
    (resolvePathLoop fuel rem dst first).1 = (if !first then dst ++ str "/" else dst) ++ rem ∧
    '.'.toNat ∉ (resolvePathLoop fuel rem dst first).2 := by
  intro fuel
  induction fuel with
  | zero => intro rem dst first h; omega
  | succ n ih =>
    intro rem dst first hl hd
    by_cases hs : '/'.toNat ∈ rem
    · obtain ⟨a, b, rfl, ha⟩ := split_at_first hs
      have hda : '.'.toNat ∉ a := fun h => hd (List.mem_append_left _ h)
      have hdb : '.'.toNat ∉ b := fun h => hd (List.mem_append_right _ (List.mem_cons_of_mem _ h))
      have hcut : Cut (a ++ '/'.toNat :: b) (str "/") = (a, b, true) := Cut_single_append b ha
      rw [resolvePathLoop_plain_found dst first hcut (ne_dots_of_not_mem hda).1
        (ne_dots_of_not_mem hda).2]
      obtain ⟨e1, e2⟩ := ih b ((if !first then dst ++ str "/" else dst) ++ a) false
        (by simp only [List.length_append, List.length_cons] at hl; omega) hdb
      refine ⟨?_, e2⟩
      rw [e1]
      simp [str, List.append_assoc]
    · have hcut : Cut rem (str "/") = (rem, [], false) := Cut_single_none hs
      rw [resolvePathLoop_plain_last dst first hcut (ne_dots_of_not_mem hd).1
        (ne_dots_of_not_mem hd).2]
      exact ⟨rfl, hd⟩

/-- The function `resolvePath` leaves a rooted path without dot unchanged. -/
theorem resolvePath_rooted_plain (t : GoString) (h : '.'.toNat ∉ t) :
    resolvePath ('/'.toNat :: t) [] = '/'.toNat :: t := by
  have hd : '.'.toNat ∉ '/'.toNat :: t := by
    intro hm
    rcases List.mem_cons.1 hm with hm | hm
    · exact absurd hm (by decide)
    · exact h hm
  obtain ⟨e1, e2⟩ := resolvePathLoop_plain (('/'.toNat :: t).length + 1) ('/'.toNat :: t)
    (str "/") true (le_refl _) hd
  obtain ⟨n1, n2⟩ := ne_dots_of_not_mem e2
  unfold resolvePath
  simp only [if_true, List.cons_ne_nil, if_false]
  rw [show resolvePathLoop (('/'.toNat :: t).length + 1) ('/'.toNat :: t) (str "/") true =
    ((resolvePathLoop (('/'.toNat :: t).length + 1) ('/'.toNat :: t) (str "/") true).1,
     (resolvePathLoop (('/'.toNat :: t).length + 1) ('/'.toNat :: t) (str "/") true).2) from rfl]
  simp only [e1, n1, n2, or_self, if_false]
  simp [str]

/-- Resolving a relative reference without dot against a base path that ends with a
slash appends the reference. -/
theorem resolvePath_append_plain (x ref : GoString) (hx : '.'.toNat ∉ x)
    (hr : '.'.toNat ∉ ref) (hne : ref ≠ []) (hr0 : ref.head? ≠ some '/'.toNat) :
    resolvePath ('/'.toNat :: x ++ str "/") ref = '/'.toNat :: x ++ str "/" ++ ref := by
  have hfull := resolvePath_rooted_plain (x ++ str "/" ++ ref) (by
    intro hm
    rcases List.mem_append.1 hm with hm | hm
    · rcases List.mem_append.1 hm with hm | hm
      · exact hx hm
      · exact absurd hm (by decide)
    · exact hr hm)
  have hli : LastIndex ('/'.toNat :: x ++ str "/") (str "/") = some ('/'.toNat :: x).length :=
    LastIndex_single_append ('/'.toNat :: x) (b := []) (by simp)
  unfold resolvePath at hfull ⊢
  rw [if_neg hne, if_pos hr0, hli]
  simp only [if_true, List.cons_ne_nil, if_false] at hfull
  have e : ('/'.toNat :: x ++ str "/").take (('/'.toNat :: x).length + 1) ++ ref =
      '/'.toNat :: (x ++ str "/" ++ ref) := by
    rw [List.take_of_length_le (by simp [str])]
    simp
  simp only [e, List.cons_ne_nil, if_false]
  rw [hfull]
  simp

/-! ### `RootURL` on plain `http` and `https` URLs -/

theorem isPathByte_not_dot {s : GoString} (h : ∀ c ∈ s, isPathByte c = true) :
    '.'.toNat ∉ s := by
  intro hm
  exact absurd (h _ hm) (by decide)

theorem plain_cons_slash {t : GoString} (ht : ∀ c ∈ t, isPlainByte c = true) :
    ∀ c ∈ '/'.toNat :: t, isPlainByte c = true := by
  intro c hc
  rcases List.mem_cons.1 hc with rfl | hc
  · decide
  · exact ht c hc

/-- Resolving the empty reference against a plain base with a rooted path without dot
keeps scheme, host, path and query of the base. -/
theorem ResolveReference_empty_http (scheme host t q : GoString) (fq : Bool)
    (ht : ∀ c ∈ t, isPlainByte c = true) (hd : '.'.toNat ∉ t) :
    URL.ResolveReference
        { Scheme := scheme, Host := host, Path := '/'.toNat :: t, ForceQuery := fq,
          RawQuery := q } {} =
      { Scheme := scheme, Host := host, Path := '/'.toNat :: t, RawQuery := q } := by
  rw [ResolveReference_empty, if_neg (by simp),
    EscapedPath_of_plain _ rfl (plain_cons_slash ht)]
  show URL.setPathIgnoringError _ (resolvePath ('/'.toNat :: t) []) = _
  rw [resolvePath_rooted_plain t hd, setPathIgnoringError_of_plain _ _ (plain_cons_slash ht)]

/-- The function `RootURL` on an input that parses to a plain `http` or `https` URL with
a rooted path without dot. -/
theorem RootURL_of_http_parse {w scheme host t q : GoString} {fq : Bool}
    (hs : scheme = str "https" ∨ scheme = str "http")
    (hh : ∀ c ∈ host, isPlainByte c = true) (hhs : '/'.toNat ∉ host) (hne : host ≠ [])
    (ht : ∀ c ∈ t, isPlainByte c = true) (hd : '.'.toNat ∉ t)
    (hq : ∀ c ∈ q, isPlainByte c = true) (hw : HasPrefix w (str "//") = false)
    (hp : Parse w = .ok { Scheme := scheme, Host := host, Path := '/'.toNat :: t,
                          ForceQuery := fq, RawQuery := q }) :
    RootURL w = scheme ++ str "://" ++ host ++ str "/" := by
  have hsne : scheme ≠ [] := by rcases hs with rfl | rfl <;> decide
  have ha := AbsoluteURL_nil_of_ok hp
  rw [ResolveReference_empty_http scheme host t q fq ht hd,
    String_http_url _ hsne rfl rfl hh hhs hne (plain_cons_slash ht) rfl rfl] at ha
  simp only [ne_eq, List.cons_ne_nil, not_false_eq_true, List.head?_cons, not_true_eq_false,
    and_false, if_false, Bool.false_eq_true, false_or, List.append_nil] at ha
  by_cases hq0 : q = []
  · subst hq0
    simp only [not_true_eq_false, if_false, List.append_nil] at ha
    have := RootURL_of_reparse_ok hw ha
      (Parse_http_url hs hh hhs (plain_cons_slash ht) (Or.inr ⟨t, rfl⟩))
    exact this
  · simp only [hq0, not_false_eq_true, if_true] at ha
    rw [← List.append_assoc] at ha
    have := RootURL_of_reparse_ok hw ha
      (Parse_http_url_query hs hh hhs (plain_cons_slash ht) (Or.inr ⟨t, rfl⟩) hq)
    exact this

theorem HasPrefix_slashes_of_http {scheme : GoString}
    (hs : scheme = str "https" ∨ scheme = str "http") (rest : GoString) :
    HasPrefix (scheme ++ rest) (str "//") = false := by
  rcases hs with rfl | rfl <;> rfl

theorem host_plain {host : GoString} (hh : ∀ c ∈ host, isHostByte c = true) :
    (∀ c ∈ host, isPlainByte c = true) ∧ '/'.toNat ∉ host :=
  ⟨fun c hc => (isPlainByte_of_isHostByte (hh c hc)).1,
    fun hm => (isPlainByte_of_isHostByte (hh _ hm)).2 rfl⟩

/-! ### Resolution of a relative path against a plain `http` or `https` base -/

theorem HasPrefix_slash_false_of_head {r : GoString} (h : r.head? ≠ some '/'.toNat) :
    HasPrefix r (str "/") = false := by
  by_contra hc
  simp only [Bool.not_eq_false] at hc
  obtain ⟨t, rfl⟩ := HasPrefix_cons_of hc
  exact h rfl

theorem HasPrefix_false_of_not_mem {r p : GoString} {x : Nat} (hx : x ∈ p) (h : x ∉ r) :
    HasPrefix r p = false := by
  by_contra hc
  simp only [Bool.not_eq_false] at hc
  rw [HasPrefix_iff] at hc
  exact h (hc.subset hx)

/-- A relative reference of plain bytes is handed to the resolution against the base. -/
theorem GetAbsoluteURL_relative {r : GoString} (hr : ∀ c ∈ r, isPlainByte c = true)
    (h0 : r.head? ≠ some '/'.toNat) :
    GetAbsoluteURL r = ([], some { Path := r }, none) := by
  have hcol : ':'.toNat ∉ r := plain_not_mem hr (by decide)
  have hss : HasPrefix r (str "//") = false := by
    by_contra hc
    simp only [Bool.not_eq_false] at hc
    obtain ⟨t, rfl⟩ := HasPrefix_cons_of hc
    exact h0 rfl
  rw [GetAbsoluteURL_of_other hss
    (HasPrefix_false_of_not_mem (x := ':'.toNat) (by decide) hcol)
    (HasPrefix_false_of_not_mem (x := ':'.toNat) (by decide) hcol),
    Parse_relative hr (HasPrefix_slash_false_of_head h0)]
  rfl

theorem AbsoluteURL_relative {w r : GoString} {base : URL}
    (hr : ∀ c ∈ r, isPlainByte c = true) (h0 : r.head? ≠ some '/'.toNat)
    (hb : Parse w = .ok base) :
    AbsoluteURL w r = ((base.ResolveReference { Path := r }).String, none) := by
  unfold AbsoluteURL
  rw [GetAbsoluteURL_relative hr h0]
  simp only [hb, ne_eq, not_true_eq_false, if_false]

/-- Resolving a reference that is only a path against a base with scheme, host and
path. -/
theorem ResolveReference_path (scheme host p r : GoString) (hr0 : r ≠ [])
    (hp : ∀ c ∈ p, isPlainByte c = true) (hr : ∀ c ∈ r, isPlainByte c = true)
    (hres : ∀ c ∈ resolvePath p r, isPlainByte c = true) :
    URL.ResolveReference { Scheme := scheme, Host := host, Path := p } { Path := r } =
      { Scheme := scheme, Host := host, Path := resolvePath p r } := by
  have h1 : URL.EscapedPath { Scheme := scheme, Host := host, Path := p } = p :=
    EscapedPath_of_plain _ rfl hp
  have h2 : URL.EscapedPath { Path := r } = r := EscapedPath_of_plain _ rfl hr
  unfold URL.ResolveReference
  rw [h1, h2]
  simp only [ne_eq, not_true_eq_false, or_self, if_false, hr0, false_and, if_true]
  rw [setPathIgnoringError_of_plain _ _ hres]

/-- The absolute URL of a relative path against a plain `http` or `https` base. -/
theorem AbsoluteURL_relative_http {scheme host p r : GoString}
    (hs : scheme = str "https" ∨ scheme = str "http")
    (hh : ∀ c ∈ host, isPlainByte c = true) (hhs : '/'.toNat ∉ host) (hne : host ≠ [])
    (hp : ∀ c ∈ p, isPlainByte c = true) (hp0 : p = [] ∨ ∃ t, p = '/'.toNat :: t)
    (hr : ∀ c ∈ r, isPlainByte c = true) (hr0 : r ≠ []) (h0 : r.head? ≠ some '/'.toNat)
    {res : GoString} (hres : resolvePath p r = '/'.toNat :: res)
    (hpl : ∀ c ∈ res, isPlainByte c = true) :
    AbsoluteURL (scheme ++ str "://" ++ host ++ p) r =
      (scheme ++ str "://" ++ host ++ '/'.toNat :: res, none) := by
  have hsne : scheme ≠ [] := by rcases hs with rfl | rfl <;> decide
  rw [AbsoluteURL_relative hr h0 (Parse_http_url hs hh hhs hp hp0),
    ResolveReference_path scheme host p r hr0 hp hr (by rw [hres]; exact plain_cons_slash hpl),
    hres, String_http_url _ hsne rfl rfl hh hhs hne (plain_cons_slash hpl) rfl rfl]
  simp

/-! ### Removal of a `..` segment -/

theorem resolvePathLoop_dotdot (n : Nat) (a c : GoString) (ha : '/'.toNat ∉ a)
    (had : '.'.toNat ∉ a) (hc : '.'.toNat ∉ c) (hn : c.length + 1 ≤ n) :
    (resolvePathLoop (n + 3) ('/'.toNat :: a ++ str "/../" ++ c) (str "/") true).1 =
      str "//" ++ c ∧
    '.'.toNat ∉ (resolvePathLoop (n + 3) ('/'.toNat :: a ++ str "/../" ++ c) (str "/") true).2 := by
  have e1 : '/'.toNat :: a ++ str "/../" ++ c = [] ++ '/'.toNat :: (a ++ str "/../" ++ c) := by
    simp
  have c1 : Cut ('/'.toNat :: a ++ str "/../" ++ c) (str "/") =
      ([], a ++ str "/../" ++ c, true) := by
    rw [e1]; exact Cut_single_append _ (by simp)
  have e2 : a ++ str "/../" ++ c = a ++ '/'.toNat :: (str "../" ++ c) := by
    simp [str]
  have c2 : Cut (a ++ str "/../" ++ c) (str "/") = (a, str "../" ++ c, true) := by
    rw [e2]; exact Cut_single_append _ ha
  have c3 : Cut (str "../" ++ c) (str "/") = (str "..", c, true) :=
    Cut_single_append (a := str "..") c (by decide)
  have hl : LastIndex (((if !false then (str "/" ++ []) ++ str "/" else str "/" ++ []) ++ a).drop 1)
      (str "/") = some 0 := by
    show LastIndex ([] ++ '/'.toNat :: a) [ '/'.toNat ] = some ([] : GoString).length
    exact LastIndex_single_append [] ha
  rw [resolvePathLoop_plain_found (str "/") true c1 (by decide) (by decide)]
  rw [resolvePathLoop_plain_found _ false c2 (ne_dots_of_not_mem had).1 (ne_dots_of_not_mem had).2]
  simp only [Bool.not_true, Bool.false_eq_true, if_false]
  rw [resolvePathLoop_dotdot_found _ false c3 hl]
  obtain ⟨r1, r2⟩ := resolvePathLoop_plain n c (str "/" ++ List.take 0 _) false hn hc
  exact ⟨by rw [r1]; rfl, r2⟩

/-- A reference `../c` against a base path `/a/b` resolves to `/c`. -/
theorem resolvePath_dotdot (a b c : GoString) (ha : '/'.toNat ∉ a) (had : '.'.toNat ∉ a)
    (hb : '/'.toNat ∉ b) (hc : '.'.toNat ∉ c) :
    resolvePath ('/'.toNat :: a ++ '/'.toNat :: b) (str "../" ++ c) = '/'.toNat :: c := by
  have hli : LastIndex ('/'.toNat :: a ++ '/'.toNat :: b) (str "/") =
      some ('/'.toNat :: a).length := LastIndex_single_append ('/'.toNat :: a) hb
  have hfull : ('/'.toNat :: a ++ '/'.toNat :: b).take (('/'.toNat :: a).length + 1) ++
      (str "../" ++ c) = '/'.toNat :: a ++ str "/../" ++ c := by
    rw [show '/'.toNat :: a ++ '/'.toNat :: b = ('/'.toNat :: a ++ str "/") ++ b by simp [str],
      List.take_left' (by simp [str])]
    simp [str]
  obtain ⟨n, hn1, hn2⟩ : ∃ n, ('/'.toNat :: a ++ str "/../" ++ c).length + 1 = n + 3 ∧
      c.length + 1 ≤ n := by
    refine ⟨a.length + c.length + 3, ?_, by omega⟩
    simp [str]
    omega
  obtain ⟨r1, r2⟩ := resolvePathLoop_dotdot n a c ha had hc hn2
  obtain ⟨n1, n2⟩ := ne_dots_of_not_mem r2
  have h1 : str "../" ++ c ≠ [] := by
    show '.'.toNat :: '.'.toNat :: '/'.toNat :: c ≠ []
    exact List.cons_ne_nil _ _
  have h2 : (str "../" ++ c).head? ≠ some '/'.toNat := by
    show some '.'.toNat ≠ some '/'.toNat
    decide
  have h3 : '/'.toNat :: a ++ str "/../" ++ c ≠ [] := by simp
  unfold resolvePath
  rw [if_neg h1, if_pos h2, hli]
  simp only [hfull]
  rw [if_neg h3, hn1]
  rw [show resolvePathLoop (n + 3) ('/'.toNat :: a ++ str "/../" ++ c) (str "/") true =
    ((resolvePathLoop (n + 3) ('/'.toNat :: a ++ str "/../" ++ c) (str "/") true).1,
     (resolvePathLoop (n + 3) ('/'.toNat :: a ++ str "/../" ++ c) (str "/") true).2) from rfl]
  simp only [r1, n1, n2, or_self, if_false]
  simp [str]

/-! ### Segments -/

theorem isSegment_iff (s : GoString) :
    isSegment s = true ↔ s ≠ [] ∧ ∀ c ∈ s, isAlnum c = true := by
  cases s <;> simp [isSegment]

theorem isPathByte_of_isAlnum {c : Nat} (h : isAlnum c = true) : isPathByte c = true := by
  simp [isPathByte, h]

theorem isAlnum_not_slash {c : Nat} (h : isAlnum c = true) : c ≠ '/'.toNat := by
  rintro rfl
  exact absurd h (by decide)

theorem isAlnum_not_dot {c : Nat} (h : isAlnum c = true) : c ≠ '.'.toNat := by
  rintro rfl
  exact absurd h (by decide)

theorem segment_not_mem {s : GoString} (h : isSegment s = true) :
    '/'.toNat ∉ s ∧ '.'.toNat ∉ s :=
  ⟨fun hm => isAlnum_not_slash (((isSegment_iff s).1 h).2 _ hm) rfl,
    fun hm => isAlnum_not_dot (((isSegment_iff s).1 h).2 _ hm) rfl⟩

theorem segment_plain {s : GoString} (h : isSegment s = true) :
    ∀ c ∈ s, isPlainByte c = true :=
  fun c hc => isPlainByte_of_isAlnum (((isSegment_iff s).1 h).2 c hc)

theorem joined_single (s : GoString) : joined [s] = s := by
  simp [joined, List.intercalate]

theorem joined_cons_cons (s s1 : GoString) (rest : List GoString) :
    joined (s :: s1 :: rest) = s ++ '/'.toNat :: joined (s1 :: rest) := by
  simp [joined, List.intercalate, str]

theorem slashed_nil : slashed [] = [] := rfl

theorem slashed_cons (s : GoString) (rest : List GoString) :
    slashed (s :: rest) = '/'.toNat :: s ++ slashed rest := by
  simp [slashed, str]

theorem slashed_eq_joined : ∀ (segs : List GoString), segs ≠ [] →
    slashed segs = '/'.toNat :: joined segs
  | [], h => absurd rfl h
  | [s], _ => by rw [slashed_cons, slashed_nil, joined_single, List.append_nil]
  | s :: s1 :: rest, _ => by
    rw [slashed_cons, slashed_eq_joined (s1 :: rest) (List.cons_ne_nil _ _), joined_cons_cons]
    simp

theorem slashed_path_bytes : ∀ (segs : List GoString), (∀ s ∈ segs, isSegment s = true) →
    ∀ c ∈ slashed segs, isPathByte c = true
  | [], _ => by intro c hc; cases hc
  | s :: rest, h => by
    intro c hc
    rw [slashed_cons] at hc
    rcases List.mem_append.1 hc with hc | hc
    · rcases List.mem_cons.1 hc with rfl | hc
      · decide
      · exact isPathByte_of_isAlnum (((isSegment_iff s).1 (h s (List.mem_cons_self _ _))).2 c hc)
    · exact slashed_path_bytes rest (fun t ht => h t (List.mem_cons_of_mem _ ht)) c hc

theorem joined_path_bytes (segs : List GoString) (h : ∀ s ∈ segs, isSegment s = true) :
    ∀ c ∈ joined segs, isPathByte c = true := by
  intro c hc
  cases segs with
  | nil => simp [joined, List.intercalate] at hc
  | cons s rest =>
    apply slashed_path_bytes (s :: rest) h
    rw [slashed_eq_joined _ (List.cons_ne_nil _ _)]
    exact List.mem_cons_of_mem _ hc

/-- The first byte of one or more segments joined by slashes is a letter or digit. -/
theorem joined_head (segs : List GoString) (hne : segs ≠ [])
    (h : ∀ s ∈ segs, isSegment s = true) :
    ∃ c t, joined segs = c :: t ∧ isAlnum c = true := by
  cases segs with
  | nil => exact absurd rfl hne
  | cons s rest =>
    obtain ⟨hs, ha⟩ := (isSegment_iff s).1 (h s (List.mem_cons_self _ _))
    cases s with
    | nil => exact absurd rfl hs
    | cons c t =>
      cases rest with
      | nil => exact ⟨c, t, joined_single _, ha c (List.mem_cons_self _ _)⟩
      | cons s1 rest1 =>
        exact ⟨c, _, by rw [joined_cons_cons]; rfl, ha c (List.mem_cons_self _ _)⟩

theorem Index_dots_none {s : GoString} (h : '.'.toNat ∉ s) : Index s (str "..") = none := by
  induction s with
  | nil => rfl
  | cons c cs ih =>
    have hc : c ≠ '.'.toNat := fun e => h (by rw [e]; exact List.mem_cons_self _ _)
    have hc46 : ¬ (46 = c) := fun e => hc e.symm
    have ih1 := ih (fun hm => h (List.mem_cons_of_mem _ hm))
    have ih2 : Index cs [46, 46] = none := ih1
    simp [Index, str, List.isPrefixOf, hc46, ih2]

/-! ### `Clean` on segments separated by slashes -/

/-- The loop of `Clean` treats what precedes a slash independently of what follows it. -/
theorem cleanLoop_append_slash (y : GoString) :
    ∀ (fuel : Nat) (x out : GoString), x.length + y.length + 1 ≤ fuel →
      cleanLoop true fuel (x ++ '/'.toNat :: y) out 1 =
        cleanLoop true fuel ('/'.toNat :: y) (cleanLoop true fuel x out 1) 1 := by
  intro fuel
  induction fuel with
  | zero => intro x out h; omega
  | succ fuel ih =>
    intro x out h
    match x with
    | [] => rw [List.nil_append, cleanLoop_nil]
    | c :: x1 =>
      have hl : x1.length + y.length + 1 ≤ fuel := by
        simp only [List.length_cons] at h ⊢; omega
      rw [cleanLoop_fuel true fuel ('/'.toNat :: y) _ 1 (by simp only [List.length_cons]; omega)]
      rw [List.cons_append, cleanLoop_cons, cleanLoop_cons]
      by_cases hc1 : c = '/'.toNat
      · rw [if_pos hc1, if_pos hc1]
        exact ih x1 out hl
      rw [if_neg hc1, if_neg hc1]
      by_cases hc2 : c = '.'.toNat ∧ (x1 = [] ∨ x1.head? = some '/'.toNat)
      · rw [if_pos hc2, if_pos ((cleanLoop_dot_cond_append c x1 y).2 hc2)]
        exact ih x1 out hl
      rw [if_neg hc2, if_neg (fun hc => hc2 ((cleanLoop_dot_cond_append c x1 y).1 hc))]
      by_cases hc3 : c = '.'.toNat ∧ x1.head? = some '.'.toNat ∧
          (x1.drop 1 = [] ∨ (x1.drop 1).head? = some '/'.toNat)
      · rw [if_pos hc3, if_pos ((cleanLoop_dotdot_cond_append c x1 y).2 hc3)]
        obtain ⟨z, x2, rfl⟩ : ∃ z x2, x1 = z :: x2 := by
          cases x1 with
          | nil => simp at hc3
          | cons z x2 => exact ⟨z, x2, rfl⟩
        simp only [List.cons_append, List.drop_succ_cons, List.drop_zero]
        exact ih x2 _ (by simp only [List.length_cons] at hl ⊢; omega)
      rw [if_neg hc3,
        if_neg (fun hc => hc3 ((cleanLoop_dotdot_cond_append c x1 y).1 hc))]
      rw [← List.cons_append, takeWhile_append_slash, dropWhile_append_slash]
      refine ih _ _ ?_
      have h2 : (c :: x1).dropWhile (· ≠ '/'.toNat) = x1.dropWhile (· ≠ '/'.toNat) := by
        rw [List.dropWhile_cons, if_pos (by simpa using hc1)]
      rw [h2]
      have := dropWhile_length_le x1
      omega

/-- The loop of `Clean` skips a slash. -/
theorem cleanLoop_skip_slash (fuel : Nat) (x out : GoString) (h : x.length + 1 ≤ fuel) :
    cleanLoop true fuel ('/'.toNat :: x) out 1 = cleanLoop true fuel x out 1 := by
  obtain ⟨f, rfl⟩ : ∃ f, fuel = f + 1 := ⟨fuel - 1, by omega⟩
  rw [cleanLoop_cons, if_pos rfl, cleanLoop_fuel true f x out 1 (by omega)]

theorem cleanLoop_skip_slashes (sl : GoString) (hsl : ∀ c ∈ sl, c = '/'.toNat) :
    ∀ (fuel : Nat) (x out : GoString), sl.length + x.length ≤ fuel →
      cleanLoop true fuel (sl ++ x) out 1 = cleanLoop true fuel x out 1 := by
  induction sl with
  | nil => intro fuel x out _; rfl
  | cons c cs ih =>
    intro fuel x out h
    simp only [List.length_cons] at h
    rw [hsl c (List.mem_cons_self _ _), List.cons_append,
      cleanLoop_skip_slash fuel _ out (by simp only [List.length_append]; omega)]
    exact ih (fun d hd => hsl d (List.mem_cons_of_mem _ hd)) fuel x out (by omega)

/-- The output of `Clean` after the segments `d`. -/
theorem cleanLoop_segment (seg rest out : GoString) (hseg : isSegment seg = true)
    (hrest : rest = [] ∨ ∃ y, rest = '/'.toNat :: y) (fuel : Nat)
    (h : seg.length + rest.length + 1 ≤ fuel) :
    cleanLoop true fuel ('/'.toNat :: seg ++ rest) out 1 =
      cleanLoop true fuel rest ((if out.length ≠ 1 then out ++ str "/" else out) ++ seg) 1 := by
  obtain ⟨hne, hal⟩ := (isSegment_iff seg).1 hseg
  obtain ⟨s0, ss, rfl⟩ : ∃ s0 ss, seg = s0 :: ss := by
    cases seg with
    | nil => exact absurd rfl hne
    | cons s0 ss => exact ⟨s0, ss, rfl⟩
  have h0 : s0 ≠ '/'.toNat := isAlnum_not_slash (hal s0 (List.mem_cons_self _ _))
  have h1 : s0 ≠ '.'.toNat := isAlnum_not_dot (hal s0 (List.mem_cons_self _ _))
  have hs : ∀ y ∈ ss, y ≠ '/'.toNat := fun y hy => isAlnum_not_slash (hal y (List.mem_cons_of_mem _ hy))
  have hbase : ∀ f : Nat, (s0 :: ss).length + 1 ≤ f → ∀ o : GoString,
      cleanLoop true f ('/'.toNat :: s0 :: ss) o 1 =
        (if o.length ≠ 1 then o ++ str "/" else o) ++ s0 :: ss := by
    intro f hf o
    have := cleanLoop_append_segment s0 ss h0 h1 hs f [] o (by simpa using hf)
    rw [List.nil_append, cleanLoop_nil] at this
    exact this
  rcases hrest with rfl | ⟨y, rfl⟩
  · rw [List.append_nil, cleanLoop_nil]
    exact hbase fuel (by simpa using h) out
  · rw [cleanLoop_append_slash y fuel ('/'.toNat :: s0 :: ss) out
      (by simp only [List.length_cons] at h ⊢; omega),
      hbase fuel (by simp only [List.length_cons] at h ⊢; omega) out]

theorem slashed_append (a b : List GoString) : slashed (a ++ b) = slashed a ++ slashed b := by
  simp [slashed]

theorem slashed_head : ∀ (segs : List GoString), slashed segs = [] ∨
    ∃ y, slashed segs = '/'.toNat :: y
  | [] => Or.inl rfl
  | s :: rest => Or.inr ⟨s ++ slashed rest, by rw [slashed_cons]; rfl⟩

theorem slashed_length (s : GoString) (rest : List GoString) (hs : isSegment s = true) :
    (slashed (s :: rest)).length ≠ 1 := by
  obtain ⟨hne, -⟩ := (isSegment_iff s).1 hs
  have : 0 < s.length := List.length_pos.2 hne
  rw [slashed_cons]
  simp only [List.length_append, List.length_cons]
  omega

/-- Cleaning the segments `segs`, each preceded by a slash, after the segments `d`. -/
theorem cleanLoop_slashed : ∀ (segs d : List GoString) (rest : GoString) (fuel : Nat),
    (∀ s ∈ segs, isSegment s = true) → (∀ s ∈ d, isSegment s = true) →
    (rest = [] ∨ ∃ y, rest = '/'.toNat :: y) →
    (slashed segs ++ rest).length ≤ fuel →
    cleanLoop true fuel (slashed segs ++ rest) (if d = [] then str "/" else slashed d) 1 =
      cleanLoop true fuel rest (if d ++ segs = [] then str "/" else slashed (d ++ segs)) 1
  | [], d, rest, fuel, _, _, _, _ => by rw [slashed_nil, List.nil_append, List.append_nil]
  | s :: segs, d, rest, fuel, hsegs, hd, hrest, hf => by
    have hs := hsegs s (List.mem_cons_self _ _)
    have hrest2 : slashed segs ++ rest = [] ∨ ∃ y, slashed segs ++ rest = '/'.toNat :: y := by
      rcases slashed_head segs with e | ⟨y, e⟩
      · rw [e]; exact hrest
      · exact Or.inr ⟨y ++ rest, by rw [e]; rfl⟩
    have e1 : slashed (s :: segs) ++ rest = '/'.toNat :: s ++ (slashed segs ++ rest) := by
      rw [slashed_cons, List.append_assoc]
    have hout : (if (if d = [] then str "/" else slashed d).length ≠ 1
        then (if d = [] then str "/" else slashed d) ++ str "/"
        else (if d = [] then str "/" else slashed d)) ++ s =
        (if d ++ [s] = [] then str "/" else slashed (d ++ [s])) := by
      cases d with
      | nil => simp [slashed, str]
      | cons d0 ds =>
        have hne : d0 :: ds ++ [s] ≠ [] := by simp
        rw [if_neg (List.cons_ne_nil d0 ds),
          if_pos (slashed_length d0 ds (hd d0 (List.mem_cons_self _ _))), if_neg hne,
          slashed_append]
        simp [slashed, str]
    rw [e1] at hf ⊢
    rw [cleanLoop_segment s _ _ hs hrest2 fuel
      (by simp only [List.length_append, List.length_cons] at hf ⊢; omega), hout]
    have := cleanLoop_slashed segs (d ++ [s]) rest fuel
      (fun t ht => hsegs t (List.mem_cons_of_mem _ ht))
      (by
        intro t ht
        rcases List.mem_append.1 ht with ht | ht
        · exact hd t ht
        · rw [List.mem_singleton.1 ht]; exact hs)
      hrest (by simp only [List.length_append, List.length_cons] at hf ⊢; omega)
    rw [this, List.append_assoc]
    rfl

/-- The function `Clean` on segments preceded by slashes, with any number of extra
slashes between the two groups `bsegs` and `psegs`. -/
theorem Clean_slashed (bsegs psegs : List GoString) (sl : GoString)
    (hb : ∀ s ∈ bsegs, isSegment s = true) (hp : ∀ s ∈ psegs, isSegment s = true)
    (hp0 : psegs ≠ []) (hsl : ∀ c ∈ sl, c = '/'.toNat) :
    Clean (slashed bsegs ++ sl ++ slashed psegs) = slashed (bsegs ++ psegs) := by
  obtain ⟨p0, ps, rfl⟩ : ∃ p0 ps, psegs = p0 :: ps := by
    cases psegs with
    | nil => exact absurd rfl hp0
    | cons p0 ps => exact ⟨p0, ps, rfl⟩
  obtain ⟨x, hx⟩ : ∃ x, slashed bsegs ++ sl ++ slashed (p0 :: ps) = '/'.toNat :: x := by
    rcases slashed_head bsegs with e | ⟨y, e⟩
    · rw [e, List.nil_append]
      cases sl with
      | nil => exact ⟨_, by rw [List.nil_append, slashed_cons]; rfl⟩
      | cons c cs => exact ⟨cs ++ slashed (p0 :: ps), by rw [hsl c (List.mem_cons_self _ _)]; rfl⟩
    · exact ⟨y ++ sl ++ slashed (p0 :: ps), by rw [e]; rfl⟩
  have hrun : ∀ fuel, (slashed bsegs ++ sl ++ slashed (p0 :: ps)).length ≤ fuel →
      cleanLoop true fuel (slashed bsegs ++ sl ++ slashed (p0 :: ps)) (str "/") 1 =
        slashed (bsegs ++ p0 :: ps) := by
    intro fuel hf
    have h1 := cleanLoop_slashed bsegs [] (sl ++ slashed (p0 :: ps)) fuel hb
      (fun _ h => by cases h)
      (by
        cases sl with
        | nil => exact Or.inr ⟨_, by rw [List.nil_append, slashed_cons]; rfl⟩
        | cons c cs =>
          exact Or.inr ⟨cs ++ slashed (p0 :: ps), by rw [hsl c (List.mem_cons_self _ _)]; rfl⟩)
      (by rw [← List.append_assoc]; exact hf)
    rw [if_pos rfl, List.nil_append] at h1
    rw [List.append_assoc, h1,
      cleanLoop_skip_slashes sl hsl fuel _ _
        (by simp only [List.length_append] at hf ⊢; omega)]
    have h2 := cleanLoop_slashed (p0 :: ps) bsegs [] fuel hp hb (Or.inl rfl)
      (by simp only [List.length_append, List.append_nil] at hf ⊢; omega)
    have hne : bsegs ++ p0 :: ps ≠ [] := by simp
    rw [List.append_nil, cleanLoop_nil, if_neg hne] at h2
    exact h2
  unfold Clean
  rw [if_neg (by rw [hx]; exact List.cons_ne_nil _ _)]
  have hr : (slashed bsegs ++ sl ++ slashed (p0 :: ps)).head? = some '/'.toNat := by rw [hx]; rfl
  simp only [hr, decide_True, if_true]
  have hrun2 := hrun (slashed bsegs ++ sl ++ slashed (p0 :: ps)).length (le_refl _)
  rw [hx] at hrun2 ⊢
  rw [cleanLoop_skip_slash _ x _ (by simp)] at hrun2
  simp only [List.drop_succ_cons, List.drop_zero]
  rw [hrun2, if_neg]
  rw [slashed_append, slashed_cons]
  simp

/-! ### Joining segments to a plain base -/

theorem Join_pair (x path : GoString) (hx : x ≠ []) :
    Join [x, path] = Clean (x ++ str "/" ++ path) := by
  unfold Join
  have hlen : x.length ≠ 0 := fun h => hx (List.length_eq_zero.1 h)
  simp [hx, hlen]

theorem slashes_comm (sl x : GoString) (hsl : ∀ c ∈ sl, c = '/'.toNat) :
    '/'.toNat :: (sl ++ x) = sl ++ '/'.toNat :: x := by
  induction sl with
  | nil => rfl
  | cons c cs ih =>
    rw [hsl c (List.mem_cons_self _ _), List.cons_append, List.cons_append,
      ih (fun d hd => hsl d (List.mem_cons_of_mem _ hd))]

theorem slashes_plain {sl : GoString} (hsl : ∀ c ∈ sl, c = '/'.toNat) :
    ∀ c ∈ sl, isPlainByte c = true := by
  intro c hc
  rw [hsl c hc]
  decide

/-- The last byte of one or more segments preceded by slashes is a letter or digit. -/
theorem slashed_last : ∀ (segs : List GoString), segs ≠ [] →
    (∀ s ∈ segs, isSegment s = true) → ∃ t c, slashed segs = t ++ [c] ∧ isAlnum c = true
  | [], h, _ => absurd rfl h
  | [s], _, hs => by
    obtain ⟨hne, hal⟩ := (isSegment_iff s).1 (hs s (List.mem_cons_self _ _))
    refine ⟨'/'.toNat :: s.dropLast, s.getLast hne, ?_, hal _ (List.getLast_mem hne)⟩
    rw [slashed_cons, slashed_nil, List.append_nil, List.cons_append,
      List.dropLast_append_getLast hne]
  | s :: s1 :: rest, _, hs => by
    obtain ⟨t, c, e, hc⟩ := slashed_last (s1 :: rest) (List.cons_ne_nil _ _)
      (fun x hx => hs x (List.mem_cons_of_mem _ hx))
    exact ⟨'/'.toNat :: s ++ t, c, by rw [slashed_cons, e, List.append_assoc], hc⟩

theorem HasSuffix_slash_of_last {x t : GoString} {c : Nat} (e : x = t ++ [c])
    (hc : isAlnum c = true) : HasSuffix x (str "/") = false := by
  by_contra h
  simp only [Bool.not_eq_false] at h
  rw [HasSuffix_iff] at h
  obtain ⟨pre, hpre⟩ := h
  rw [e] at hpre
  have := List.append_inj_right' hpre rfl
  exact isAlnum_not_slash hc (List.cons.inj this).1.symm

theorem slashed_plain (segs : List GoString) (h : ∀ s ∈ segs, isSegment s = true) :
    ∀ c ∈ slashed segs, isPlainByte c = true :=
  fun c hc => isPlainByte_of_isPathByte (slashed_path_bytes segs h c hc)

/-- Joining the path `path`, one or more segments joined by slashes after any number of
slashes, to a URL whose path is zero or more segments preceded by slashes, followed by
any number of slashes. -/
theorem JoinPath_segments (scheme host : GoString) (bsegs psegs : List GoString)
    (sl1 sl2 : GoString) (hb : ∀ s ∈ bsegs, isSegment s = true)
    (hp : ∀ s ∈ psegs, isSegment s = true) (hp0 : psegs ≠ [])
    (h1 : ∀ c ∈ sl1, c = '/'.toNat) (h2 : ∀ c ∈ sl2, c = '/'.toNat) :
    URL.JoinPath { Scheme := scheme, Host := host, Path := slashed bsegs ++ sl1 }
        [sl2 ++ joined psegs] =
      { Scheme := scheme, Host := host,
        Path := if slashed bsegs ++ sl1 = [] then joined psegs else slashed (bsegs ++ psegs) } := by
  have hPplain : ∀ c ∈ slashed bsegs ++ sl1, isPlainByte c = true :=
    plain_append (slashed_plain bsegs hb) (slashes_plain h1)
  have hesc : URL.EscapedPath { Scheme := scheme, Host := host, Path := slashed bsegs ++ sl1 } =
      slashed bsegs ++ sl1 := EscapedPath_of_plain _ rfl hPplain
  have hsp : slashed psegs = '/'.toNat :: joined psegs := slashed_eq_joined psegs hp0
  obtain ⟨t, c, ht, hc⟩ := slashed_last psegs hp0 hp
  have hsuf : HasSuffix (sl2 ++ joined psegs) (str "/") = false := by
    have e : sl2 ++ joined psegs = (sl2 ++ (t ++ [c]).drop 1) := by rw [← ht, hsp]; rfl
    have hjl : ∃ t2, joined psegs = t2 ++ [c] := by
      obtain ⟨c0, t0, e0, -⟩ := joined_head psegs hp0 hp
      cases t with
      | nil =>
        rw [hsp, e0] at ht
        cases ht
      | cons a t1 =>
        rw [hsp] at ht
        exact ⟨t1, (List.cons.inj ht).2⟩
    obtain ⟨t2, e2⟩ := hjl
    exact HasSuffix_slash_of_last (t := sl2 ++ t2) (by rw [e2, List.append_assoc]) hc
  have hplainres : ∀ c ∈ slashed (bsegs ++ psegs), isPlainByte c = true := by
    apply slashed_plain
    intro s hs
    rcases List.mem_append.1 hs with hs | hs
    · exact hb s hs
    · exact hp s hs
  have hjplain : ∀ c ∈ joined psegs, isPlainByte c = true :=
    fun c hc => isPlainByte_of_isPathByte (joined_path_bytes psegs hp c hc)
  unfold URL.JoinPath
  rw [hesc]
  by_cases hP : slashed bsegs ++ sl1 = []
  · obtain ⟨hb0, hs0⟩ := List.append_eq_nil.1 hP
    have hbn : bsegs = [] := by
      cases bsegs with
      | nil => rfl
      | cons s rest => rw [slashed_cons] at hb0; cases hb0
    subst hbn
    subst hs0
    have hclean := Clean_slashed [] psegs ('/'.toNat :: sl2) (fun _ h => by cases h) hp hp0
      (by
        intro c hc
        rcases List.mem_cons.1 hc with rfl | hc
        · rfl
        · exact h2 c hc)
    have hj : Join [str "/", sl2 ++ joined psegs] = slashed psegs := by
      have e : str "/" ++ str "/" ++ (sl2 ++ joined psegs) =
          slashed [] ++ '/'.toNat :: sl2 ++ slashed psegs := by
        rw [hsp]
        show '/'.toNat :: '/'.toNat :: (sl2 ++ joined psegs) =
          '/'.toNat :: (sl2 ++ '/'.toNat :: joined psegs)
        rw [slashes_comm sl2 _ h2]
      rw [Join_pair _ _ (by decide), e, hclean]
      rfl
    simp only [slashed_nil, List.append_nil]
    simp only [show HasPrefix [] (str "/") = false from rfl, Bool.not_false, if_true, hj,
      List.getLastD_cons, List.getLastD_nil, hsuf, Bool.false_eq_true, false_and, if_false]
    rw [hsp, List.drop_succ_cons, List.drop_zero, setPathIgnoringError_of_plain _ _ hjplain]
  · rw [if_neg hP]
    obtain ⟨y, hy⟩ : ∃ y, slashed bsegs ++ sl1 = '/'.toNat :: y := by
      rcases slashed_head bsegs with e | ⟨y, e⟩
      · rw [e, List.nil_append] at hP ⊢
        cases sl1 with
        | nil => exact absurd rfl hP
        | cons c cs => exact ⟨cs, by rw [h1 c (List.mem_cons_self _ _)]⟩
      · exact ⟨y ++ sl1, by rw [e]; rfl⟩
    have hpre : HasPrefix (slashed bsegs ++ sl1) (str "/") = true := by
      rw [hy]
      exact (HasPrefix_iff _ _).2 ⟨y, rfl⟩
    have hclean := Clean_slashed bsegs psegs (sl1 ++ sl2) hb hp hp0
      (by
        intro c hc
        rcases List.mem_append.1 hc with hc | hc
        · exact h1 c hc
        · exact h2 c hc)
    have hj : Join [slashed bsegs ++ sl1, sl2 ++ joined psegs] = slashed (bsegs ++ psegs) := by
      have e : slashed bsegs ++ sl1 ++ str "/" ++ (sl2 ++ joined psegs) =
          slashed bsegs ++ (sl1 ++ sl2) ++ slashed psegs := by
        rw [hsp]
        simp only [List.append_assoc]
        show slashed bsegs ++ (sl1 ++ '/'.toNat :: (sl2 ++ joined psegs)) = _
        rw [slashes_comm sl2 _ h2]
      rw [Join_pair _ _ hP, e, hclean]
    simp only [hpre, Bool.not_true, Bool.false_eq_true, if_false, hj,
      List.getLastD_cons, List.getLastD_nil, hsuf, false_and]
    rw [setPathIgnoringError_of_plain _ _ hplainres]

/-! ### The error of `JoinPath` -/

/-- The first loop of `unescape` accepts a path exactly when every `%` is followed by two
hexadecimal digits. -/
theorem validEscapes_iff : ∀ (n : Nat) (s : GoString), s.length ≤ n →
    (unescapeCheck encodePath s = none ↔ validEscapes s = true) := by
  intro n
  induction n with
  | zero =>
    intro s hl
    have : s = [] := List.length_eq_zero.mp (by omega)
    subst this
    exact ⟨fun _ => rfl, fun _ => rfl⟩
  | succ n ih =>
    intro s hl
    match s, hl with
    | [], _ => exact ⟨fun _ => rfl, fun _ => rfl⟩
    | c :: rest, hl =>
      by_cases hc : c = '%'.toNat
      · subst hc
        match rest, hl with
        | [], _ =>
          exact ⟨fun h => absurd h (unescapeCheck_path_percent_short [] (by simp)),
            fun h => by simp [validEscapes] at h⟩
        | [x], _ =>
          exact ⟨fun h => absurd h (unescapeCheck_path_percent_short [x] (by simp)),
            fun h => by simp [validEscapes] at h⟩
        | h1 :: h2 :: rest2, hl =>
          rw [unescapeCheck_path_percent, ih rest2 (by simp at hl; omega)]
          simp [validEscapes, and_assoc]
      · have hv : validEscapes (c :: rest) = validEscapes rest := by
          conv_lhs => unfold validEscapes
          rw [if_neg hc]
        rw [unescapeCheck_path_cons_ne _ hc, ih rest (by simp at hl; omega), hv]

theorem validEscapes_eq_true (s : GoString) :
    validEscapes s = true ↔ unescapeCheck encodePath s = none :=
  (validEscapes_iff s.length s (le_refl _)).symm

theorem validEscapes_eq_false (s : GoString) :
    validEscapes s = false ↔ ∃ e, unescapeCheck encodePath s = some e := by
  rw [← Bool.not_eq_true, validEscapes_eq_true]
  cases unescapeCheck encodePath s <;> simp

theorem JoinPath_eq_joinedPath (u : URL) (elem : List GoString) :
    u.JoinPath elem = u.setPathIgnoringError (u.joinedPath elem) := rfl

theorem setPath_of_valid (u : URL) {p : GoString} (h : unescapeCheck encodePath p = none) :
    u.setPath p = .ok (u.setPathIgnoringError p) := by
  unfold URL.setPathIgnoringError URL.setPath unescape
  rw [h]
  simp only
  split_ifs <;> rfl

theorem setPath_of_invalid (u : URL) {p : GoString} {e : ErrKind}
    (h : unescapeCheck encodePath p = some e) : u.setPath p = .error e := by
  unfold URL.setPath unescape
  rw [h]

theorem joinPath_of_valid (u : URL) {elem : List GoString}
    (h : unescapeCheck encodePath (u.joinedPath elem) = none) :
    u.joinPath elem = (u.JoinPath elem, none) := by
  unfold URL.joinPath
  rw [setPath_of_valid u h, JoinPath_eq_joinedPath]

theorem joinPath_of_invalid (u : URL) {elem : List GoString} {e : ErrKind}
    (h : unescapeCheck encodePath (u.joinedPath elem) = some e) :
    u.joinPath elem = (u, some e) := by
  unfold URL.joinPath
  rw [setPath_of_invalid u h]

/-- Cleaning a validly escaped rooted path gives a validly escaped rooted path. -/
theorem Clean_rooted_valid (z : GoString) (hz : unescapeCheck encodePath z = none) :
    unescapeCheck encodePath (Clean ('/'.toNat :: z)) = none ∧
      (Clean ('/'.toNat :: z)).head? = some '/'.toNat := by
  obtain ⟨h1, h2⟩ := cleanLoop_valid ('/'.toNat :: z).length z (str "/") hz (by decide) rfl
  have hne : (cleanLoop true ('/'.toNat :: z).length z (str "/") 1).length ≠ 0 := by
    intro h0
    rw [List.length_eq_zero.1 h0] at h2
    cases h2
  unfold Clean
  simp only [List.cons_ne_nil, if_false, List.head?_cons, decide_True, if_true,
    List.drop_succ_cons, List.drop_zero, hne]
  exact ⟨h1, h2⟩

/-- The path joined by `joinPath` is validly escaped when the element is. -/
theorem joinedPath_valid (u : URL) (p : GoString) (hp : unescapeCheck encodePath p = none) :
    unescapeCheck encodePath (u.joinedPath [p]) = none := by
  have hv := unescapeCheck_EscapedPath u
  have key : ∀ y : GoString, unescapeCheck encodePath y = none →
      unescapeCheck encodePath (Join ['/'.toNat :: y, p]) = none ∧
        (Join ['/'.toNat :: y, p]).head? = some '/'.toNat := by
    intro y hy
    rw [Join_pair _ _ (List.cons_ne_nil _ _)]
    have hz : unescapeCheck encodePath (y ++ str "/" ++ p) = none :=
      unescapeCheck_path_append _ _ _ (le_refl _)
        (unescapeCheck_path_append _ _ _ (le_refl _) hy (by decide)) hp
    have := Clean_rooted_valid (y ++ str "/" ++ p) hz
    simpa [List.append_assoc] using this
  have hslash : ∀ x : GoString, unescapeCheck encodePath x = none →
      unescapeCheck encodePath (x ++ str "/") = none :=
    fun x hx => unescapeCheck_path_append _ _ _ (le_refl _) hx (by decide)
  unfold URL.joinedPath
  simp only [List.getLastD_cons, List.getLastD_nil]
  cases hpre : HasPrefix u.EscapedPath (str "/") with
  | true =>
    obtain ⟨t, ht⟩ := HasPrefix_cons_of hpre
    have hy : unescapeCheck encodePath t = none := by
      rw [ht, unescapeCheck_path_cons_ne _ (by decide)] at hv
      exact hv
    simp only [Bool.not_true, Bool.false_eq_true, if_false]
    rw [ht]
    split
    · exact hslash _ (key t hy).1
    · exact (key t hy).1
  | false =>
    simp only [Bool.not_false, if_true]
    obtain ⟨k1, k2⟩ := key u.EscapedPath hv
    have e : str "/" ++ u.EscapedPath = '/'.toNat :: u.EscapedPath := rfl
    rw [e]
    have hd : unescapeCheck encodePath ((Join ['/'.toNat :: u.EscapedPath, p]).drop 1) = none := by
      cases hj : Join ['/'.toNat :: u.EscapedPath, p] with
      | nil => rfl
      | cons c r =>
        rw [hj] at k1 k2
        have hc : c = '/'.toNat := Option.some.inj k2
        rw [hc, unescapeCheck_path_cons_ne _ (by decide)] at k1
        exact k1
    split
    · exact hslash _ hd
    · exact hd

theorem JoinPath_of_valid {base : GoString} {url : URL} {elem : List GoString}
    (hb : Parse base = .ok url) (h : unescapeCheck encodePath (url.joinedPath elem) = none) :
    JoinPath base elem = ((url.JoinPath elem).String, none) := by
  unfold JoinPath
  rw [hb]
  simp only [joinPath_of_valid url h]

theorem JoinPath_of_invalid {base : GoString} {url : URL} {elem : List GoString} {e : ErrKind}
    (hb : Parse base = .ok url) (h : unescapeCheck encodePath (url.joinedPath elem) = some e) :
    JoinPath base elem = ([], some (.setPath e)) := by
  unfold JoinPath
  rw [hb]
  simp only [joinPath_of_invalid url h]

theorem JoinBaseURLAndPath_of_valid {baseURL path : GoString} {url : URL}
    (h1 : baseURL ≠ []) (h2 : path ≠ []) (hb : Parse baseURL = .ok url)
    (h : unescapeCheck encodePath (url.joinedPath [path]) = none) :
    JoinBaseURLAndPath baseURL path = ((url.JoinPath [path]).String, none) := by
  unfold JoinBaseURLAndPath
  rw [if_neg h1, if_neg h2, hb]
  simp only [JoinPath_of_valid hb h]

theorem JoinBaseURLAndPath_of_invalid {baseURL path : GoString} {url : URL} {e : ErrKind}
    (h1 : baseURL ≠ []) (h2 : path ≠ []) (hb : Parse baseURL = .ok url)
    (h : unescapeCheck encodePath (url.joinedPath [path]) = some e) :
    JoinBaseURLAndPath baseURL path = ([], some (.unableToJoin baseURL path (.setPath e))) := by
  unfold JoinBaseURLAndPath
  rw [if_neg h1, if_neg h2, hb]
  simp only [JoinPath_of_invalid hb h]

/-- A string of plain bytes is validly escaped. -/
theorem unescapeCheck_of_plain {p : GoString} (h : ∀ c ∈ p, isPlainByte c = true) :
    unescapeCheck encodePath p = none :=
  (unescape_path_of_no_percent p (fun x hx e => by
    have := plain_not_mem h (x := '%'.toNat) (by decide)
    exact this (e ▸ hx))).1

/-! ### Removal of dot segments by `resolvePath` -/

theorem unescapeCheck_host_cons_ne {c : Nat} (s : GoString) (h : c ≠ '%'.toNat) :
    unescapeCheck encodeHost (c :: s) =
      if c = '+'.toNat then unescapeCheck encodeHost s
      else if c < 0x80 ∧ shouldEscape c encodeHost = true then some (.InvalidHostError [c])
      else unescapeCheck encodeHost s := by
  conv_lhs => unfold unescapeCheck
  simp only [if_neg h]
  simp

theorem unescapeCheck_host_percent (h1 h2 : Nat) (s : GoString) :
    unescapeCheck encodeHost ('%'.toNat :: h1 :: h2 :: s) = none ↔
      ishex h1 = true ∧ ishex h2 = true ∧ (8 ≤ unhex h1 ∨ (h1 = 50 ∧ h2 = 53)) ∧
        unescapeCheck encodeHost s = none := by
  conv_lhs => unfold unescapeCheck
  have key : (['%'.toNat, h1, h2] ≠ str "%25") ↔ ¬ (h1 = 50 ∧ h2 = 53) := by
    show ¬ ([37, h1, h2] = [37, 50, 53]) ↔ _
    simp
  simp only [if_true, key, true_and]
  have hz : ¬ (encodeHost = encodeZone) := by decide
  simp only [hz, false_and, if_false]
  by_cases a : ishex h1 = true
  · by_cases b : ishex h2 = true
    · simp only [a, b, Bool.not_true, Bool.or_self, Bool.false_eq_true, if_false, true_and]
      by_cases c : unhex h1 < 8 ∧ ¬(h1 = 50 ∧ h2 = 53)
      · rw [if_pos c]
        constructor
        · intro h; cases h
        · rintro ⟨h | h, -⟩
          · omega
          · exact absurd h c.2
      · rw [if_neg c]
        constructor
        · intro h
          refine ⟨?_, h⟩
          by_contra hn
          simp only [not_or, not_le] at hn
          exact c ⟨hn.1, hn.2⟩
        · exact fun h => h.2
    · simp [a, b]
  · simp [a]

theorem unescapeCheck_host_percent_short (s : GoString) (h : s.length < 2) :
    unescapeCheck encodeHost ('%'.toNat :: s) ≠ none := by
  match s, h with
  | [], _ => simp [unescapeCheck]
  | [a], _ => simp [unescapeCheck]

theorem unescapeDecode_host_cons_ne {c : Nat} (s : GoString) (h : c ≠ '%'.toNat) :
    unescapeDecode encodeHost (c :: s) = c :: unescapeDecode encodeHost s := by
  conv_lhs => unfold unescapeDecode
  simp only [if_neg h]
  split
  · rename_i hp; rw [hp]; rfl
  · rfl

theorem unescapeDecode_host_percent (h1 h2 : Nat) (s : GoString) :
    unescapeDecode encodeHost ('%'.toNat :: h1 :: h2 :: s) =
      (unhex h1 * 16 + unhex h2) :: unescapeDecode encodeHost s := by
  conv_lhs => unfold unescapeDecode
  simp

theorem unhex_le (c : Nat) : unhex c ≤ 15 := by
  unfold unhex
  have e1 : '0'.toNat = 48 := rfl
  have e2 : '9'.toNat = 57 := rfl
  have e3 : 'a'.toNat = 97 := rfl
  have e4 : 'f'.toNat = 102 := rfl
  have e5 : 'A'.toNat = 65 := rfl
  have e6 : 'F'.toNat = 70 := rfl
  rw [e1, e2, e3, e4, e5, e6]
  split_ifs <;> omega

theorem ishex_cases {c : Nat} (h : ishex c = true) :
    (48 ≤ c ∧ c ≤ 57) ∨ (97 ≤ c ∧ c ≤ 102) ∨ (65 ≤ c ∧ c ≤ 70) := by
  simp only [ishex, Bool.or_eq_true, Bool.and_eq_true, decide_eq_true_eq] at h
  have e1 : '0'.toNat = 48 := rfl
  have e2 : '9'.toNat = 57 := rfl
  have e3 : 'a'.toNat = 97 := rfl
  have e4 : 'f'.toNat = 102 := rfl
  have e5 : 'A'.toNat = 65 := rfl
  have e6 : 'F'.toNat = 70 := rfl
  rw [e1, e2, e3, e4, e5, e6] at h
  omega

/-- Validity in host mode of a concatenation. -/
theorem unescapeCheck_host_append : ∀ (n : Nat) (a b : GoString), a.length ≤ n →
    unescapeCheck encodeHost a = none → unescapeCheck encodeHost b = none →
    unescapeCheck encodeHost (a ++ b) = none := by
  intro n
  induction n with
  | zero =>
    intro a b hl ha hb
    have : a = [] := List.length_eq_zero.mp (by omega)
    subst this; simpa using hb
  | succ n ih =>
    intro a b hl ha hb
    match a, hl, ha with
    | [], _, _ => simpa using hb
    | c :: a1, hl, ha =>
      by_cases hc : c = '%'.toNat
      · subst hc
        match a1, hl, ha with
        | [], _, ha => exact absurd ha (unescapeCheck_host_percent_short [] (by simp))
        | [x], _, ha => exact absurd ha (unescapeCheck_host_percent_short [x] (by simp))
        | h1 :: h2 :: a2, hl, ha =>
          rw [unescapeCheck_host_percent] at ha
          show unescapeCheck encodeHost ('%'.toNat :: h1 :: h2 :: (a2 ++ b)) = none
          rw [unescapeCheck_host_percent]
          exact ⟨ha.1, ha.2.1, ha.2.2.1, ih a2 b (by simp at hl; omega) ha.2.2.2 hb⟩
      · rw [unescapeCheck_host_cons_ne _ hc] at ha
        show unescapeCheck encodeHost (c :: (a1 ++ b)) = none
        rw [unescapeCheck_host_cons_ne _ hc]
        have hl1 : a1.length ≤ n := by simp at hl; omega
        split_ifs at ha ⊢ with k1 k2
        · exact ih a1 b hl1 ha hb
        · exact ih a1 b hl1 ha hb

/-- Validity in host mode of the two sides of a byte that is neither `%` nor a hexadecimal
digit. -/
theorem unescapeCheck_host_split (x : Nat) (hxh : ishex x = false) :
    ∀ (n : Nat) (a b : GoString), a.length ≤ n →
    unescapeCheck encodeHost (a ++ x :: b) = none →
    unescapeCheck encodeHost a = none ∧ unescapeCheck encodeHost (x :: b) = none := by
  intro n
  induction n with
  | zero =>
    intro a b hl h
    have : a = [] := List.length_eq_zero.mp (by omega)
    subst this
    exact ⟨rfl, h⟩
  | succ n ih =>
    intro a b hl h
    match a, hl, h with
    | [], _, h => exact ⟨rfl, h⟩
    | c :: a1, hl, h =>
      by_cases hc : c = '%'.toNat
      · subst hc
        match a1, hl, h with
        | [], _, h =>
          exfalso
          match b, h with
          | [], h => exact unescapeCheck_host_percent_short _ (by simp) h
          | y :: b1, h =>
            have h : unescapeCheck encodeHost ('%'.toNat :: x :: y :: b1) = none := h
            rw [unescapeCheck_host_percent] at h
            rw [hxh] at h
            exact absurd h.1 (by decide)
        | [y], _, h =>
          exfalso
          have h : unescapeCheck encodeHost ('%'.toNat :: y :: x :: b) = none := h
          rw [unescapeCheck_host_percent] at h
          rw [hxh] at h
          exact absurd h.2.1 (by decide)
        | h1 :: h2 :: a2, hl, h =>
          have h : unescapeCheck encodeHost ('%'.toNat :: h1 :: h2 :: (a2 ++ x :: b)) =
            none := h
          rw [unescapeCheck_host_percent] at h
          obtain ⟨e1, e2⟩ := ih a2 b (by simp at hl; omega) h.2.2.2
          exact ⟨(unescapeCheck_host_percent _ _ _).2 ⟨h.1, h.2.1, h.2.2.1, e1⟩, e2⟩
      · have h : unescapeCheck encodeHost (c :: (a1 ++ x :: b)) = none := h
        rw [unescapeCheck_host_cons_ne _ hc] at h
        rw [unescapeCheck_host_cons_ne _ hc]
        have hl1 : a1.length ≤ n := by simp at hl; omega
        split_ifs at h ⊢ with k1 k2
        · exact ih a1 b hl1 h
        · exact ih a1 b hl1 h

theorem unescapeDecode_host_append : ∀ (n : Nat) (a b : GoString), a.length ≤ n →
    unescapeCheck encodeHost a = none →
    unescapeDecode encodeHost (a ++ b) =
      unescapeDecode encodeHost a ++ unescapeDecode encodeHost b := by
  intro n
  induction n with
  | zero =>
    intro a b hl ha
    have : a = [] := List.length_eq_zero.mp (by omega)
    subst this; rfl
  | succ n ih =>
    intro a b hl ha
    match a, hl, ha with
    | [], _, _ => rfl
    | c :: a1, hl, ha =>
      by_cases hc : c = '%'.toNat
      · subst hc
        match a1, hl, ha with
        | [], _, ha => exact absurd ha (unescapeCheck_host_percent_short [] (by simp))
        | [x], _, ha => exact absurd ha (unescapeCheck_host_percent_short [x] (by simp))
        | h1 :: h2 :: a2, hl, ha =>
          rw [unescapeCheck_host_percent] at ha
          show unescapeDecode encodeHost ('%'.toNat :: h1 :: h2 :: (a2 ++ b)) = _
          rw [unescapeDecode_host_percent, unescapeDecode_host_percent,
            ih a2 b (by simp at hl; omega) ha.2.2.2]
          rfl
      · rw [unescapeCheck_host_cons_ne _ hc] at ha
        have hl1 : a1.length ≤ n := by simp at hl; omega
        have ha1 : unescapeCheck encodeHost a1 = none := by
          split_ifs at ha with k1 k2
          · exact ha
          · exact ha
        show unescapeDecode encodeHost (c :: (a1 ++ b)) = _
        rw [unescapeDecode_host_cons_ne _ hc, unescapeDecode_host_cons_ne _ hc, ih a1 b hl1 ha1]
        rfl

/-- Where the bytes of an unescaped host come from: a byte kept as it was, which the
check accepted, or an escaped byte, which is `%` or not ASCII. -/
theorem unescapeDecode_host_mem : ∀ (n : Nat) (e : GoString), e.length ≤ n →
    unescapeCheck encodeHost e = none →
    ∀ c ∈ unescapeDecode encodeHost e,
      (c ∈ e ∧ c ≠ '%'.toNat ∧ (128 ≤ c ∨ shouldEscape c encodeHost = false)) ∨
      (128 ≤ c ∧ c < 256) ∨ c = '%'.toNat := by
  intro n
  induction n with
  | zero =>
    intro e hl _ c hc
    have : e = [] := List.length_eq_zero.mp (by omega)
    subst this
    cases hc
  | succ n ih =>
    intro e hl he c hc
    match e, hl, he, hc with
    | [], _, _, hc => cases hc
    | x :: e1, hl, he, hc =>
      by_cases hx : x = '%'.toNat
      · subst hx
        match e1, hl, he, hc with
        | [], _, he, _ => exact absurd he (unescapeCheck_host_percent_short [] (by simp))
        | [y], _, he, _ => exact absurd he (unescapeCheck_host_percent_short [y] (by simp))
        | h1 :: h2 :: e2, hl, he, hc =>
          rw [unescapeCheck_host_percent] at he
          rw [unescapeDecode_host_percent] at hc
          rcases List.mem_cons.1 hc with rfl | hc
          · rcases he.2.2.1 with h8 | ⟨rfl, rfl⟩
            · right; left
              have := unhex_le h1
              have := unhex_le h2
              omega
            · right; right; decide
          · rcases ih e2 (by simp at hl; omega) he.2.2.2 c hc with ⟨a, b⟩ | h
            · exact Or.inl ⟨List.mem_cons_of_mem _ (List.mem_cons_of_mem _
                (List.mem_cons_of_mem _ a)), b⟩
            · exact Or.inr h
      · rw [unescapeCheck_host_cons_ne _ hx] at he
        rw [unescapeDecode_host_cons_ne _ hx] at hc
        have hl1 : e1.length ≤ n := by simp at hl; omega
        have hboth : (128 ≤ x ∨ shouldEscape x encodeHost = false) ∧
            unescapeCheck encodeHost e1 = none := by
          split_ifs at he with k1 k2
          · exact ⟨Or.inr (by rw [k1]; decide), he⟩
          · refine ⟨?_, he⟩
            by_cases h128 : 128 ≤ x
            · exact Or.inl h128
            · right
              by_contra hse
              exact k2 ⟨by omega, by simpa using hse⟩
        rcases List.mem_cons.1 hc with rfl | hc
        · exact Or.inl ⟨List.mem_cons_self _ _, hx, hboth.1⟩
        · rcases ih e1 hl1 hboth.2 c hc with ⟨a, b⟩ | h
          · exact Or.inl ⟨List.mem_cons_of_mem _ a, b⟩
          · exact Or.inr h

/-- A string of raw host bytes is accepted by `unescape` in host mode and is its own
decoding. -/
theorem unescape_host_raw (h : GoString) (hr : ∀ c ∈ h, isRawHostByte c = true) :
    unescapeCheck encodeHost h = none ∧ unescapeDecode encodeHost h = h := by
  induction h with
  | nil => exact ⟨rfl, rfl⟩
  | cons c cs ih =>
    have hc := hr c (List.mem_cons_self _ _)
    simp only [isRawHostByte, Bool.and_eq_true, decide_eq_true_eq, bne_iff_ne, ne_eq,
      Bool.or_eq_true, Bool.not_eq_true'] at hc
    obtain ⟨e1, e2⟩ := ih (fun x hx => hr x (List.mem_cons_of_mem _ hx))
    rw [unescapeCheck_host_cons_ne _ hc.1.2, unescapeDecode_host_cons_ne _ hc.1.2, e2]
    refine ⟨?_, rfl⟩
    split_ifs with k1 k2
    · exact e1
    · exfalso
      rcases hc.2 with h | h
      · omega
      · rw [h] at k2; exact absurd k2.2 (by decide)
    · exact e1

/-! ### Escaping a host -/

theorem escape_host_cons (c : Nat) (s : GoString) :
    escape (c :: s) encodeHost =
      (if shouldEscape c encodeHost = true then
        ['%'.toNat, upperhex.getD (c / 16 % 16) 0, upperhex.getD (c % 16) 0]
      else [c]) ++ escape s encodeHost := by
  simp [escape, List.flatMap_cons]

theorem unhex_upperhex (k : Nat) (h : k < 16) : unhex (upperhex.getD k 0) = k := by
  interval_cases k <;> decide

theorem upperhex_ne_percent (k : Nat) : upperhex.getD k 0 ≠ '%'.toNat := by
  by_cases h : k < 16
  · interval_cases k <;> decide
  · rw [List.getD_eq_default _ _ (by simp [upperhex, str]; omega)]
    decide

theorem upperhex_ishex_or (k : Nat) : ishex (upperhex.getD k 0) = true ∨ upperhex.getD k 0 = 0 := by
  by_cases h : k < 16
  · exact Or.inl (upperhex_ishex k h)
  · right
    exact List.getD_eq_default _ _ (by simp [upperhex, str]; omega)

theorem shouldEscape_false_lt {c : Nat} {mode : Encoding}
    (h : shouldEscape c mode = false) : c < 128 := by
  by_contra hc
  have e1 : 'a'.toNat = 97 := rfl
  have e2 : 'z'.toNat = 122 := rfl
  have e3 : 'A'.toNat = 65 := rfl
  have e4 : 'Z'.toNat = 90 := rfl
  have e5 : '0'.toNat = 48 := rfl
  have e6 : '9'.toNat = 57 := rfl
  have hne : ∀ l : List Nat, (∀ x ∈ l, x < 128) → c ∉ l := fun l hl hm => hc (hl c hm)
  unfold shouldEscape at h
  rw [e1, e2, e3, e4, e5, e6, if_neg (by omega),
    if_neg (fun k => hne _ (by decide) k.2), if_neg (hne _ (by decide)),
    if_neg (hne _ (by decide)), if_neg (fun k => hne _ (by decide) k.2)] at h
  cases h

/-- The bytes written by `escape` are ASCII. -/
theorem escape_lt (s : GoString) (mode : Encoding) : ∀ x ∈ escape s mode, x < 128 := by
  intro x hx
  simp only [escape, List.mem_flatMap] at hx
  obtain ⟨c, -, hx⟩ := hx
  split_ifs at hx with k1 k2
  · rw [List.mem_singleton.1 hx]; decide
  · simp only [List.mem_cons, List.mem_singleton, List.not_mem_nil, or_false] at hx
    rcases hx with rfl | rfl | rfl
    · decide
    · rcases upperhex_ishex_or (c / 16 % 16) with h | h
      · rcases ishex_cases h with h | h | h <;> omega
      · rw [h]; decide
    · rcases upperhex_ishex_or (c % 16) with h | h
      · rcases ishex_cases h with h | h | h <;> omega
      · rw [h]; decide
  · rw [List.mem_singleton.1 hx]
    exact shouldEscape_false_lt (by simpa using k2)

/-- A byte written by `escape` in host mode that is neither `%` nor a hexadecimal digit is
a byte of the input. -/
theorem escape_host_mem {x : Nat} {s : GoString} (hx : x ∈ escape s encodeHost)
    (h1 : x ≠ '%'.toNat) (h2 : ishex x = false) (h3 : x ≠ 0) : x ∈ s := by
  induction s with
  | nil => cases hx
  | cons c cs ih =>
    rw [escape_host_cons] at hx
    rcases List.mem_append.1 hx with hx | hx
    · split_ifs at hx with k
      · simp only [List.mem_cons, List.mem_singleton, List.not_mem_nil, or_false] at hx
        rcases hx with rfl | rfl | rfl
        · exact absurd rfl h1
        · rcases upperhex_ishex_or (c / 16 % 16) with h | h
          · rw [h] at h2; cases h2
          · exact absurd h h3
        · rcases upperhex_ishex_or (c % 16) with h | h
          · rw [h] at h2; cases h2
          · exact absurd h h3
      · rw [List.mem_singleton.1 hx]; exact List.mem_cons_self _ _
    · exact List.mem_cons_of_mem _ (ih hx)

theorem escape_host_of_noescape (s : GoString)
    (h : ∀ c ∈ s, shouldEscape c encodeHost = false) : escape s encodeHost = s := by
  induction s with
  | nil => rfl
  | cons c cs ih =>
    rw [escape_host_cons, if_neg (by rw [h c (List.mem_cons_self _ _)]; decide),
      ih (fun x hx => h x (List.mem_cons_of_mem _ hx))]
    rfl

theorem isRawHostByte_iff (c : Nat) :
    isRawHostByte c = true ↔
      c < 256 ∧ c ≠ '%'.toNat ∧ (128 ≤ c ∨ shouldEscape c encodeHost = false) := by
  simp only [isRawHostByte, Bool.and_eq_true, decide_eq_true_eq, bne_iff_ne, ne_eq,
    Bool.or_eq_true, Bool.not_eq_true', and_assoc]

/-- Escaping a string of raw host bytes and unescaping the result gives the string back. -/
theorem unescape_escape_host (h : GoString) (hr : ∀ c ∈ h, isRawHostByte c = true) :
    unescapeCheck encodeHost (escape h encodeHost) = none ∧
      unescapeDecode encodeHost (escape h encodeHost) = h := by
  induction h with
  | nil => exact ⟨rfl, rfl⟩
  | cons c cs ih =>
    obtain ⟨hlt, hne, hor⟩ := (isRawHostByte_iff c).1 (hr c (List.mem_cons_self _ _))
    obtain ⟨e1, e2⟩ := ih (fun x hx => hr x (List.mem_cons_of_mem _ hx))
    rw [escape_host_cons]
    by_cases hse : shouldEscape c encodeHost = true
    · rw [if_pos hse]
      have h128 : 128 ≤ c := by
        rcases hor with h | h
        · exact h
        · rw [h] at hse; cases hse
      have hk1 : c / 16 % 16 < 16 := Nat.mod_lt _ (by decide)
      have hk2 : c % 16 < 16 := Nat.mod_lt _ (by decide)
      constructor
      · show unescapeCheck encodeHost ('%'.toNat :: _ :: _ :: escape cs encodeHost) = none
        rw [unescapeCheck_host_percent, unhex_upperhex _ hk1]
        exact ⟨upperhex_ishex _ hk1, upperhex_ishex _ hk2, Or.inl (by omega), e1⟩
      · show unescapeDecode encodeHost ('%'.toNat :: _ :: _ :: escape cs encodeHost) = _
        rw [unescapeDecode_host_percent, unhex_upperhex _ hk1, unhex_upperhex _ hk2, e2]
        congr 1
        omega
    · rw [if_neg hse]
      have hse2 : shouldEscape c encodeHost = false := by simpa using hse
      constructor
      · show unescapeCheck encodeHost (c :: escape cs encodeHost) = none
        rw [unescapeCheck_host_cons_ne _ hne]
        split_ifs with k1 k2
        · exact e1
        · rw [hse2] at k2; exact absurd k2.2 (by decide)
        · exact e1
      · show unescapeDecode encodeHost (c :: escape cs encodeHost) = _
        rw [unescapeDecode_host_cons_ne _ hne, e2]

/-! ### Searching a string -/

theorem Index_cons_ne_head {p c : Nat} (rest cs : GoString) (h : p ≠ c) :
    Index (c :: cs) (p :: rest) = (Index cs (p :: rest)).map (· + 1) := by
  conv_lhs => unfold Index
  rw [if_neg]
  simp [List.isPrefixOf, h]

theorem Index_none_of_not_mem {p : Nat} (rest : GoString) {s : GoString} (h : p ∉ s) :
    Index s (p :: rest) = none := by
  induction s with
  | nil => simp [Index, List.isPrefixOf]
  | cons x xs ih =>
    rw [Index_cons_ne_head _ _ (fun e => h (by rw [e]; exact List.mem_cons_self _ _)),
      ih (fun e => h (List.mem_cons_of_mem _ e))]
    rfl

/-- No `%25` occurs in the escaped form of a string of raw host bytes. -/
theorem Index_zone_escape (a : GoString) (hr : ∀ c ∈ a, isRawHostByte c = true) :
    Index (escape a encodeHost) (str "%25") = none := by
  induction a with
  | nil => rfl
  | cons c cs ih =>
    obtain ⟨hlt, hne, hor⟩ := (isRawHostByte_iff c).1 (hr c (List.mem_cons_self _ _))
    have e := ih (fun x hx => hr x (List.mem_cons_of_mem _ hx))
    rw [escape_host_cons]
    by_cases hse : shouldEscape c encodeHost = true
    · rw [if_pos hse]
      have h128 : 128 ≤ c := by
        rcases hor with h | h
        · exact h
        · rw [h] at hse; cases hse
      have hk1 : c / 16 % 16 < 16 := Nat.mod_lt _ (by decide)
      have hx : upperhex.getD (c / 16 % 16) 0 ≠ '2'.toNat := by
        intro hc
        have := unhex_upperhex _ hk1
        rw [hc] at this
        have h2 : unhex '2'.toNat = 2 := by decide
        omega
      have step1 : Index ('%'.toNat :: upperhex.getD (c / 16 % 16) 0 ::
          upperhex.getD (c % 16) 0 :: escape cs encodeHost) (str "%25") =
          (Index (upperhex.getD (c / 16 % 16) 0 ::
            upperhex.getD (c % 16) 0 :: escape cs encodeHost) (str "%25")).map (· + 1) := by
        conv_lhs => unfold Index
        rw [if_neg]
        intro hp
        have hp2 : List.isPrefixOf ['%'.toNat, '2'.toNat, '5'.toNat]
            ('%'.toNat :: upperhex.getD (c / 16 % 16) 0 ::
              upperhex.getD (c % 16) 0 :: escape cs encodeHost) = true := hp
        simp only [List.isPrefixOf, Bool.and_eq_true, beq_iff_eq] at hp2
        exact hx hp2.2.1.symm
      show Index ('%'.toNat :: upperhex.getD (c / 16 % 16) 0 ::
          upperhex.getD (c % 16) 0 :: escape cs encodeHost) (str "%25") = none
      rw [step1, show str "%25" = '%'.toNat :: str "25" from rfl,
        Index_cons_ne_head _ _ (upperhex_ne_percent _).symm,
        Index_cons_ne_head _ _ (upperhex_ne_percent _).symm,
        ← show str "%25" = '%'.toNat :: str "25" from rfl, e]
      rfl
    · rw [if_neg hse]
      show Index (c :: escape cs encodeHost) (str "%25") = none
      rw [show str "%25" = '%'.toNat :: str "25" from rfl, Index_cons_ne_head _ _ hne.symm,
        ← show str "%25" = '%'.toNat :: str "25" from rfl, e]
      rfl

/-- What follows the index found by `Index` starts with the separator. -/
theorem Index_some_pfx {s sep : GoString} {i : Nat} (h : Index s sep = some i) :
    sep <+: s.drop i := by
  induction s generalizing i with
  | nil =>
    unfold Index at h
    split_ifs at h with k
    cases h
    simpa using k
  | cons c cs ih =>
    unfold Index at h
    split_ifs at h with k
    · cases h
      simpa using k
    · cases hi : Index cs sep with
      | none => rw [hi] at h; cases h
      | some j =>
        rw [hi] at h
        cases h
        exact ih hi

theorem split_at_last {c : Nat} {s : GoString} (h : c ∈ s) :
    ∃ a b, s = a ++ c :: b ∧ c ∉ b := by
  induction s with
  | nil => cases h
  | cons x xs ih =>
    by_cases hx : c ∈ xs
    · obtain ⟨a, b, e, hn⟩ := ih hx
      exact ⟨x :: a, b, by rw [e]; rfl, hn⟩
    · rcases List.mem_cons.1 h with h | h
      · exact ⟨[], xs, by rw [h]; rfl, hx⟩
      · exact absurd h hx

theorem LastIndex_single_some {s : GoString} {c i : Nat} (h : LastIndex s [c] = some i) :
    ∃ a b, s = a ++ c :: b ∧ c ∉ b ∧ i = a.length := by
  by_cases hc : c ∈ s
  · obtain ⟨a, b, e, hn⟩ := split_at_last hc
    refine ⟨a, b, e, hn, ?_⟩
    rw [e, LastIndex_single_append a hn] at h
    exact (Option.some.inj h).symm
  · rw [LastIndex_single_none hc] at h
    cases h

theorem LastIndex_single_none_mem {s : GoString} {c : Nat} (h : LastIndex s [c] = none) :
    c ∉ s := by
  intro hc
  obtain ⟨a, b, e, hn⟩ := split_at_last hc
  rw [e, LastIndex_single_append a hn] at h
  cases h

theorem validOptionalPort_cases {b : GoString} (h : validOptionalPort b = true) :
    b = [] ∨ ∃ d, b = ':'.toNat :: d ∧ ∀ x ∈ d, '0'.toNat ≤ x ∧ x ≤ '9'.toNat := by
  cases b with
  | nil => exact Or.inl rfl
  | cons c d =>
    right
    unfold validOptionalPort at h
    simp only [ne_eq, ite_not] at h
    split_ifs at h with k
    · refine ⟨d, by rw [k], ?_⟩
      intro x hx
      have := List.all_eq_true.1 h x hx
      simp only [Bool.not_eq_true', Bool.or_eq_false_iff, decide_eq_false_iff_not, not_lt] at this
      exact this

/-- A port, with its colon, is a string of raw host bytes that `escape` leaves as it
is. -/
theorem port_raw {b : GoString} (h : validOptionalPort b = true) :
    (∀ c ∈ b, isRawHostByte c = true) ∧ (∀ c ∈ b, shouldEscape c encodeHost = false) ∧
      '%'.toNat ∉ b ∧ (∀ c ∈ b, c = ':'.toNat ∨ ('0'.toNat ≤ c ∧ c ≤ '9'.toNat)) := by
  have key : ∀ c ∈ b, c = ':'.toNat ∨ ('0'.toNat ≤ c ∧ c ≤ '9'.toNat) := by
    rcases validOptionalPort_cases h with rfl | ⟨d, rfl, hd⟩
    · intro c hc; cases hc
    · intro c hc
      rcases List.mem_cons.1 hc with rfl | hc
      · exact Or.inl rfl
      · exact Or.inr (hd c hc)
  have hse : ∀ c, (c = ':'.toNat ∨ ('0'.toNat ≤ c ∧ c ≤ '9'.toNat)) →
      shouldEscape c encodeHost = false ∧ c ≠ '%'.toNat ∧ c < 256 := by
    intro c hc
    have e5 : '0'.toNat = 48 := rfl
    have e6 : '9'.toNat = 57 := rfl
    rw [e5, e6] at hc
    rcases hc with rfl | hc
    · exact ⟨by decide, by decide, by decide⟩
    · obtain ⟨k1, k2⟩ := hc
      interval_cases c <;> exact ⟨by decide, by decide, by decide⟩
  refine ⟨?_, fun c hc => (hse c (key c hc)).1, ?_, key⟩
  · intro c hc
    obtain ⟨a1, a2, a3⟩ := hse c (key c hc)
    exact (isRawHostByte_iff c).2 ⟨a3, a2, Or.inr a1⟩
  · intro hc
    exact (hse _ (key _ hc)).2.1 rfl

/-! ### `parseHost` -/

theorem parseHost_bracket {e a b : GoString} (hp : HasPrefix e (str "[") = true)
    (he : e = a ++ ']'.toNat :: b) (hb : ']'.toNat ∉ b) (hv : validOptionalPort b = true)
    (hz : Index a (str "%25") = none) : parseHost e = unescape e encodeHost := by
  have hli : LastIndex e (str "]") = some a.length := by
    rw [he]; exact LastIndex_single_append a hb
  have hd : e.drop (a.length + 1) = b := by
    rw [he, show a ++ ']'.toNat :: b = (a ++ [']'.toNat]) ++ b by simp]
    exact List.drop_left' (by simp)
  have ht : e.take a.length = a := by
    rw [he]; exact List.take_left' rfl
  unfold parseHost
  rw [if_pos hp, hli]
  simp only [hd, ht, hv, hz, Bool.not_true, Bool.false_eq_true, if_false]

theorem parseHost_plain {e : GoString} (hp : HasPrefix e (str "[") = false)
    (hc : ':'.toNat ∉ e) : parseHost e = unescape e encodeHost := by
  unfold parseHost
  rw [if_neg (by rw [hp]; decide), show str ":" = [':'.toNat] from rfl, LastIndex_single_none hc]

theorem parseHost_port {e a b : GoString} (hp : HasPrefix e (str "[") = false)
    (he : e = a ++ ':'.toNat :: b) (hb : ':'.toNat ∉ b)
    (hv : validOptionalPort (':'.toNat :: b) = true) : parseHost e = unescape e encodeHost := by
  have hli : LastIndex e (str ":") = some a.length := by
    rw [he]; exact LastIndex_single_append a hb
  have hd : e.drop a.length = ':'.toNat :: b := by
    rw [he]; exact List.drop_left' rfl
  unfold parseHost
  rw [if_neg (by rw [hp]; decide), hli]
  simp only [hd, hv, Bool.not_true, Bool.false_eq_true, if_false]

theorem unescapeDecode_zone (rest : GoString) :
    '%'.toNat ∈ unescapeDecode encodeZone (str "%25" ++ rest) := by
  show '%'.toNat ∈ unescapeDecode encodeZone ('%'.toNat :: '2'.toNat :: '5'.toNat :: rest)
  unfold unescapeDecode
  simp only [if_true]
  exact List.mem_cons_self _ _

/-- How `parseHost` accepted a host in which no `%` is left: the whole host was unescaped
in host mode, and it is an IP literal in brackets followed by an optional port, or it has
no colon, or it ends with a colon and a port. -/
theorem parseHost_ok_shape {e h : GoString} (hp : parseHost e = .ok h)
    (hpc : '%'.toNat ∉ h) :
    unescape e encodeHost = .ok h ∧
    ((HasPrefix e (str "[") = true ∧
        ∃ a b, e = a ++ ']'.toNat :: b ∧ ']'.toNat ∉ b ∧ validOptionalPort b = true) ∨
      (HasPrefix e (str "[") = false ∧ ':'.toNat ∉ e) ∨
      (HasPrefix e (str "[") = false ∧
        ∃ a b, e = a ++ ':'.toNat :: b ∧ ':'.toNat ∉ b ∧
          validOptionalPort (':'.toNat :: b) = true)) := by
  unfold parseHost at hp
  by_cases hpre : HasPrefix e (str "[") = true
  · rw [if_pos hpre] at hp
    cases hli : LastIndex e (str "]") with
    | none => rw [hli] at hp; cases hp
    | some i =>
      rw [hli] at hp
      simp only at hp
      obtain ⟨a, b, he, hb, hi⟩ := LastIndex_single_some hli
      have hd : e.drop (i + 1) = b := by
        rw [hi, he, show a ++ ']'.toNat :: b = (a ++ [']'.toNat]) ++ b by simp]
        exact List.drop_left' (by simp)
      rw [hd] at hp
      by_cases hv : validOptionalPort b = true
      · rw [hv] at hp
        simp only [Bool.not_true, Bool.false_eq_true, if_false] at hp
        cases hz : Index (e.take i) (str "%25") with
        | none =>
          rw [hz] at hp
          exact ⟨hp, Or.inl ⟨hpre, a, b, he, hb, hv⟩⟩
        | some zone =>
          exfalso
          rw [hz] at hp
          simp only [bind, Except.bind] at hp
          obtain ⟨rest, hrest⟩ := Index_some_pfx hz
          cases h1 : unescape (e.take zone) encodeHost with
          | error err => rw [h1] at hp; cases hp
          | ok host1 =>
            rw [h1] at hp
            simp only at hp
            cases h2 : unescape ((e.take i).drop zone) encodeZone with
            | error err => rw [h2] at hp; cases hp
            | ok host2 =>
              rw [h2] at hp
              simp only at hp
              cases h3 : unescape (e.drop i) encodeHost with
              | error err => rw [h3] at hp; cases hp
              | ok host3 =>
                rw [h3] at hp
                simp only at hp
                have hh : host1 ++ host2 ++ host3 = h := by
                  cases hp
                  rfl
                apply hpc
                rw [← hh]
                refine List.mem_append_left _ (List.mem_append_right _ ?_)
                rw [((unescape_ok_iff _ _ _).1 h2).2, ← hrest]
                exact unescapeDecode_zone rest
      · rw [Bool.not_eq_true] at hv
        rw [hv] at hp
        simp only [Bool.not_false, if_true] at hp
        cases hp
  · rw [Bool.not_eq_true] at hpre
    rw [if_neg (by rw [hpre]; decide)] at hp
    cases hli : LastIndex e (str ":") with
    | none =>
      rw [hli] at hp
      exact ⟨hp, Or.inr (Or.inl ⟨hpre, LastIndex_single_none_mem hli⟩)⟩
    | some i =>
      rw [hli] at hp
      simp only at hp
      obtain ⟨a, b, he, hb, hi⟩ := LastIndex_single_some hli
      have hd : e.drop i = ':'.toNat :: b := by
        rw [hi, he]; exact List.drop_left' rfl
      rw [hd] at hp
      by_cases hv : validOptionalPort (':'.toNat :: b) = true
      · rw [hv] at hp
        simp only [Bool.not_true, Bool.false_eq_true, if_false] at hp
        exact ⟨hp, Or.inr (Or.inr ⟨hpre, a, b, he, hb, hv⟩)⟩
      · rw [Bool.not_eq_true] at hv
        rw [hv] at hp
        simp only [Bool.not_false, if_true] at hp
        cases hp

theorem HasPrefix_single_cons (x c : Nat) (s : GoString) :
    HasPrefix (c :: s) [x] = (x == c) := by
  simp [HasPrefix, List.isPrefixOf]

theorem HasPrefix_single_nil (x : Nat) : HasPrefix [] [x] = false := rfl

/-- Unescaping a host does not change whether it starts with `[`. -/
theorem unescapeDecode_host_bracket {e : GoString} (he : unescapeCheck encodeHost e = none) :
    HasPrefix (unescapeDecode encodeHost e) (str "[") = HasPrefix e (str "[") := by
  rw [show str "[" = ['['.toNat] from rfl]
  match e, he with
  | [], _ => rfl
  | x :: e1, he =>
    by_cases hx : x = '%'.toNat
    · subst hx
      match e1, he with
      | [], he => exact absurd he (unescapeCheck_host_percent_short [] (by simp))
      | [y], he => exact absurd he (unescapeCheck_host_percent_short [y] (by simp))
      | h1 :: h2 :: e2, he =>
        rw [unescapeCheck_host_percent] at he
        rw [unescapeDecode_host_percent, HasPrefix_single_cons, HasPrefix_single_cons]
        have hv : '['.toNat ≠ unhex h1 * 16 + unhex h2 := by
          rw [show '['.toNat = 91 from rfl]
          rcases he.2.2.1 with h8 | ⟨rfl, rfl⟩
          · omega
          · decide
        have hb1 : ('['.toNat == unhex h1 * 16 + unhex h2) = false := by simpa using hv
        rw [hb1]
        rfl
    · rw [unescapeDecode_host_cons_ne _ hx, HasPrefix_single_cons, HasPrefix_single_cons]

/-- Escaping a string of raw host bytes does not change whether it starts with `[`. -/
theorem escape_host_bracket {h : GoString} (hr : ∀ c ∈ h, isRawHostByte c = true) :
    HasPrefix (escape h encodeHost) (str "[") = HasPrefix h (str "[") := by
  rw [show str "[" = ['['.toNat] from rfl]
  cases h with
  | nil => rfl
  | cons c cs =>
    rw [escape_host_cons]
    by_cases hse : shouldEscape c encodeHost = true
    · rw [if_pos hse]
      have hc : '['.toNat ≠ c := by
        rintro rfl
        exact absurd hse (by decide)
      show HasPrefix ('%'.toNat :: _) ['['.toNat] = _
      rw [HasPrefix_single_cons, HasPrefix_single_cons]
      have hb1 : ('['.toNat == c) = false := by simpa using hc
      rw [hb1]
      rfl
    · rw [if_neg hse]
      show HasPrefix (c :: _) ['['.toNat] = _
      rw [HasPrefix_single_cons, HasPrefix_single_cons]

theorem unescape_host_raw_ok {h : GoString} (hr : ∀ c ∈ h, isRawHostByte c = true) :
    unescape h encodeHost = .ok h :=
  (unescape_ok_iff _ _ _).2 ⟨(unescape_host_raw h hr).1, (unescape_host_raw h hr).2.symm⟩

theorem unescape_escape_host_ok {h : GoString} (hr : ∀ c ∈ h, isRawHostByte c = true) :
    unescape (escape h encodeHost) encodeHost = .ok h :=
  (unescape_ok_iff _ _ _).2 ⟨(unescape_escape_host h hr).1, (unescape_escape_host h hr).2.symm⟩

/-- A host that `parseHost` returned without any `%` in it is a string of raw host bytes;
`parseHost` returns it when applied to it and when applied to its escaped form. -/
theorem parseHost_raw {e h : GoString} (hp : parseHost e = .ok h) (hpc : '%'.toNat ∉ h)
    (hb : ∀ c ∈ e, c < 256) :
    (∀ c ∈ h, isRawHostByte c = true) ∧ parseHost h = .ok h ∧
      parseHost (escape h encodeHost) = .ok h := by
  obtain ⟨hun, shape⟩ := parseHost_ok_shape hp hpc
  obtain ⟨hchk, hdec⟩ := (unescape_ok_iff _ _ _).1 hun
  have hmem := unescapeDecode_host_mem e.length e (le_refl _) hchk
  rw [← hdec] at hmem
  have hraw : ∀ c ∈ h, isRawHostByte c = true := by
    intro c hc
    rw [isRawHostByte_iff]
    rcases hmem c hc with ⟨a1, a2, a3⟩ | ⟨a1, a2⟩ | a1
    · exact ⟨hb c a1, a2, a3⟩
    · exact ⟨a2, by rw [show '%'.toNat = 37 from rfl]; omega, Or.inl a1⟩
    · exact absurd (a1 ▸ hc) hpc
  have hnomem : ∀ x : Nat, x < 128 → x ≠ '%'.toNat → x ∉ e → x ∉ h := by
    intro x hx1 hx2 hxe hxh
    rcases hmem x hxh with ⟨a1, -⟩ | ⟨a1, -⟩ | a1
    · exact hxe a1
    · omega
    · exact hx2 a1
  have hhead : HasPrefix h (str "[") = HasPrefix e (str "[") := by
    rw [hdec]; exact unescapeDecode_host_bracket hchk
  have hehead : HasPrefix (escape h encodeHost) (str "[") = HasPrefix e (str "[") := by
    rw [escape_host_bracket hraw, hhead]
  refine ⟨hraw, ?_, ?_⟩
  · -- the host itself
    rcases shape with ⟨hpre, a, b, he, hnb, hv⟩ | ⟨hpre, hc⟩ | ⟨hpre, a, b, he, hnb, hv⟩
    · obtain ⟨c1, c2⟩ := unescapeCheck_host_split ']'.toNat (by decide) a.length a b (le_refl _)
        (he ▸ hchk)
      have hh : h = unescapeDecode encodeHost a ++ ']'.toNat :: b := by
        rw [hdec, he, unescapeDecode_host_append _ _ _ (le_refl _) c1,
          unescapeDecode_host_cons_ne _ (by decide), (unescape_host_raw b (port_raw hv).1).2]
      have hz : Index (unescapeDecode encodeHost a) (str "%25") = none :=
        Index_none_of_not_mem _ (fun hm => hpc (by rw [hh]; exact List.mem_append_left _ hm))
      rw [parseHost_bracket (hhead.trans hpre) hh hnb hv hz]
      exact unescape_host_raw_ok hraw
    · rw [parseHost_plain (hhead.trans hpre) (hnomem _ (by decide) (by decide) hc)]
      exact unescape_host_raw_ok hraw
    · obtain ⟨c1, c2⟩ := unescapeCheck_host_split ':'.toNat (by decide) a.length a b (le_refl _)
        (he ▸ hchk)
      have hh : h = unescapeDecode encodeHost a ++ ':'.toNat :: b := by
        rw [hdec, he, unescapeDecode_host_append _ _ _ (le_refl _) c1,
          (unescape_host_raw (':'.toNat :: b) (port_raw hv).1).2]
      rw [parseHost_port (hhead.trans hpre) hh hnb hv]
      exact unescape_host_raw_ok hraw
  · -- its escaped form
    rcases shape with ⟨hpre, a, b, he, hnb, hv⟩ | ⟨hpre, hc⟩ | ⟨hpre, a, b, he, hnb, hv⟩
    · obtain ⟨c1, c2⟩ := unescapeCheck_host_split ']'.toNat (by decide) a.length a b (le_refl _)
        (he ▸ hchk)
      have hh : h = unescapeDecode encodeHost a ++ ']'.toNat :: b := by
        rw [hdec, he, unescapeDecode_host_append _ _ _ (le_refl _) c1,
          unescapeDecode_host_cons_ne _ (by decide), (unescape_host_raw b (port_raw hv).1).2]
      have hrawa : ∀ c ∈ unescapeDecode encodeHost a, isRawHostByte c = true :=
        fun c hc => hraw c (by rw [hh]; exact List.mem_append_left _ hc)
      have hesc : escape h encodeHost =
          escape (unescapeDecode encodeHost a) encodeHost ++ ']'.toNat :: b := by
        rw [hh, escape_append, escape_host_of_noescape (']'.toNat :: b)]
        intro c hc
        rcases List.mem_cons.1 hc with rfl | hc
        · decide
        · exact (port_raw hv).2.1 c hc
      rw [parseHost_bracket (hehead.trans hpre) hesc hnb hv (Index_zone_escape _ hrawa)]
      exact unescape_escape_host_ok hraw
    · have hch : ':'.toNat ∉ h := hnomem _ (by decide) (by decide) hc
      rw [parseHost_plain (hehead.trans hpre)
        (fun hm => hch (escape_host_mem hm (by decide) (by decide) (by decide)))]
      exact unescape_escape_host_ok hraw
    · obtain ⟨c1, c2⟩ := unescapeCheck_host_split ':'.toNat (by decide) a.length a b (le_refl _)
        (he ▸ hchk)
      have hh : h = unescapeDecode encodeHost a ++ ':'.toNat :: b := by
        rw [hdec, he, unescapeDecode_host_append _ _ _ (le_refl _) c1,
          (unescape_host_raw (':'.toNat :: b) (port_raw hv).1).2]
      have hesc : escape h encodeHost =
          escape (unescapeDecode encodeHost a) encodeHost ++ ':'.toNat :: b := by
        rw [hh, escape_append, escape_host_of_noescape (':'.toNat :: b) (port_raw hv).2.1]
      rw [parseHost_port (hehead.trans hpre) hesc hnb hv]
      exact unescape_escape_host_ok hraw

/-! ### Schemes -/

theorem isLetter_iff (c : Nat) :
    isLetter c = true ↔
      ('a'.toNat ≤ c ∧ c ≤ 'z'.toNat) ∨ ('A'.toNat ≤ c ∧ c ≤ 'Z'.toNat) := by
  simp [isLetter]

theorem isSchemeByte_iff (c : Nat) :
    isSchemeByte c = true ↔
      (('a'.toNat ≤ c ∧ c ≤ 'z'.toNat) ∨ ('A'.toNat ≤ c ∧ c ≤ 'Z'.toNat)) ∨
      (('0'.toNat ≤ c ∧ c ≤ '9'.toNat) ∨ c = '+'.toNat ∨ c = '-'.toNat ∨ c = '.'.toNat) := by
  simp only [isSchemeByte, Bool.or_eq_true, isLetter_iff, Bool.and_eq_true, decide_eq_true_eq,
    beq_iff_eq]
  tauto

theorem isSchemeByte_cases {c : Nat} (h : isSchemeByte c = true) :
    (97 ≤ c ∧ c ≤ 122) ∨ (65 ≤ c ∧ c ≤ 90) ∨ (48 ≤ c ∧ c ≤ 57) ∨ c = 43 ∨ c = 45 ∨ c = 46 := by
  rw [isSchemeByte_iff] at h
  have e1 : 'a'.toNat = 97 := rfl
  have e2 : 'z'.toNat = 122 := rfl
  have e3 : 'A'.toNat = 65 := rfl
  have e4 : 'Z'.toNat = 90 := rfl
  have e5 : '0'.toNat = 48 := rfl
  have e6 : '9'.toNat = 57 := rfl
  have e7 : '+'.toNat = 43 := rfl
  have e8 : '-'.toNat = 45 := rfl
  have e9 : '.'.toNat = 46 := rfl
  rw [e1, e2, e3, e4, e5, e6, e7, e8, e9] at h
  omega

theorem isSchemeByte_of_isLetter {c : Nat} (h : isLetter c = true) : isSchemeByte c = true := by
  simp [isSchemeByte, h]

theorem validScheme_iff (s : GoString) :
    validScheme s = true ↔
      ∃ c t, s = c :: t ∧ isLetter c = true ∧ ∀ x ∈ t, isSchemeByte x = true := by
  cases s with
  | nil => simp [validScheme]
  | cons c t =>
    constructor
    · intro h
      simp only [validScheme, Bool.and_eq_true, List.all_eq_true] at h
      exact ⟨c, t, rfl, h.1, h.2⟩
    · rintro ⟨d, r, e, hd, hr⟩
      cases e
      simp only [validScheme, Bool.and_eq_true, List.all_eq_true]
      exact ⟨hd, hr⟩

theorem validScheme_bytes {s : GoString} (h : validScheme s = true) :
    ∀ x ∈ s, isSchemeByte x = true := by
  obtain ⟨c, t, rfl, hc, ht⟩ := (validScheme_iff s).1 h
  intro x hx
  rcases List.mem_cons.1 hx with rfl | hx
  · exact isSchemeByte_of_isLetter hc
  · exact ht x hx

theorem validScheme_snoc {pre : GoString} {c : Nat} (hp : pre = [] ∨ validScheme pre = true)
    (hc : isSchemeByte c = true) (hl : pre = [] → isLetter c = true) :
    validScheme (pre ++ [c]) = true := by
  rcases hp with rfl | hp
  · rw [validScheme_iff]
    exact ⟨c, [], rfl, hl rfl, fun _ h => by cases h⟩
  · obtain ⟨d, t, rfl, hd, ht⟩ := (validScheme_iff pre).1 hp
    rw [validScheme_iff]
    refine ⟨d, t ++ [c], rfl, hd, ?_⟩
    intro x hx
    rcases List.mem_append.1 hx with hx | hx
    · exact ht x hx
    · rw [List.mem_singleton.1 hx]; exact hc

/-- The scheme that `getScheme` splits off is empty or valid. -/
theorem getSchemeLoop_valid (raw : GoString) : ∀ (s pre : GoString), raw = pre ++ s →
    (pre = [] ∨ validScheme pre = true) →
    (getSchemeLoop raw pre.length s).1 = [] ∨
      validScheme (getSchemeLoop raw pre.length s).1 = true := by
  intro s
  induction s with
  | nil => intro pre _ _; left; rfl
  | cons c cs ih =>
    intro pre hraw hpre
    have hnext : raw = (pre ++ [c]) ++ cs := by rw [hraw]; simp
    have hlen : (pre ++ [c]).length = pre.length + 1 := by simp
    unfold getSchemeLoop
    split_ifs with k1 k2 k3 k4 k5
    · have hv := validScheme_snoc hpre (isSchemeByte_of_isLetter ((isLetter_iff c).2 k1))
        (fun _ => (isLetter_iff c).2 k1)
      have := ih (pre ++ [c]) hnext (Or.inr hv)
      rw [hlen] at this
      exact this
    · left; rfl
    · have hne : pre ≠ [] := fun e => k3 (by rw [e]; rfl)
      have hv := validScheme_snoc hpre ((isSchemeByte_iff c).2 (Or.inr k2))
        (fun e => absurd e hne)
      have := ih (pre ++ [c]) hnext (Or.inr hv)
      rw [hlen] at this
      exact this
    · left; rfl
    · right
      have hne : pre ≠ [] := fun e => k5 (by rw [e]; rfl)
      rcases hpre with e | hv
      · exact absurd e hne
      · show validScheme (raw.take pre.length) = true
        rw [hraw, List.take_left' rfl]
        exact hv
    · left; rfl

theorem getScheme_valid (raw : GoString) :
    (getScheme raw).1 = [] ∨ validScheme (getScheme raw).1 = true :=
  getSchemeLoop_valid raw raw [] rfl (Or.inl rfl)

theorem ToLower_isLetter {c : Nat} (h : isLetter c = true) :
    isLetter (if 'A'.toNat ≤ c ∧ c ≤ 'Z'.toNat then c + ('a'.toNat - 'A'.toNat) else c) = true := by
  rw [isLetter_iff] at h ⊢
  have e1 : 'a'.toNat = 97 := rfl
  have e2 : 'z'.toNat = 122 := rfl
  have e3 : 'A'.toNat = 65 := rfl
  have e4 : 'Z'.toNat = 90 := rfl
  rw [e1, e2, e3, e4] at h ⊢
  split_ifs <;> omega

theorem ToLower_isSchemeByte {c : Nat} (h : isSchemeByte c = true) :
    isSchemeByte (if 'A'.toNat ≤ c ∧ c ≤ 'Z'.toNat then c + ('a'.toNat - 'A'.toNat) else c) =
      true := by
  split_ifs with k
  · exact isSchemeByte_of_isLetter (by
      have := ToLower_isLetter (c := c) ((isLetter_iff c).2 (Or.inr k))
      rw [if_pos k] at this
      exact this)
  · exact h

theorem ToLower_validScheme {s : GoString} (h : validScheme s = true) :
    validScheme (ToLower s) = true := by
  obtain ⟨c, t, rfl, hc, ht⟩ := (validScheme_iff _).1 h
  rw [validScheme_iff]
  refine ⟨_, _, rfl, ToLower_isLetter hc, ?_⟩
  intro x hx
  obtain ⟨y, hy, rfl⟩ := List.mem_map.1 hx
  exact ToLower_isSchemeByte (ht y hy)

/-- The scheme of a parsed URL is empty, or it is a valid scheme in lower case. -/
theorem Parse_scheme_valid {x : GoString} {u : URL} (h : Parse x = .ok u) :
    u.Scheme = [] ∨ (validScheme u.Scheme = true ∧ ToLower u.Scheme = u.Scheme) := by
  rw [Parse_ok_scheme h]
  rcases getScheme_valid (Cut x (str "#")).1 with e | hv
  · left; rw [e]; rfl
  · right
    exact ⟨ToLower_validScheme hv, ToLower_idem _⟩

/-- The function `getScheme` on a valid scheme followed by a colon. -/
theorem getSchemeLoop_scheme (rest : GoString) : ∀ (s pre : GoString),
    (∀ c ∈ s, isSchemeByte c = true) → pre ≠ [] →
    getSchemeLoop (pre ++ s ++ ':'.toNat :: rest) pre.length (s ++ ':'.toNat :: rest) =
      (pre ++ s, rest, none) := by
  intro s
  induction s with
  | nil =>
    intro pre _ hne
    have hp : pre.length ≠ 0 := by
      intro h0; exact hne (List.length_eq_zero.mp h0)
    simp only [List.append_nil, List.nil_append]
    unfold getSchemeLoop
    rw [if_neg (by decide), if_neg (by decide), if_pos rfl, if_neg hp]
    simp
  | cons c cs ih =>
    intro pre hs hne
    have hc := (isSchemeByte_iff c).1 (hs c (List.mem_cons_self _ _))
    have hrec := ih (pre ++ [c]) (fun x hx => hs x (List.mem_cons_of_mem _ hx)) (by simp)
    have e1 : pre ++ [c] ++ cs ++ ':'.toNat :: rest = pre ++ (c :: cs) ++ ':'.toNat :: rest := by
      simp
    have e2 : (pre ++ [c]).length = pre.length + 1 := by simp
    have e3 : pre ++ [c] ++ cs = pre ++ c :: cs := by simp
    rw [e1, e2, e3] at hrec
    have hp : pre.length ≠ 0 := by
      intro h0; exact hne (List.length_eq_zero.mp h0)
    show getSchemeLoop _ pre.length (c :: (cs ++ ':'.toNat :: rest)) = _
    unfold getSchemeLoop
    rcases hc with k | k
    · rw [if_pos k]; exact hrec
    · by_cases k1 : ('a'.toNat ≤ c ∧ c ≤ 'z'.toNat) ∨ ('A'.toNat ≤ c ∧ c ≤ 'Z'.toNat)
      · rw [if_pos k1]; exact hrec
      · rw [if_neg k1, if_pos k, if_neg hp]; exact hrec

theorem getScheme_scheme {s : GoString} (rest : GoString) (hs : validScheme s = true) :
    getScheme (s ++ ':'.toNat :: rest) = (s, rest, none) := by
  obtain ⟨c, t, rfl, hc, ht⟩ := (validScheme_iff _).1 hs
  have := getSchemeLoop_scheme rest t [c] ht (by simp)
  unfold getScheme
  show getSchemeLoop _ 0 (c :: (t ++ ':'.toNat :: rest)) = _
  unfold getSchemeLoop
  rw [if_pos ((isLetter_iff c).1 hc)]
  exact this

/-! ### Parsing and printing a root URL -/

/-- A byte that host mode leaves unescaped is no control byte and none of `#`, `/`, `?`,
`@`. -/
theorem noescape_authority {c : Nat} (h : shouldEscape c encodeHost = false) :
    32 ≤ c ∧ c ≠ 127 ∧ c ≠ 35 ∧ c ≠ 47 ∧ c ≠ 63 ∧ c ≠ 64 := by
  have hlt := shouldEscape_false_lt h
  interval_cases c <;> first | decide | exact absurd h (by decide)

theorem raw_authority {c : Nat} (h : isRawHostByte c = true) :
    32 ≤ c ∧ c ≠ 127 ∧ c ≠ 35 ∧ c ≠ 47 ∧ c ≠ 63 ∧ c ≠ 64 := by
  obtain ⟨-, -, h | h⟩ := (isRawHostByte_iff c).1 h
  · omega
  · exact noescape_authority h

theorem hex_authority {c : Nat} (h : ishex c = true) :
    32 ≤ c ∧ c ≠ 127 ∧ c ≠ 35 ∧ c ≠ 47 ∧ c ≠ 63 ∧ c ≠ 64 := by
  rcases ishex_cases h with h | h | h <;> omega

theorem escape_host_authority (s : GoString) :
    ∀ c ∈ escape s encodeHost, 32 ≤ c ∧ c ≠ 127 ∧ c ≠ 35 ∧ c ≠ 47 ∧ c ≠ 63 ∧ c ≠ 64 := by
  induction s with
  | nil => intro c hc; cases hc
  | cons x xs ih =>
    intro c hc
    rw [escape_host_cons] at hc
    rcases List.mem_append.1 hc with hc | hc
    · split_ifs at hc with k
      · simp only [List.mem_cons, List.mem_singleton, List.not_mem_nil, or_false] at hc
        rcases hc with rfl | rfl | rfl
        · decide
        · exact hex_authority (upperhex_ishex _ (Nat.mod_lt _ (by decide)))
        · exact hex_authority (upperhex_ishex _ (Nat.mod_lt _ (by decide)))
      · rw [List.mem_singleton.1 hc]
        exact noescape_authority (by simpa using k)
    · exact ih c hc

theorem setPath_slash (u : URL) : u.setPath (str "/") = .ok { u with Path := str "/", RawPath := [] } :=
  setPath_of_plain u (str "/") (by decide)

/-- The function `parseRest` on `//authority/` when the authority is a host. -/
theorem parseRest_root (url : URL) {e h : GoString} (hsch : url.Scheme ≠ [])
    (hp : parseHost e = .ok h)
    (hs : ∀ c ∈ e, 32 ≤ c ∧ c ≠ 127 ∧ c ≠ 35 ∧ c ≠ 47 ∧ c ≠ 63 ∧ c ≠ 64) :
    parseRest url (str "//" ++ e ++ str "/") false =
      .ok { url with User := none, Host := h, Path := str "/", RawPath := [] } := by
  have hp1 : HasPrefix (str "//" ++ e ++ str "/") (str "/") = true := by rfl
  have hp2 : HasPrefix (str "//" ++ e ++ str "/") (str "//") = true := by
    rw [HasPrefix_iff, List.append_assoc]; exact List.prefix_append _ _
  have hat : '@'.toNat ∉ e := fun hm => (hs _ hm).2.2.2.2.2 rfl
  have hhs : '/'.toNat ∉ e := fun hm => (hs _ hm).2.2.2.1 rfl
  have hpa : parseAuthority e = .ok (none, h) := by
    unfold parseAuthority
    rw [show str "@" = ['@'.toNat] from rfl, LastIndex_single_none hat]
    simp only [hp]
    rfl
  have hdrop : (str "//" ++ e ++ str "/").drop 2 = e ++ '/'.toNat :: [] := by
    rw [List.append_assoc]; rfl
  have hnp : ¬ ((!HasPrefix (str "//" ++ e ++ str "/") (str "/")) = true ∧ url.Scheme ≠ []) := by
    rintro ⟨h, -⟩; rw [hp1] at h; cases h
  have hnp2 : ¬ ((!HasPrefix (str "//" ++ e ++ str "/") (str "/")) = true ∧ false = true) := by
    rintro ⟨h, -⟩; rw [hp1] at h; cases h
  have hnp3 : ¬ ((!HasPrefix (str "//" ++ e ++ str "/") (str "/")) = true ∧
      Contains (Cut (str "//" ++ e ++ str "/") (str "/")).1 (str ":") = true) := by
    rintro ⟨h, -⟩; rw [hp1] at h; cases h
  unfold parseRest
  rw [if_neg hnp, if_neg hnp2, if_neg hnp3, if_pos ⟨Or.inl hsch, hp2⟩, hdrop]
  have hsl : str "/" = ['/'.toNat] := rfl
  have hI := Index_single_append [] hhs
  simp only [hsl, hI, List.take_left', List.drop_left', hpa]
  exact setPath_slash _

theorem root_shape (sch e : GoString) :
    sch ++ str "://" ++ e ++ str "/" = sch ++ ':'.toNat :: (str "//" ++ e ++ str "/") := by
  simp [str, List.append_assoc]

/-- Parsing `scheme://authority/` when the authority is a host. -/
theorem Parse_root {sch e h : GoString} (hv : validScheme sch = true)
    (hl : ToLower sch = sch) (hp : parseHost e = .ok h)
    (hs : ∀ c ∈ e, 32 ≤ c ∧ c ≠ 127 ∧ c ≠ 35 ∧ c ≠ 47 ∧ c ≠ 63 ∧ c ≠ 64) :
    Parse (sch ++ str "://" ++ e ++ str "/") =
      .ok { Scheme := sch, Host := h, Path := str "/" } := by
  have hsne : sch ≠ [] := by
    obtain ⟨c, t, rfl, -, -⟩ := (validScheme_iff _).1 hv
    simp
  have hrest : ∀ c ∈ str "//" ++ e ++ str "/", 32 ≤ c ∧ c ≠ 127 ∧ c ≠ 35 ∧ c ≠ 63 := by
    intro c hc
    have hsl : ∀ c ∈ str "//", 32 ≤ c ∧ c ≠ 127 ∧ c ≠ 35 ∧ c ≠ 63 := by decide
    have hsl1 : ∀ c ∈ str "/", 32 ≤ c ∧ c ≠ 127 ∧ c ≠ 35 ∧ c ≠ 63 := by decide
    rcases List.mem_append.1 hc with hc | hc
    · rcases List.mem_append.1 hc with hc | hc
      · exact hsl c hc
      · have := hs c hc; omega
    · exact hsl1 c hc
  have hall : ∀ c ∈ sch ++ ':'.toNat :: (str "//" ++ e ++ str "/"),
      32 ≤ c ∧ c ≠ 127 ∧ c ≠ 35 ∧ c ≠ 63 := by
    intro c hc
    rcases List.mem_append.1 hc with hc | hc
    · have := isSchemeByte_cases (validScheme_bytes hv c hc); omega
    · rcases List.mem_cons.1 hc with rfl | hc
      · decide
      · exact hrest c hc
  have hhash : '#'.toNat ∉ sch ++ ':'.toNat :: (str "//" ++ e ++ str "/") :=
    fun hm => (hall _ hm).2.2.1 rfl
  have hq : '?'.toNat ∉ str "//" ++ e ++ str "/" := fun hm => (hrest _ hm).2.2.2 rfl
  have hctl : stringContainsCTLByte (sch ++ ':'.toNat :: (str "//" ++ e ++ str "/")) = false :=
    stringContainsCTLByte_false (fun c hc => ⟨(hall c hc).1, (hall c hc).2.1⟩)
  have hstar : sch ++ ':'.toNat :: (str "//" ++ e ++ str "/") ≠ str "*" := by
    intro he
    have := congrArg List.length he
    simp [str] at this
    omega
  rw [root_shape, Parse_of_no_hash hhash, parse_of_getScheme hctl hstar (getScheme_scheme _ hv),
    hl, parseQuery_of_no_query hq, parseRest_root _ hsne hp hs]

theorem EscapedPath_slash (u : URL) (hp : u.Path = str "/") (hr : u.RawPath = []) :
    u.EscapedPath = str "/" := by
  rw [EscapedPath_of_plain u hr (by rw [hp]; decide), hp]

/-- Printing the URL `scheme://host/`. -/
theorem String_root (sch h : GoString) (hs : sch ≠ []) :
    URL.String { Scheme := sch, Host := h, Path := str "/" } =
      sch ++ str "://" ++ escape h encodeHost ++ str "/" := by
  unfold URL.String URL.writeQueryFragment URL.writePath URL.writeAuthority
  rw [EscapedPath_slash _ rfl rfl]
  by_cases hh : h = []
  · subst hh
    simp [hs, str, escape]
  · simp [hs, hh, str]

/-- Resolving the empty reference against `scheme://host/`. -/
theorem ResolveReference_root (sch h : GoString) :
    URL.ResolveReference { Scheme := sch, Host := h, Path := str "/" } {} =
      { Scheme := sch, Host := h, Path := str "/" } :=
  ResolveReference_empty_http sch h [] [] false (fun _ hc => by cases hc) (by simp)

theorem HasPrefix_slashes_of_scheme {sch : GoString} (hv : validScheme sch = true)
    (rest : GoString) : HasPrefix (sch ++ rest) (str "//") = false := by
  obtain ⟨c, t, rfl, hc, -⟩ := (validScheme_iff _).1 hv
  by_contra hcon
  simp only [Bool.not_eq_false] at hcon
  obtain ⟨t2, ht2⟩ := HasPrefix_cons_of hcon
  simp only [List.cons_append, List.cons.injEq] at ht2
  rw [ht2.1] at hc
  exact absurd hc (by decide)

/-- The function `RootURL` gives back `scheme://host/` when the host is one that `parseHost`
returns for itself and for its escaped form. -/
theorem RootURL_root {sch h : GoString} (hv : validScheme sch = true) (hl : ToLower sch = sch)
    (hr : ∀ c ∈ h, isRawHostByte c = true) (h1 : parseHost h = .ok h)
    (h2 : parseHost (escape h encodeHost) = .ok h) :
    RootURL (sch ++ str "://" ++ h ++ str "/") = sch ++ str "://" ++ h ++ str "/" := by
  have hsne : sch ≠ [] := by
    obtain ⟨c, t, rfl, -, -⟩ := (validScheme_iff _).1 hv
    simp
  have hw : HasPrefix (sch ++ str "://" ++ h ++ str "/") (str "//") = false := by
    rw [List.append_assoc, List.append_assoc]
    exact HasPrefix_slashes_of_scheme hv _
  have hp := Parse_root hv hl h1 (fun c hc => raw_authority (hr c hc))
  have ha := AbsoluteURL_nil_of_ok hp
  rw [ResolveReference_root, String_root _ _ hsne] at ha
  exact RootURL_of_reparse_ok hw ha (Parse_root hv hl h2 (escape_host_authority h))

/-! ### Where the fields of a parsed URL come from -/

theorem Cut_mem (s sep : GoString) :
    (∀ c ∈ (Cut s sep).1, c ∈ s) ∧ (∀ c ∈ (Cut s sep).2.1, c ∈ s) := by
  unfold Cut
  cases Index s sep with
  | none => exact ⟨fun c hc => hc, fun c hc => absurd hc (List.not_mem_nil c)⟩
  | some i =>
    exact ⟨fun c hc => List.mem_of_mem_take hc, fun c hc => List.mem_of_mem_drop hc⟩

theorem parseQuery_mem (rest : GoString) :
    (∀ c ∈ (parseQuery rest).2.1, c ∈ rest) ∧ (∀ c ∈ (parseQuery rest).2.2, c ∈ rest) := by
  unfold parseQuery
  split
  · exact ⟨fun c hc => absurd hc (List.not_mem_nil c), fun c hc => List.mem_of_mem_take hc⟩
  · exact ⟨(Cut_mem _ _).2, (Cut_mem _ _).1⟩

theorem getScheme_mem {raw scheme rest : GoString} (h : getScheme raw = (scheme, rest, none)) :
    ∀ c ∈ rest, c ∈ raw := by
  unfold getScheme at h
  rcases getSchemeLoop_cases raw 0 raw with h1 | h1 | ⟨j, -, h1⟩
  · rw [h1] at h; simp only [Prod.mk.injEq] at h; rw [← h.2.1]; exact fun c hc => hc
  · rw [h1] at h; simp at h
  · rw [h1] at h; simp only [Prod.mk.injEq] at h; rw [← h.2.1]
    exact fun c hc => List.mem_of_mem_drop hc

/-- The host that `parseAuthority` returns is what `parseHost` makes of a part of the
authority. -/
theorem parseAuthority_host {a host : GoString} {user : Option Userinfo}
    (h : parseAuthority a = .ok (user, host)) :
    ∃ e, parseHost e = .ok host ∧ ∀ c ∈ e, c ∈ a := by
  unfold parseAuthority at h
  cases hli : LastIndex a (str "@") with
  | none =>
    rw [hli] at h
    simp only [bind, Except.bind] at h
    cases hph : parseHost a with
    | error err => rw [hph] at h; cases h
    | ok h0 =>
      rw [hph] at h
      simp only at h
      cases h
      exact ⟨a, hph, fun c hc => hc⟩
  | some i =>
    rw [hli] at h
    simp only [bind, Except.bind] at h
    cases hph : parseHost (a.drop (i + 1)) with
    | error err => rw [hph] at h; cases h
    | ok h0 =>
      rw [hph] at h
      simp only at h
      have hh : host = h0 := by
        split_ifs at h
        · cases h1 : unescape (a.take i) encodeUserPassword with
          | error err => rw [h1] at h; cases h
          | ok x => rw [h1] at h; cases h; rfl
        · cases h1 : unescape (Cut (a.take i) (str ":")).1 encodeUserPassword with
          | error err => rw [h1] at h; cases h
          | ok x =>
            rw [h1] at h
            simp only at h
            cases h2 : unescape (Cut (a.take i) (str ":")).2.1 encodeUserPassword with
            | error err => rw [h2] at h; cases h
            | ok y => rw [h2] at h; cases h; rfl
      rw [hh]
      exact ⟨_, hph, fun c hc => List.mem_of_mem_drop hc⟩

/-- The host that `parseRest` stores is the one it was given, or what `parseHost` makes of
a part of the input. -/
theorem parseRest_host {url u : URL} {rest : GoString} {v : Bool}
    (h : parseRest url rest v = .ok u) :
    u.Host = url.Host ∨ ∃ e, parseHost e = .ok u.Host ∧ ∀ c ∈ e, c ∈ rest := by
  unfold parseRest at h
  split at h
  · cases h; left; rfl
  split at h
  · cases h
  split at h
  · cases h
  split at h
  · simp only at h
    split at h
    · cases h
    · rename_i user host heq
      obtain ⟨p, r, rfl⟩ := setPath_ok_fields h
      right
      obtain ⟨e, he, hmem⟩ := parseAuthority_host heq
      refine ⟨e, he, fun c hc => ?_⟩
      have h1 := hmem c hc
      have h2 : c ∈ rest.drop 2 := by
        cases hI : Index (rest.drop 2) (str "/") with
        | none => rw [hI] at h1; exact h1
        | some i => rw [hI] at h1; exact List.mem_of_mem_take h1
      exact List.mem_of_mem_drop h2
  split at h
  · obtain ⟨p, r, rfl⟩ := setPath_ok_fields h
    left; rfl
  · obtain ⟨p, r, rfl⟩ := setPath_ok_fields h
    left; rfl

theorem parseRest_opaque {url u : URL} {rest : GoString} {v : Bool}
    (h : parseRest url rest v = .ok u) : u.Opaque = rest ∨ u.Opaque = url.Opaque := by
  obtain ⟨-, -, -, -, -, hc⟩ := parseRest_ok_fields h
  rcases hc with hc | hc | hc
  · exact Or.inl hc.1
  · exact Or.inr hc.1
  · exact Or.inr hc.1

theorem parse_mem {raw : GoString} {v : Bool} {u : URL} (h : parse raw v = .ok u) :
    (∀ c ∈ u.Opaque, c ∈ raw) ∧ (∀ c ∈ u.RawQuery, c ∈ raw) ∧
    (u.Host = [] ∨ ∃ e, parseHost e = .ok u.Host ∧ ∀ c ∈ e, c ∈ raw) := by
  unfold parse at h
  split at h
  · cases h
  split at h
  · cases h
  split at h
  · cases h
    exact ⟨fun c hc => absurd hc (List.not_mem_nil c),
      fun c hc => absurd hc (List.not_mem_nil c), Or.inl rfl⟩
  split at h
  · cases h
  rename_i scheme rest heq
  simp only at h
  have hrest := getScheme_mem heq
  obtain ⟨hq1, hq2⟩ := parseQuery_mem rest
  obtain ⟨-, -, hrq, -, -, -⟩ := parseRest_ok_fields h
  simp only at hrq
  refine ⟨?_, ?_, ?_⟩
  · rcases parseRest_opaque h with ho | ho
    · rw [ho]; exact fun c hc => hrest c (hq2 c hc)
    · rw [ho]; exact fun c hc => by cases hc
  · rw [hrq]; exact fun c hc => hrest c (hq1 c hc)
  · rcases parseRest_host h with hh | ⟨e, he, hmem⟩
    · exact Or.inl hh
    · exact Or.inr ⟨e, he, fun c hc => hrest c (hq2 c (hmem c hc))⟩

/-- The opaque part and the query of a parsed URL consist of bytes of the input, and its
host is empty or what `parseHost` makes of a part of the input. -/
theorem Parse_mem {x : GoString} {u : URL} (h : Parse x = .ok u) :
    (∀ c ∈ u.Opaque, c ∈ x) ∧ (∀ c ∈ u.RawQuery, c ∈ x) ∧
    (u.Host = [] ∨ ∃ e, parseHost e = .ok u.Host ∧ ∀ c ∈ e, c ∈ x) := by
  unfold Parse at h
  simp only at h
  have hcut := (Cut_mem x (str "#")).1
  have key : ∀ url : URL, parse (Cut x (str "#")).1 false = .ok url →
      (∀ c ∈ url.Opaque, c ∈ x) ∧ (∀ c ∈ url.RawQuery, c ∈ x) ∧
      (url.Host = [] ∨ ∃ e, parseHost e = .ok url.Host ∧ ∀ c ∈ e, c ∈ x) := by
    intro url hp
    obtain ⟨a, b, c⟩ := parse_mem hp
    refine ⟨fun y hy => hcut y (a y hy), fun y hy => hcut y (b y hy), ?_⟩
    rcases c with c | ⟨e, he, hmem⟩
    · exact Or.inl c
    · exact Or.inr ⟨e, he, fun y hy => hcut y (hmem y hy)⟩
  split at h
  · cases h
  rename_i url hp
  split at h
  · cases h; exact key _ hp
  split at h
  · cases h
  · rename_i url2 hf
    cases h
    obtain ⟨-, e2, -, e4, -, -, -, -, e9⟩ := setFragment_ok hf
    rw [e2, e4, e9]
    exact key _ hp

/-! ### The bytes of a printed URL -/

theorem validEncoded_lt {s : GoString} {mode : Encoding} (h : validEncoded s mode = true) :
    ∀ c ∈ s, c < 128 := by
  intro c hc
  unfold validEncoded at h
  rw [List.all_eq_true] at h
  have := h c hc
  have l1 : ∀ x ∈ ['!'.toNat, '$'.toNat, '&'.toNat, 39, '('.toNat, ')'.toNat, '*'.toNat,
      '+'.toNat, ','.toNat, ';'.toNat, '='.toNat, ':'.toNat, '@'.toNat], x < 128 := by decide
  have l2 : ∀ x ∈ ['['.toNat, ']'.toNat], x < 128 := by decide
  split_ifs at this with k1 k2 k3
  · exact l1 c k1
  · exact l2 c k2
  · rw [k3]; decide
  · exact shouldEscape_false_lt (by simpa using this)

theorem EscapedPath_lt (u : URL) : ∀ c ∈ u.EscapedPath, c < 128 := by
  intro c hc
  unfold URL.EscapedPath at hc
  simp only at hc
  split_ifs at hc with k1 k2
  · simp only [Bool.and_eq_true] at k1
    exact validEncoded_lt k1.1.2 c hc
  · revert c; decide
  · exact escape_lt _ _ c hc

theorem EscapedFragment_lt (u : URL) : ∀ c ∈ u.EscapedFragment, c < 128 := by
  intro c hc
  unfold URL.EscapedFragment at hc
  simp only at hc
  split_ifs at hc with k1
  · simp only [Bool.and_eq_true] at k1
    exact validEncoded_lt k1.1.2 c hc
  · exact escape_lt _ _ c hc

theorem Userinfo_String_lt (ui : Userinfo) : ∀ c ∈ ui.String, c < 128 := by
  intro c hc
  unfold Userinfo.String at hc
  simp only at hc
  have l1 : ∀ x ∈ str ":", x < 128 := by decide
  split_ifs at hc
  · rcases List.mem_append.1 hc with hc | hc
    · rcases List.mem_append.1 hc with hc | hc
      · exact escape_lt _ _ c hc
      · exact l1 c hc
    · exact escape_lt _ _ c hc
  · exact escape_lt _ _ c hc

theorem mem_append_lt {a b : GoString} {n : Nat} (ha : ∀ c ∈ a, c < n) (hb : ∀ c ∈ b, c < n) :
    ∀ c ∈ a ++ b, c < n := by
  intro c hc
  rcases List.mem_append.1 hc with hc | hc
  · exact ha c hc
  · exact hb c hc

theorem lt_256_of_lt_128 {a : GoString} (h : ∀ c ∈ a, c < 128) : ∀ c ∈ a, c < 256 :=
  fun c hc => Nat.lt_trans (h c hc) (by decide)

theorem writeAuthority_lt (u : URL) (buf : GoString) (hb : ∀ c ∈ buf, c < 256) :
    ∀ c ∈ u.writeAuthority buf, c < 256 := by
  have l2 : ∀ x ∈ str "//", x < 256 := by decide
  have l3 : ∀ x ∈ str "@", x < 256 := by decide
  have hbuf1 : ∀ c ∈ (if u.Host ≠ [] ∨ u.Path ≠ [] ∨ u.User ≠ none then buf ++ str "//"
      else buf), c < 256 := by
    split_ifs
    · exact mem_append_lt hb l2
    · exact hb
  have hbuf2 : ∀ b1 : GoString, (∀ c ∈ b1, c < 256) →
      ∀ c ∈ (match u.User with
        | some ui => b1 ++ ui.String ++ str "@"
        | none => b1), c < 256 := by
    intro b1 h1
    cases u.User with
    | none => exact h1
    | some ui =>
      exact mem_append_lt (mem_append_lt h1 (lt_256_of_lt_128 (Userinfo_String_lt ui))) l3
  unfold URL.writeAuthority
  by_cases c1 : u.Scheme ≠ [] ∨ u.Host ≠ [] ∨ u.User ≠ none
  · rw [if_pos c1]
    by_cases c2 : u.OmitHost = true ∧ u.Host = [] ∧ u.User = none
    · rw [if_pos c2]; exact hb
    · rw [if_neg c2]
      simp only
      by_cases c3 : u.Host ≠ []
      · rw [if_pos c3]
        exact mem_append_lt (hbuf2 _ hbuf1) (lt_256_of_lt_128 (escape_lt _ _))
      · rw [if_neg c3]
        exact hbuf2 _ hbuf1
  · rw [if_neg c1]; exact hb

theorem writePath_lt (u : URL) (buf : GoString) (hb : ∀ c ∈ buf, c < 256) :
    ∀ c ∈ u.writePath buf, c < 256 := by
  have l1 : ∀ x ∈ str "/", x < 256 := by decide
  have l2 : ∀ x ∈ str "./", x < 256 := by decide
  unfold URL.writePath
  simp only
  refine mem_append_lt ?_ (lt_256_of_lt_128 (EscapedPath_lt u))
  split_ifs
  · exact mem_append_lt (mem_append_lt hb l1) l2
  · exact mem_append_lt hb l1
  · exact mem_append_lt hb l2
  · exact hb

theorem writeQueryFragment_lt (u : URL) (buf : GoString) (hb : ∀ c ∈ buf, c < 256)
    (hq : ∀ c ∈ u.RawQuery, c < 256) : ∀ c ∈ u.writeQueryFragment buf, c < 256 := by
  have l1 : ∀ x ∈ str "?", x < 256 := by decide
  have l2 : ∀ x ∈ str "#", x < 256 := by decide
  have hbuf : ∀ c ∈ (if u.ForceQuery = true ∨ u.RawQuery ≠ [] then buf ++ str "?" ++ u.RawQuery
      else buf), c < 256 := by
    by_cases c1 : u.ForceQuery = true ∨ u.RawQuery ≠ []
    · rw [if_pos c1]; exact mem_append_lt (mem_append_lt hb l1) hq
    · rw [if_neg c1]; exact hb
  unfold URL.writeQueryFragment
  simp only
  by_cases c2 : u.Fragment ≠ []
  · rw [if_pos c2]
    exact mem_append_lt (mem_append_lt hbuf l2) (lt_256_of_lt_128 (EscapedFragment_lt u))
  · rw [if_neg c2]; exact hbuf

/-- A printed URL is a byte string when its scheme, opaque part and query are. -/
theorem String_lt (u : URL) (hs : ∀ c ∈ u.Scheme, c < 256) (ho : ∀ c ∈ u.Opaque, c < 256)
    (hq : ∀ c ∈ u.RawQuery, c < 256) : ∀ c ∈ u.String, c < 256 := by
  have l1 : ∀ x ∈ str ":", x < 256 := by decide
  have hbuf : ∀ c ∈ (if u.Scheme ≠ [] then u.Scheme ++ str ":" else []), c < 256 := by
    split_ifs
    · exact mem_append_lt hs l1
    · intro c hc; cases hc
  unfold URL.String
  simp only
  apply writeQueryFragment_lt _ _ _ hq
  by_cases c1 : u.Opaque ≠ []
  · rw [if_pos c1]; exact mem_append_lt hbuf ho
  · rw [if_neg c1]; exact writePath_lt _ _ (writeAuthority_lt _ _ hbuf)

theorem Parse_scheme_lt {x : GoString} {u : URL} (h : Parse x = .ok u) :
    ∀ c ∈ u.Scheme, c < 256 := by
  rcases Parse_scheme_valid h with h0 | ⟨hv, -⟩
  · rw [h0]; intro c hc; cases hc
  · intro c hc
    have := isSchemeByte_cases (validScheme_bytes hv c hc)
    omega

/-- The string that `AbsoluteURL` returns for a parsed byte string and the empty input
is a byte string. -/
theorem ResolveReference_empty_lt {w : GoString} {base : URL} (hp : Parse w = .ok base)
    (hw : ∀ c ∈ w, c < 256) : ∀ c ∈ (base.ResolveReference {}).String, c < 256 := by
  obtain ⟨ho, hq, -⟩ := Parse_mem hp
  have hs := Parse_scheme_lt hp
  rw [ResolveReference_empty]
  split_ifs
  · exact String_lt _ hs (fun c hc => hw c (ho c hc)) (fun c hc => hw c (hq c hc))
  · obtain ⟨k1, k2, -, -, -, -, k7, -, -⟩ := setPathIgnoringError_keeps
      ({ Scheme := base.Scheme, User := base.User, Host := base.Host,
         RawQuery := base.RawQuery, Fragment := base.Fragment,
         RawFragment := base.RawFragment } : URL) (resolvePath base.EscapedPath [])
    apply String_lt
    · rw [k1]; exact hs
    · rw [k2]; intro c hc; cases hc
    · rw [k7]; exact fun c hc => hw c (hq c hc)

/-! ### The three outcomes of `RootURL` -/

/-- A string that starts with a colon does not parse. -/
theorem Parse_colon_error (t : GoString) : ∃ err, Parse (':'.toNat :: t) = .error err := by
  have hcut : (Cut (':'.toNat :: t) (str "#")).1 = ':'.toNat :: (Cut t (str "#")).1 :=
    Cut_fst_cons_ne t (by decide)
  have hparse : ∃ e, parse (':'.toNat :: (Cut t (str "#")).1) false = .error e := by
    unfold parse
    split_ifs with k1 k2 k3
    · exact ⟨_, rfl⟩
    · exact absurd k2.2 (by decide)
    · simp [str] at k3
    · exact ⟨.missingProtocolScheme, rfl⟩
  obtain ⟨e, he⟩ := hparse
  unfold Parse
  simp only [hcut, he]
  exact ⟨_, rfl⟩

/-- The three outcomes of `RootURL` on an input that does not start with `//`: the input
itself when it does not parse, the string of the resolved URL when that does not parse,
and else the scheme and the host of the reparsed URL. -/
theorem RootURL_cases_of_not_slashes {w : GoString} (h : HasPrefix w (str "//") = false) :
    (RootURL w = w ∧ ∃ err, Parse w = .error err) ∨
    (∃ base, Parse w = .ok base ∧ RootURL w = (base.ResolveReference {}).String ∧
      ∃ err, Parse (base.ResolveReference {}).String = .error err) ∨
    (∃ base u, Parse w = .ok base ∧ Parse (base.ResolveReference {}).String = .ok u ∧
      RootURL w = u.Scheme ++ str "://" ++ u.Host ++ str "/") := by
  cases hp : Parse w with
  | error err => exact Or.inl ⟨RootURL_of_parse_error h hp, err, rfl⟩
  | ok base =>
    right
    have ha := AbsoluteURL_nil_of_ok hp
    cases hp2 : Parse (base.ResolveReference {}).String with
    | error err => exact Or.inl ⟨base, rfl, RootURL_of_reparse_error h ha hp2, err, hp2⟩
    | ok u => exact Or.inr ⟨base, u, rfl, hp2, RootURL_of_reparse_ok h ha hp2⟩

theorem RootURL_https_of_slashes {s : GoString} (h : HasPrefix s (str "//") = true) :
    RootURL s = RootURL (str "https://" ++ s.drop 2) := by
  obtain ⟨t, rfl⟩ := (HasPrefix_iff _ _).1 h
  rw [RootURL_of_slashes]
  rfl

/-- The string that `RootURL` works on: the input, with `https:` put before a leading
`//`. -/
theorem RootURL_cases (s : GoString) :
    ∃ w, (w = s ∨ w = str "https://" ++ s.drop 2) ∧ HasPrefix w (str "//") = false ∧
      RootURL s = RootURL w := by
  by_cases h : HasPrefix s (str "//") = true
  · exact ⟨_, Or.inr rfl, rfl, RootURL_https_of_slashes h⟩
  · exact ⟨s, Or.inl rfl, by simpa using h, rfl⟩

theorem parseHost_nil : parseHost [] = .ok [] := by rfl

/-- The root URL made of the scheme and the host of a URL parsed from a byte string is
returned unchanged by `RootURL` when the host holds no `%`. -/
theorem RootURL_of_parsed {a : GoString} {u : URL} (hp : Parse a = .ok u)
    (ha : ∀ c ∈ a, c < 256) (hs : u.Scheme ≠ []) (hh : '%'.toNat ∉ u.Host) :
    RootURL (u.Scheme ++ str "://" ++ u.Host ++ str "/") =
      u.Scheme ++ str "://" ++ u.Host ++ str "/" := by
  rcases Parse_scheme_valid hp with h0 | ⟨hv, hl⟩
  · exact absurd h0 hs
  obtain ⟨-, -, hhost⟩ := Parse_mem hp
  rcases hhost with h0 | ⟨e, he, hmem⟩
  · rw [h0]
    exact RootURL_root hv hl (fun c hc => absurd hc (List.not_mem_nil c)) parseHost_nil
      parseHost_nil
  · obtain ⟨hr, h1, h2⟩ := parseHost_raw he hh (fun c hc => ha c (hmem c hc))
    exact RootURL_root hv hl hr h1 h2

theorem not_mem_of_append_right {a b : GoString} {x : Nat} (h : x ∉ a ++ b) : x ∉ b :=
  fun hm => h (List.mem_append_right _ hm)

theorem not_mem_of_append_left {a b : GoString} {x : Nat} (h : x ∉ a ++ b) : x ∉ a :=
  fun hm => h (List.mem_append_left _ hm)

/-- Idempotence of `RootURL` wherever the root URL holds no `%` or does not parse. -/
theorem RootURL_idem_of_not_slashes {w : GoString} (hw : ∀ c ∈ w, c < 256)
    (h : HasPrefix w (str "//") = false)
    (hr : HasPrefix (RootURL w) (str "//") = false)
    (hc : '%'.toNat ∉ RootURL w ∨ ∃ err, Parse (RootURL w) = .error err) :
    RootURL (RootURL w) = RootURL w := by
  cases hpr : Parse (RootURL w) with
  | error err => exact RootURL_of_parse_error hr hpr
  | ok v =>
    have hpc : '%'.toNat ∉ RootURL w := by
      rcases hc with hc | ⟨err, herr⟩
      · exact hc
      · rw [hpr] at herr; cases herr
    rcases RootURL_cases_of_not_slashes h with ⟨e1, err, herr⟩ | ⟨base, hb, e1, err, herr⟩ |
      ⟨base, u, hb, hu, e1⟩
    · rw [e1] at hpr; rw [hpr] at herr; cases herr
    · rw [e1] at hpr; rw [hpr] at herr; cases herr
    · rw [e1] at hpc hpr ⊢
      have hne : u.Scheme ≠ [] := by
        intro h0
        rw [h0] at hpr
        obtain ⟨err, herr⟩ := Parse_colon_error (str "//" ++ u.Host ++ str "/")
        have e2 : [] ++ str "://" ++ u.Host ++ str "/" =
            ':'.toNat :: (str "//" ++ u.Host ++ str "/") := by
          simp [str]
        rw [e2, herr] at hpr
        cases hpr
      exact RootURL_of_parsed hu (ResolveReference_empty_lt hb hw) hne
        (not_mem_of_append_right (not_mem_of_append_left hpc))

/-- A root URL never starts with a slash when the input starts with two. -/
theorem RootURL_head_of_https (t : GoString) :
    HasPrefix (RootURL (str "https://" ++ t)) (str "/") = false := by
  have h : HasPrefix (str "https://" ++ t) (str "//") = false := rfl
  rcases RootURL_cases_of_not_slashes h with ⟨e1, -⟩ | ⟨base, hb, e1, -⟩ | ⟨base, u, hb, hu, e1⟩
  · rw [e1]; rfl
  · rw [e1]
    have hs : base.Scheme = str "https" := by
      rcases Parse_scheme_of_http (Or.inl ((HasPrefix_iff _ _).2 (List.prefix_append _ _))) hb
        with h1 | h1
      · exact h1
      · exfalso
        have := Parse_ok_scheme hb
        rw [show str "https://" ++ t = str "https:" ++ (str "//" ++ t) from rfl, Cut_hash_https,
          getScheme_https] at this
        rw [this] at h1
        have h2 : ToLower (str "https") = str "http" := h1
        exact absurd h2 (by decide)
    have hrs : (base.ResolveReference {}).Scheme = str "https" := by
      rw [ResolveReference_empty]
      split_ifs
      · exact hs
      · rw [(setPathIgnoringError_keeps _ _).1]; exact hs
    have hpfx := String_pfx (base.ResolveReference {})
    rw [hrs, if_pos (by decide)] at hpfx
    obtain ⟨r, hr⟩ := hpfx
    rw [← hr]
    rfl
  · rw [e1]
    rcases Parse_scheme_valid hu with h0 | ⟨hv, -⟩
    · rw [h0]; rfl
    · obtain ⟨c, r, hcr, hc, -⟩ := (validScheme_iff _).1 hv
      rw [hcr]
      by_contra hcon
      simp only [Bool.not_eq_false] at hcon
      obtain ⟨t2, ht2⟩ := HasPrefix_cons_of hcon
      simp only [List.cons_append, List.cons.injEq] at ht2
      rw [ht2.1] at hc
      exact absurd hc (by decide)

/-- No root URL that starts with `//` is returned unchanged by `RootURL`. -/
theorem RootURL_ne_of_slashes {r : GoString} (h : HasPrefix r (str "//") = true) :
    RootURL r ≠ r := by
  intro heq
  have h1 := RootURL_head_of_https (r.drop 2)
  rw [← RootURL_https_of_slashes h, heq] at h1
  obtain ⟨t, rfl⟩ := (HasPrefix_iff _ _).1 h
  have h2 : HasPrefix (str "//" ++ t) (str "/") = true := rfl
  rw [h2] at h1
  cases h1

/-- The general form: on a byte string, `RootURL` is idempotent when the root URL does not
start with `//` and either holds no `%` or does not parse. -/
theorem RootURL_idem (s : GoString) (hs : ∀ c ∈ s, c < 256)
    (hr : HasPrefix (RootURL s) (str "//") = false)
    (hc : '%'.toNat ∉ RootURL s ∨ ∃ err, Parse (RootURL s) = .error err) :
    RootURL (RootURL s) = RootURL s := by
  obtain ⟨w, hw, hpre, heq⟩ := RootURL_cases s
  rw [heq] at hr hc ⊢
  refine RootURL_idem_of_not_slashes ?_ hpre hr hc
  rcases hw with rfl | rfl
  · exact hs
  · have l1 : ∀ c ∈ str "https://", c < 256 := by decide
    exact mem_append_lt l1 (fun c hc => hs c (List.mem_of_mem_drop hc))

/-! ### Unescaping in the host and zone modes -/

theorem unescapeCheck_percent_inv {mode : Encoding} {rest : GoString}
    (h : unescapeCheck mode ('%'.toNat :: rest) = none) :
    ∃ h1 h2 s, rest = h1 :: h2 :: s ∧ ishex h1 = true ∧ ishex h2 = true ∧
      ¬ (mode = encodeHost ∧ unhex h1 < 8 ∧ ['%'.toNat, h1, h2] ≠ str "%25") ∧
      ¬ (mode = encodeZone ∧ ['%'.toNat, h1, h2] ≠ str "%25" ∧
          unhex h1 * 16 + unhex h2 ≠ ' '.toNat ∧
          shouldEscape (unhex h1 * 16 + unhex h2) encodeHost = true) ∧
      unescapeCheck mode s = none := by
  match rest, h with
  | [], h => simp [unescapeCheck] at h
  | [a], h => simp [unescapeCheck] at h
  | h1 :: h2 :: s, h =>
    unfold unescapeCheck at h
    simp only [if_true] at h
    split_ifs at h with k1 k2 k3
    refine ⟨h1, h2, s, rfl, ?_, ?_, k2, k3, h⟩
    · by_contra hc; exact k1 (by simp [hc])
    · by_contra hc; exact k1 (by simp [hc])

theorem unescapeCheck_cons_inv {mode : Encoding} {c : Nat} {s : GoString}
    (hc : c ≠ '%'.toNat) (h : unescapeCheck mode (c :: s) = none) :
    unescapeCheck mode s = none ∧
      ((mode = encodeHost ∨ mode = encodeZone) →
        128 ≤ c ∨ shouldEscape c encodeHost = false) := by
  unfold unescapeCheck at h
  rw [if_neg hc] at h
  split_ifs at h with k1 k2
  · exact ⟨h, fun _ => Or.inr (by rw [k1]; decide)⟩
  · refine ⟨h, fun hm => ?_⟩
    by_cases h128 : 128 ≤ c
    · exact Or.inl h128
    · right
      by_contra hse
      exact k2 ⟨hm, by omega, by simpa using hse⟩

theorem unescapeDecode_cons_ne {mode : Encoding} (hm : mode ≠ encodeQueryComponent) {c : Nat}
    (s : GoString) (h : c ≠ '%'.toNat) :
    unescapeDecode mode (c :: s) = c :: unescapeDecode mode s := by
  conv_lhs => unfold unescapeDecode
  simp only [if_neg h, if_neg hm]
  split
  · rename_i hp; rw [hp]
  · rfl

theorem unescapeDecode_percent (mode : Encoding) (h1 h2 : Nat) (s : GoString) :
    unescapeDecode mode ('%'.toNat :: h1 :: h2 :: s) =
      (unhex h1 * 16 + unhex h2) :: unescapeDecode mode s := by
  conv_lhs => unfold unescapeDecode
  simp

theorem unescapeDecode_percent_short (mode : Encoding) {s : GoString} (h : s.length < 2) :
    unescapeDecode mode ('%'.toNat :: s) = [] := by
  match s, h with
  | [], _ => simp [unescapeDecode]
  | [a], _ => simp [unescapeDecode]

/-- Decoding does not depend on the mode, the query mode apart. -/
theorem unescapeDecode_mode {mode : Encoding} (hm : mode ≠ encodeQueryComponent) :
    ∀ (n : Nat) (s : GoString), s.length ≤ n →
      unescapeDecode mode s = unescapeDecode encodeHost s := by
  intro n
  induction n with
  | zero =>
    intro s hl
    have : s = [] := List.length_eq_zero.mp (by omega)
    subst this; rfl
  | succ n ih =>
    intro s hl
    match s, hl with
    | [], _ => rfl
    | c :: s1, hl =>
      by_cases hc : c = '%'.toNat
      · subst hc
        match s1, hl with
        | [], _ => rw [unescapeDecode_percent_short _ (by simp),
            unescapeDecode_percent_short _ (by simp)]
        | [x], _ => rw [unescapeDecode_percent_short _ (by simp),
            unescapeDecode_percent_short _ (by simp)]
        | h1 :: h2 :: s2, hl =>
          rw [unescapeDecode_percent, unescapeDecode_percent, ih s2 (by simp at hl; omega)]
      · rw [unescapeDecode_cons_ne hm _ hc, unescapeDecode_cons_ne (by decide) _ hc,
          ih s1 (by simp at hl; omega)]

/-- Decoding a concatenation whose first part passed the check. -/
theorem unescapeDecode_append_of_check {mode : Encoding} :
    ∀ (n : Nat) (a b : GoString), a.length ≤ n → unescapeCheck mode a = none →
      unescapeDecode encodeHost (a ++ b) =
        unescapeDecode encodeHost a ++ unescapeDecode encodeHost b := by
  intro n
  induction n with
  | zero =>
    intro a b hl ha
    have : a = [] := List.length_eq_zero.mp (by omega)
    subst this; rfl
  | succ n ih =>
    intro a b hl ha
    match a, hl, ha with
    | [], _, _ => rfl
    | c :: a1, hl, ha =>
      by_cases hc : c = '%'.toNat
      · subst hc
        obtain ⟨h1, h2, a2, rfl, -, -, -, -, hrest⟩ := unescapeCheck_percent_inv ha
        show unescapeDecode encodeHost ('%'.toNat :: h1 :: h2 :: (a2 ++ b)) = _
        rw [unescapeDecode_percent, unescapeDecode_percent,
          ih a2 b (by simp at hl; omega) hrest]
        rfl
      · have ha1 := (unescapeCheck_cons_inv hc ha).1
        show unescapeDecode encodeHost (c :: (a1 ++ b)) = _
        rw [unescapeDecode_cons_ne (by decide) _ hc, unescapeDecode_cons_ne (by decide) _ hc,
          ih a1 b (by simp at hl; omega) ha1]
        rfl

/-- Decoding never lengthens a string, and shortens one that holds a `%`. -/
theorem unescapeDecode_length : ∀ (n : Nat) (s : GoString), s.length ≤ n →
    (unescapeDecode encodeHost s).length ≤ s.length ∧
      ('%'.toNat ∈ s → (unescapeDecode encodeHost s).length < s.length) := by
  intro n
  induction n with
  | zero =>
    intro s hl
    have : s = [] := List.length_eq_zero.mp (by omega)
    subst this
    exact ⟨le_refl _, fun h => absurd h (List.not_mem_nil _)⟩
  | succ n ih =>
    intro s hl
    match s, hl with
    | [], _ => exact ⟨le_refl _, fun h => absurd h (List.not_mem_nil _)⟩
    | c :: s1, hl =>
      by_cases hc : c = '%'.toNat
      · subst hc
        match s1, hl with
        | [], _ =>
          rw [unescapeDecode_percent_short _ (by simp)]
          simp
        | [x], _ =>
          rw [unescapeDecode_percent_short _ (by simp)]
          simp
        | h1 :: h2 :: s2, hl =>
          have := (ih s2 (by simp at hl; omega)).1
          rw [unescapeDecode_percent]
          simp only [List.length_cons]
          exact ⟨by omega, fun _ => by omega⟩
      · have := ih s1 (by simp at hl; omega)
        rw [unescapeDecode_cons_ne (by decide) _ hc]
        simp only [List.length_cons]
        refine ⟨by omega, fun hm => ?_⟩
        rcases List.mem_cons.1 hm with h0 | h0
        · exact absurd h0.symm hc
        · have := this.2 h0
          omega

/-- The bytes of a decoded host or zone: each is a byte, no control byte and none of
`#`, `/`, `?`, `@`. -/
theorem unescapeDecode_authority {mode : Encoding}
    (hm : mode = encodeHost ∨ mode = encodeZone) :
    ∀ (n : Nat) (e : GoString), e.length ≤ n → (∀ c ∈ e, c < 256) →
      unescapeCheck mode e = none →
      ∀ c ∈ unescapeDecode encodeHost e,
        c < 256 ∧ 32 ≤ c ∧ c ≠ 127 ∧ c ≠ 35 ∧ c ≠ 47 ∧ c ≠ 63 ∧ c ≠ 64 := by
  intro n
  induction n with
  | zero =>
    intro e hl _ _ c hc
    have : e = [] := List.length_eq_zero.mp (by omega)
    subst this
    cases hc
  | succ n ih =>
    intro e hl hb he c hc
    match e, hl, hb, he, hc with
    | [], _, _, _, hc => cases hc
    | x :: e1, hl, hb, he, hc =>
      by_cases hx : x = '%'.toNat
      · subst hx
        obtain ⟨h1, h2, e2, rfl, i1, i2, k2, k3, hrest⟩ := unescapeCheck_percent_inv he
        rw [unescapeDecode_percent] at hc
        rcases List.mem_cons.1 hc with rfl | hc
        · have u1 := unhex_le h1
          have u2 := unhex_le h2
          by_cases h25 : ['%'.toNat, h1, h2] = str "%25"
          · have e1 : h1 = '2'.toNat := by
              have := congrArg (fun l => l.getD 1 0) h25
              simpa [str] using this
            have e2 : h2 = '5'.toNat := by
              have := congrArg (fun l => l.getD 2 0) h25
              simpa [str] using this
            rw [e1, e2]
            decide
          · rcases hm with rfl | rfl
            · have h8 : 8 ≤ unhex h1 := by
                by_contra hlt
                exact k2 ⟨rfl, by omega, h25⟩
              omega
            · by_cases hsp : unhex h1 * 16 + unhex h2 = ' '.toNat
              · rw [hsp]; decide
              · have hse : shouldEscape (unhex h1 * 16 + unhex h2) encodeHost = false := by
                  by_contra hse
                  exact k3 ⟨rfl, h25, hsp, by simpa using hse⟩
                exact ⟨by omega, noescape_authority hse⟩
        · exact ih e2 (by simp at hl; omega)
            (fun y hy => hb y (List.mem_cons_of_mem _ (List.mem_cons_of_mem _
              (List.mem_cons_of_mem _ hy)))) hrest c hc
      · obtain ⟨hrest, hcond⟩ := unescapeCheck_cons_inv hx he
        rw [unescapeDecode_cons_ne (by decide) _ hx] at hc
        rcases List.mem_cons.1 hc with rfl | hc
        · have hlt := hb c (List.mem_cons_self _ _)
          rcases hcond hm with h128 | hse
          · exact ⟨hlt, by omega⟩
          · exact ⟨hlt, noescape_authority hse⟩
        · exact ih e1 (by simp at hl; omega) (fun y hy => hb y (List.mem_cons_of_mem _ hy))
            hrest c hc

/-- Escaping a byte string in host mode and decoding the result gives the string back. -/
theorem unescapeDecode_escape_host (x : GoString) (hx : ∀ c ∈ x, c < 256) :
    unescapeDecode encodeHost (escape x encodeHost) = x := by
  induction x with
  | nil => rfl
  | cons c cs ih =>
    have hc := hx c (List.mem_cons_self _ _)
    have ih1 := ih (fun y hy => hx y (List.mem_cons_of_mem _ hy))
    rw [escape_host_cons]
    by_cases hse : shouldEscape c encodeHost = true
    · rw [if_pos hse]
      show unescapeDecode encodeHost ('%'.toNat :: _ :: _ :: escape cs encodeHost) = _
      rw [unescapeDecode_percent, ih1, unhex_upperhex _ (Nat.mod_lt _ (by decide)),
        unhex_upperhex _ (Nat.mod_lt _ (by decide))]
      congr 1
      omega
    · rw [if_neg hse]
      have hne : c ≠ '%'.toNat := by
        intro h0
        rw [h0, shouldEscape_percent] at hse
        exact hse rfl
      show unescapeDecode encodeHost (c :: escape cs encodeHost) = _
      rw [unescapeDecode_cons_ne (by decide) _ hne, ih1]

/-! ### The host that `parseHost` returns -/

theorem unescape_host_decode {mode : Encoding} (hm : mode = encodeHost ∨ mode = encodeZone)
    {e x : GoString} (hb : ∀ c ∈ e, c < 256) (h : unescape e mode = .ok x) :
    unescapeCheck mode e = none ∧ x = unescapeDecode encodeHost e ∧
      ∀ c ∈ x, c < 256 ∧ 32 ≤ c ∧ c ≠ 127 ∧ c ≠ 35 ∧ c ≠ 47 ∧ c ≠ 63 ∧ c ≠ 64 := by
  obtain ⟨hchk, hdec⟩ := (unescape_ok_iff _ _ _).1 h
  have hne : mode ≠ encodeQueryComponent := by
    rcases hm with rfl | rfl <;> decide
  have hx : x = unescapeDecode encodeHost e := by
    rw [hdec]; exact unescapeDecode_mode hne _ e (le_refl _)
  refine ⟨hchk, hx, ?_⟩
  rw [hx]
  exact unescapeDecode_authority hm _ e (le_refl _) hb hchk

/-- The host that `parseHost` returns for a byte string is the input with its escapes
decoded; it is a byte string without control byte and without `#`, `/`, `?`, `@`. -/
theorem parseHost_decode {e h : GoString} (hp : parseHost e = .ok h) (hb : ∀ c ∈ e, c < 256) :
    h = unescapeDecode encodeHost e ∧
      ∀ c ∈ h, c < 256 ∧ 32 ≤ c ∧ c ≠ 127 ∧ c ≠ 35 ∧ c ≠ 47 ∧ c ≠ 63 ∧ c ≠ 64 := by
  have key : ∀ x, unescape e encodeHost = .ok x →
      x = unescapeDecode encodeHost e ∧
        ∀ c ∈ x, c < 256 ∧ 32 ≤ c ∧ c ≠ 127 ∧ c ≠ 35 ∧ c ≠ 47 ∧ c ≠ 63 ∧ c ≠ 64 :=
    fun x hx => (unescape_host_decode (Or.inl rfl) hb hx).2
  unfold parseHost at hp
  by_cases hpre : HasPrefix e (str "[") = true
  · rw [if_pos hpre] at hp
    cases hli : LastIndex e (str "]") with
    | none => rw [hli] at hp; cases hp
    | some i =>
      rw [hli] at hp
      simp only at hp
      by_cases hv : validOptionalPort (e.drop (i + 1)) = true
      · rw [hv] at hp
        simp only [Bool.not_true, Bool.false_eq_true, if_false] at hp
        cases hz : Index (e.take i) (str "%25") with
        | none =>
          rw [hz] at hp
          exact key h hp
        | some zone =>
          rw [hz] at hp
          simp only [bind, Except.bind] at hp
          have hzl : zone < (e.take i).length := Index_lt (by decide) hz
          have hzi : zone ≤ i := by
            have := List.length_take_le i e
            omega
          cases h1 : unescape (e.take zone) encodeHost with
          | error err => rw [h1] at hp; cases hp
          | ok host1 =>
            rw [h1] at hp
            simp only at hp
            cases h2 : unescape ((e.take i).drop zone) encodeZone with
            | error err => rw [h2] at hp; cases hp
            | ok host2 =>
              rw [h2] at hp
              simp only at hp
              cases h3 : unescape (e.drop i) encodeHost with
              | error err => rw [h3] at hp; cases hp
              | ok host3 =>
                rw [h3] at hp
                simp only at hp
                have hh : h = host1 ++ host2 ++ host3 := by
                  cases hp
                  rfl
                obtain ⟨c1, d1, s1⟩ := unescape_host_decode (Or.inl rfl)
                  (fun c hc => hb c (List.mem_of_mem_take hc)) h1
                obtain ⟨c2, d2, s2⟩ := unescape_host_decode (Or.inr rfl)
                  (fun c hc => hb c (List.mem_of_mem_take (List.mem_of_mem_drop hc))) h2
                obtain ⟨c3, d3, s3⟩ := unescape_host_decode (Or.inl rfl)
                  (fun c hc => hb c (List.mem_of_mem_drop hc)) h3
                have hsplit : e = e.take zone ++ ((e.take i).drop zone ++ e.drop i) := by
                  have e1 : (e.take i).take zone = e.take zone := by
                    rw [List.take_take, Nat.min_eq_left hzi]
                  calc e = e.take i ++ e.drop i := (List.take_append_drop i e).symm
                    _ = ((e.take i).take zone ++ (e.take i).drop zone) ++ e.drop i := by
                        simp only [List.take_append_drop]
                    _ = e.take zone ++ ((e.take i).drop zone ++ e.drop i) := by
                        rw [e1, List.append_assoc]
                refine ⟨?_, ?_⟩
                · conv_rhs => rw [hsplit]
                  rw [unescapeDecode_append_of_check _ _ _ (le_refl _) c1,
                    unescapeDecode_append_of_check _ _ _ (le_refl _) c2, hh, d1, d2, d3,
                    List.append_assoc]
                · rw [hh]
                  intro c hc
                  rcases List.mem_append.1 hc with hc | hc
                  · rcases List.mem_append.1 hc with hc | hc
                    · exact s1 c hc
                    · exact s2 c hc
                  · exact s3 c hc
      · rw [Bool.not_eq_true] at hv
        rw [hv] at hp
        simp only [Bool.not_false, if_true] at hp
        cases hp
  · rw [Bool.not_eq_true] at hpre
    rw [if_neg (by rw [hpre]; decide)] at hp
    cases hli : LastIndex e (str ":") with
    | none =>
      rw [hli] at hp
      exact key h hp
    | some i =>
      rw [hli] at hp
      simp only at hp
      by_cases hv : validOptionalPort (e.drop i) = true
      · rw [hv] at hp
        simp only [Bool.not_true, Bool.false_eq_true, if_false] at hp
        exact key h hp
      · rw [Bool.not_eq_true] at hv
        rw [hv] at hp
        simp only [Bool.not_false, if_true] at hp
        cases hp

/-- The function `parseHost` undoes `escape` on a byte string, where it accepts the
escaped string. -/
theorem parseHost_escape {x y : GoString} (hx : ∀ c ∈ x, c < 256)
    (hp : parseHost (escape x encodeHost) = .ok y) : y = x := by
  obtain ⟨d, -⟩ := parseHost_decode hp (lt_256_of_lt_128 (escape_lt x encodeHost))
  rw [d, unescapeDecode_escape_host x hx]

/-! ### Root URLs that do not parse -/

theorem parseRest_root_error (url : URL) {e : GoString} {err : ErrKind} (hsch : url.Scheme ≠ [])
    (hp : parseHost e = .error err)
    (hs : ∀ c ∈ e, 32 ≤ c ∧ c ≠ 127 ∧ c ≠ 35 ∧ c ≠ 47 ∧ c ≠ 63 ∧ c ≠ 64) :
    parseRest url (str "//" ++ e ++ str "/") false = .error err := by
  have hp1 : HasPrefix (str "//" ++ e ++ str "/") (str "/") = true := by rfl
  have hp2 : HasPrefix (str "//" ++ e ++ str "/") (str "//") = true := by
    rw [HasPrefix_iff, List.append_assoc]; exact List.prefix_append _ _
  have hat : '@'.toNat ∉ e := fun hm => (hs _ hm).2.2.2.2.2 rfl
  have hhs : '/'.toNat ∉ e := fun hm => (hs _ hm).2.2.2.1 rfl
  have hpa : parseAuthority e = .error err := by
    unfold parseAuthority
    rw [show str "@" = ['@'.toNat] from rfl, LastIndex_single_none hat]
    simp only [hp]
    rfl
  have hdrop : (str "//" ++ e ++ str "/").drop 2 = e ++ '/'.toNat :: [] := by
    rw [List.append_assoc]; rfl
  have hnp : ¬ ((!HasPrefix (str "//" ++ e ++ str "/") (str "/")) = true ∧ url.Scheme ≠ []) := by
    rintro ⟨h, -⟩; rw [hp1] at h; cases h
  have hnp2 : ¬ ((!HasPrefix (str "//" ++ e ++ str "/") (str "/")) = true ∧ false = true) := by
    rintro ⟨h, -⟩; rw [hp1] at h; cases h
  have hnp3 : ¬ ((!HasPrefix (str "//" ++ e ++ str "/") (str "/")) = true ∧
      Contains (Cut (str "//" ++ e ++ str "/") (str "/")).1 (str ":") = true) := by
    rintro ⟨h, -⟩; rw [hp1] at h; cases h
  unfold parseRest
  rw [if_neg hnp, if_neg hnp2, if_neg hnp3, if_pos ⟨Or.inl hsch, hp2⟩, hdrop]
  have hsl : str "/" = ['/'.toNat] := rfl
  have hI := Index_single_append [] hhs
  simp only [hsl, hI, List.take_left', List.drop_left', hpa]

/-- The string `scheme://authority/` does not parse when `parseHost` rejects the
authority. -/
theorem Parse_root_error {sch e : GoString} {err : ErrKind} (hv : validScheme sch = true)
    (hp : parseHost e = .error err)
    (hs : ∀ c ∈ e, 32 ≤ c ∧ c ≠ 127 ∧ c ≠ 35 ∧ c ≠ 47 ∧ c ≠ 63 ∧ c ≠ 64) :
    ∃ err2, Parse (sch ++ str "://" ++ e ++ str "/") = .error err2 := by
  have hsne : ToLower sch ≠ [] := by
    obtain ⟨c, t, rfl, -, -⟩ := (validScheme_iff _).1 hv
    simp [ToLower]
  have hrest : ∀ c ∈ str "//" ++ e ++ str "/", 32 ≤ c ∧ c ≠ 127 ∧ c ≠ 35 ∧ c ≠ 63 := by
    intro c hc
    have hsl : ∀ c ∈ str "//", 32 ≤ c ∧ c ≠ 127 ∧ c ≠ 35 ∧ c ≠ 63 := by decide
    have hsl1 : ∀ c ∈ str "/", 32 ≤ c ∧ c ≠ 127 ∧ c ≠ 35 ∧ c ≠ 63 := by decide
    rcases List.mem_append.1 hc with hc | hc
    · rcases List.mem_append.1 hc with hc | hc
      · exact hsl c hc
      · have := hs c hc; omega
    · exact hsl1 c hc
  have hall : ∀ c ∈ sch ++ ':'.toNat :: (str "//" ++ e ++ str "/"),
      32 ≤ c ∧ c ≠ 127 ∧ c ≠ 35 ∧ c ≠ 63 := by
    intro c hc
    rcases List.mem_append.1 hc with hc | hc
    · have := isSchemeByte_cases (validScheme_bytes hv c hc); omega
    · rcases List.mem_cons.1 hc with rfl | hc
      · decide
      · exact hrest c hc
  have hhash : '#'.toNat ∉ sch ++ ':'.toNat :: (str "//" ++ e ++ str "/") :=
    fun hm => (hall _ hm).2.2.1 rfl
  have hq : '?'.toNat ∉ str "//" ++ e ++ str "/" := fun hm => (hrest _ hm).2.2.2 rfl
  have hctl : stringContainsCTLByte (sch ++ ':'.toNat :: (str "//" ++ e ++ str "/")) = false :=
    stringContainsCTLByte_false (fun c hc => ⟨(hall c hc).1, (hall c hc).2.1⟩)
  have hstar : sch ++ ':'.toNat :: (str "//" ++ e ++ str "/") ≠ str "*" := by
    intro he
    have := congrArg List.length he
    simp [str] at this
    omega
  rw [root_shape, Parse_of_no_hash hhash, parse_of_getScheme hctl hstar (getScheme_scheme _ hv),
    parseQuery_of_no_query hq, parseRest_root_error _ hsne hp hs]
  exact ⟨_, rfl⟩

/-! ### Root URLs that hold a `%` -/

/-- A root URL whose host holds a `%` and which parses is changed by `RootURL`: parsing
it decodes the host once more. -/
theorem RootURL_ne_of_percent {a : GoString} {u v : URL} (hp : Parse a = .ok u)
    (ha : ∀ c ∈ a, c < 256) (hh : '%'.toNat ∈ u.Host)
    (hr : Parse (u.Scheme ++ str "://" ++ u.Host ++ str "/") = .ok v) :
    RootURL (u.Scheme ++ str "://" ++ u.Host ++ str "/") ≠
      u.Scheme ++ str "://" ++ u.Host ++ str "/" := by
  rcases Parse_scheme_valid hp with h0 | ⟨hv, hl⟩
  · exfalso
    rw [h0] at hr
    obtain ⟨err, herr⟩ := Parse_colon_error (str "//" ++ u.Host ++ str "/")
    have e2 : [] ++ str "://" ++ u.Host ++ str "/" =
        ':'.toNat :: (str "//" ++ u.Host ++ str "/") := by
      simp [str]
    rw [e2, herr] at hr
    cases hr
  have hsne : u.Scheme ≠ [] := by
    obtain ⟨c, t, hct, -, -⟩ := (validScheme_iff _).1 hv
    rw [hct]; simp
  obtain ⟨-, -, hhost⟩ := Parse_mem hp
  rcases hhost with h0 | ⟨e, he, hmem⟩
  · rw [h0] at hh; exact absurd hh (List.not_mem_nil _)
  obtain ⟨-, hsafe⟩ := parseHost_decode he (fun c hc => ha c (hmem c hc))
  have hauth : ∀ c ∈ u.Host, 32 ≤ c ∧ c ≠ 127 ∧ c ≠ 35 ∧ c ≠ 47 ∧ c ≠ 63 ∧ c ≠ 64 :=
    fun c hc => (hsafe c hc).2
  have hbytes : ∀ c ∈ u.Host, c < 256 := fun c hc => (hsafe c hc).1
  have hw : HasPrefix (u.Scheme ++ str "://" ++ u.Host ++ str "/") (str "//") = false := by
    rw [List.append_assoc, List.append_assoc]
    exact HasPrefix_slashes_of_scheme hv _
  cases hph : parseHost u.Host with
  | error err =>
    obtain ⟨err2, hE⟩ := Parse_root_error hv hph hauth
    rw [hE] at hr
    cases hr
  | ok h2 =>
    have hP := Parse_root hv hl hph hauth
    obtain ⟨hdec2, hsafe2⟩ := parseHost_decode hph hbytes
    have hlen : h2.length < u.Host.length := by
      rw [hdec2]
      exact (unescapeDecode_length _ _ (le_refl _)).2 hh
    have hA := AbsoluteURL_nil_of_ok hP
    rw [ResolveReference_root, String_root _ _ hsne] at hA
    cases hph3 : parseHost (escape h2 encodeHost) with
    | error err =>
      obtain ⟨err2, hE⟩ := Parse_root_error hv hph3 (escape_host_authority h2)
      rw [RootURL_of_reparse_error hw hA hE]
      intro heq
      rw [heq, hP] at hE
      cases hE
    | ok h3 =>
      have hP3 := Parse_root hv hl hph3 (escape_host_authority h2)
      rw [RootURL_of_reparse_ok hw hA hP3]
      have h32 : h3 = h2 := parseHost_escape (fun c hc => (hsafe2 c hc).1) hph3
      show u.Scheme ++ str "://" ++ h3 ++ str "/" ≠ u.Scheme ++ str "://" ++ u.Host ++ str "/"
      intro heq
      have := congrArg List.length heq
      simp only [List.length_append] at this
      rw [h32] at this
      omega

/-! ### The path that `resolvePath` returns -/

/-- Claim C2, counterexample: `HTTP://example.com/feed` is absolute for `IsAbsoluteURL`, but
`AbsoluteURL` returns it with the scheme in lower case, not byte for byte. -/
theorem AbsoluteURL_absolute_input_changed :
    IsAbsoluteURL (str "HTTP://example.com/feed") = true ∧
    AbsoluteURL (str "https://example.org/") (str "HTTP://example.com/feed") =
      (str "http://example.com/feed", none) ∧
    str "http://example.com/feed" ≠ str "HTTP://example.com/feed" := by decide

/-- Claim C2, as amended: for every input with `IsAbsoluteURL input` true and every base,
`AbsoluteURL` succeeds without looking at the base and returns the input unchanged when the
input starts with `https://` or `http://`, and the string form of the parsed input
otherwise. -/
theorem AbsoluteURL_of_absolute_input (baseURL input : GoString)
    (h : IsAbsoluteURL input = true) :
    ∃ u, Parse input = .ok u ∧
      AbsoluteURL baseURL input =
        (if HasPrefix input (str "https://") = true ∨ HasPrefix input (str "http://") = true
          then input else u.String, none) := by
  obtain ⟨u, hu, hs⟩ := (Parse_ok_iff_IsAbs input).1 h
  refine ⟨u, hu, ?_⟩
  have h1 : HasPrefix input (str "//") = false := by
    by_contra hc
    simp only [Bool.not_eq_false] at hc
    obtain ⟨t, rfl⟩ := HasPrefix_cons_of hc
    exact hs (Parse_scheme_of_slash hu)
  unfold AbsoluteURL
  by_cases h2 : HasPrefix input (str "https://") = true ∨ HasPrefix input (str "http://") = true
  · have hne : input ≠ [] := by
      rcases h2 with h2 | h2 <;> exact HasPrefix_ne_nil h2
    rw [GetAbsoluteURL_of_http h1 h2, if_pos h2]
    simp only [if_pos hne]
  · rw [if_neg h2]
    simp only [not_or, Bool.not_eq_true] at h2
    have hab : u.IsAbs = true := by simpa [URL.IsAbs] using hs
    rw [GetAbsoluteURL_of_other h1 h2.1 h2.2, hu]
    simp only [hab, if_true, if_pos (String_ne_nil u hs)]

/-- Claim C2, witness: the input `https://example.com/feed` against an unparseable base. -/
theorem AbsoluteURL_of_absolute_input_witness :
    IsAbsoluteURL (str "https://example.com/feed") = true ∧
    ∃ u, Parse (str "https://example.com/feed") = .ok u ∧
      AbsoluteURL (str "%zz") (str "https://example.com/feed") =
        (if HasPrefix (str "https://example.com/feed") (str "https://") = true ∨
            HasPrefix (str "https://example.com/feed") (str "http://") = true
          then str "https://example.com/feed" else u.String, none) :=
  ⟨by decide, AbsoluteURL_of_absolute_input (str "%zz") (str "https://example.com/feed")
    (by decide)⟩

/-- Claim C3, counterexample: on `ftp://example.com/feed` `GetAbsoluteURL` returns no error
and populates both results, the absolute string and the parsed URL. -/
theorem GetAbsoluteURL_both_populated :
    (GetAbsoluteURL (str "ftp://example.com/feed")).2.2 = none ∧
    (GetAbsoluteURL (str "ftp://example.com/feed")).1 ≠ [] ∧
    (GetAbsoluteURL (str "ftp://example.com/feed")).2.1 ≠ none := by decide

/-- Claim C3, as amended: for every input on which `GetAbsoluteURL` returns no error, at
least one of its two results is populated (the absolute string is non-empty or the parsed
URL is non-nil), and both are populated exactly when the input starts with none of `//`,
`https://`, `http://` and parses as a URL with a non-empty scheme. -/
theorem GetAbsoluteURL_results_populated (input : GoString)
    (h : (GetAbsoluteURL input).2.2 = none) :
    ((GetAbsoluteURL input).1 ≠ [] ∨ (GetAbsoluteURL input).2.1 ≠ none) ∧
    (((GetAbsoluteURL input).1 ≠ [] ∧ (GetAbsoluteURL input).2.1 ≠ none) ↔
      (HasPrefix input (str "//") = false ∧ HasPrefix input (str "https://") = false ∧
        HasPrefix input (str "http://") = false ∧
        ∃ u, Parse input = .ok u ∧ u.Scheme ≠ [])) := by
  cases h1 : HasPrefix input (str "//") with
  | true =>
    rw [GetAbsoluteURL_of_slashes h1]
    simp [str]
  | false =>
    by_cases h23 : HasPrefix input (str "https://") = true ∨ HasPrefix input (str "http://") = true
    · rw [GetAbsoluteURL_of_http h1 h23]
      have hne : input ≠ [] := by
        rcases h23 with h2 | h2 <;> exact HasPrefix_ne_nil h2
      have : ¬ (HasPrefix input (str "https://") = false ∧
          HasPrefix input (str "http://") = false ∧
          ∃ u, Parse input = .ok u ∧ u.Scheme ≠ []) := by
        rintro ⟨a, b, -⟩
        rcases h23 with h2 | h2 <;> simp_all
      simp only [ne_eq, hne, not_false_eq_true, not_true_eq_false, or_false, and_false, true_and,
        false_iff]
      exact this
    · simp only [not_or, Bool.not_eq_true] at h23
      obtain ⟨h2, h3⟩ := h23
      rw [GetAbsoluteURL_of_other h1 h2 h3] at h ⊢
      cases hp : Parse input with
      | error e => rw [hp] at h; simp at h
      | ok u =>
        simp only [hp] at h ⊢
        by_cases hs : u.IsAbs = true
        · have hs2 : u.Scheme ≠ [] := by simpa [URL.IsAbs] using hs
          simp [hs, hs2, String_ne_nil u hs2, h2, h3]
        · have hs2 : u.Scheme = [] := by simpa [URL.IsAbs] using hs
          simp [hs, hs2]

/-- Claim C3, witness: the relative input `b/c`, for which only the parsed URL is
populated. -/
theorem GetAbsoluteURL_results_populated_witness :
    (GetAbsoluteURL (str "b/c")).2.2 = none ∧
    ((GetAbsoluteURL (str "b/c")).1 ≠ [] ∨ (GetAbsoluteURL (str "b/c")).2.1 ≠ none) ∧
    (((GetAbsoluteURL (str "b/c")).1 ≠ [] ∧ (GetAbsoluteURL (str "b/c")).2.1 ≠ none) ↔
      (HasPrefix (str "b/c") (str "//") = false ∧ HasPrefix (str "b/c") (str "https://") = false ∧
        HasPrefix (str "b/c") (str "http://") = false ∧
        ∃ u, Parse (str "b/c") = .ok u ∧ u.Scheme ≠ [])) :=
  ⟨by decide, GetAbsoluteURL_results_populated (str "b/c") (by decide)⟩

/-- Claim C4, counterexample: `https:///path` parses with the scheme `https` and an empty
host, and `IsAbsoluteURL` is true on it. -/
theorem IsAbsoluteURL_without_host :
    IsAbsoluteURL (str "https:///path") = true ∧
    Parse (str "https:///path") = .ok { Scheme := str "https", Path := str "/path" } ∧
    ¬ (IsAbsoluteURL (str "https:///path") = true ↔
      ∃ u, Parse (str "https:///path") = .ok u ∧ u.Scheme ≠ [] ∧ u.Host ≠ []) := by
  have hp : Parse (str "https:///path") = .ok { Scheme := str "https", Path := str "/path" } :=
    rfl
  refine ⟨by decide, hp, ?_⟩
  rw [hp]
  simp
  decide

/-- Claim C4, as amended: for every input string, `IsAbsoluteURL input` is true if and only
if the input parses successfully as a URL whose scheme is non-empty (the host may be empty);
it never fails, and is false whenever parsing fails. -/
theorem IsAbsoluteURL_iff_scheme (input : GoString) :
    (IsAbsoluteURL input = true ↔ ∃ u, Parse input = .ok u ∧ u.Scheme ≠ []) ∧
    ((¬ ∃ u, Parse input = .ok u) ↔
      (∃ err, Parse input = .error err) ∧ IsAbsoluteURL input = false) := by
  refine ⟨Parse_ok_iff_IsAbs input, ?_⟩
  unfold IsAbsoluteURL
  cases h : Parse input with
  | error e => simp
  | ok u => simp

/-- Claim C5, counterexample: `http://exa mple.com/feed` does not parse as a URL (a space in
the host), yet `AbsoluteURL` returns it as a successful result. -/
theorem AbsoluteURL_unparseable_returned :
    (∃ err, Parse (str "http://exa mple.com/feed") = .error err) ∧
    AbsoluteURL (str "https://example.org/") (str "http://exa mple.com/feed") =
      (str "http://exa mple.com/feed", none) := ⟨⟨_, rfl⟩, by decide⟩

/-- Claim C5, as amended: for every input that is not parseable as a URL and starts with none
of `//`, `https://`, `http://`, and for every base, `AbsoluteURL` returns the invalid-input
error (wrapping the parse error) and an empty string. -/
theorem AbsoluteURL_unparseable_input (baseURL input : GoString) (err : Error)
    (hp : Parse input = .error err)
    (h1 : HasPrefix input (str "//") = false) (h2 : HasPrefix input (str "https://") = false)
    (h3 : HasPrefix input (str "http://") = false) :
    AbsoluteURL baseURL input = ([], some (.unableToParseInputURL err)) :=
  AbsoluteURL_of_parse_error h1 h2 h3 hp

/-- Claim C5, witness: the input `%zz` against the base `https://example.org/`. -/
theorem AbsoluteURL_unparseable_input_witness :
    Parse (str "%zz") = .error ⟨str "parse", str "%zz", .EscapeError (str "%zz")⟩ ∧
    HasPrefix (str "%zz") (str "//") = false ∧ HasPrefix (str "%zz") (str "https://") = false ∧
    HasPrefix (str "%zz") (str "http://") = false ∧
    AbsoluteURL (str "https://example.org/") (str "%zz") =
      ([], some (.unableToParseInputURL ⟨str "parse", str "%zz", .EscapeError (str "%zz")⟩)) :=
  ⟨rfl, by decide, by decide, by decide,
    AbsoluteURL_unparseable_input _ _ _ rfl (by decide) (by decide) (by decide)⟩

/-- Claim C6, counterexample: `http://example.com:port/` starts with `http://`, so
`GetAbsoluteURL` returns it unchanged, but it does not parse (invalid port) and
`IsAbsoluteURL` is false on it. -/
theorem IsAbsoluteURL_false_on_http_url :
    HasPrefix (str "http://example.com:port/") (str "http://") = true ∧
    GetAbsoluteURL (str "http://example.com:port/") =
      (str "http://example.com:port/", none, none) ∧
    IsAbsoluteURL (str "http://example.com:port/") = false := by decide

/-- Claim C6, as amended: for every string `u` that starts with `http://` or `https://` and
parses as a URL, `IsAbsoluteURL u` is true. -/
theorem IsAbsoluteURL_of_http_url (u : GoString)
    (h : HasPrefix u (str "https://") = true ∨ HasPrefix u (str "http://") = true)
    (hp : ∃ v, Parse u = .ok v) : IsAbsoluteURL u = true := by
  obtain ⟨v, hv⟩ := hp
  rw [Parse_ok_iff_IsAbs]
  refine ⟨v, hv, ?_⟩
  rcases Parse_scheme_of_http h hv with hs | hs <;> rw [hs] <;> decide

/-- Claim C6, witness: the string `http://example.com/feed`. -/
theorem IsAbsoluteURL_of_http_url_witness :
    (HasPrefix (str "http://example.com/feed") (str "https://") = true ∨
      HasPrefix (str "http://example.com/feed") (str "http://") = true) ∧
    (∃ v, Parse (str "http://example.com/feed") = .ok v) ∧
    IsAbsoluteURL (str "http://example.com/feed") = true :=
  ⟨Or.inr (by decide), ⟨_, rfl⟩,
    IsAbsoluteURL_of_http_url _ (Or.inr (by decide)) ⟨_, rfl⟩⟩

/-- Claim C7: for every input string that starts with `//`, `GetAbsoluteURL` returns the
absolute string `https:` followed by the input, a nil parsed URL and no error; the input is
not parsed, so this holds whatever follows the two slashes. -/
theorem GetAbsoluteURL_protocol_relative (input : GoString)
    (h : HasPrefix input (str "//") = true) :
    GetAbsoluteURL input = (str "https:" ++ input, none, none) :=
  GetAbsoluteURL_of_slashes h

/-- Claim C7, witness: `//cdn.example.com/x.png` gives `https://cdn.example.com/x.png`. -/
theorem GetAbsoluteURL_protocol_relative_witness :
    HasPrefix (str "//cdn.example.com/x.png") (str "//") = true ∧
    GetAbsoluteURL (str "//cdn.example.com/x.png") =
      (str "https://cdn.example.com/x.png", none, none) :=
  ⟨by decide, GetAbsoluteURL_protocol_relative _ (by decide)⟩

/-- Claim C10: `JoinBaseURLAndPath` checks emptiness before anything else: with an empty base
it fails with the empty-base error for every path, and with an empty path it fails with the
empty-path error for every non-empty base (parseable or not); the returned string is empty
in both cases. -/
theorem JoinBaseURLAndPath_empty_arguments :
    (∀ path : GoString, JoinBaseURLAndPath [] path = ([], some Err.emptyBaseURL)) ∧
    (∀ baseURL : GoString, baseURL ≠ [] →
      JoinBaseURLAndPath baseURL [] = ([], some Err.emptyPath)) := by
  constructor
  · intro path; simp [JoinBaseURLAndPath]
  · intro baseURL h; simp [JoinBaseURLAndPath, h]

/-- Claim C10, witness: the unparseable base `http://%zz` with an empty path. -/
theorem JoinBaseURLAndPath_empty_arguments_witness :
    str "http://%zz" ≠ [] ∧ (∃ err, Parse (str "http://%zz") = .error err) ∧
    JoinBaseURLAndPath (str "http://%zz") [] = ([], some Err.emptyPath) :=
  ⟨by decide, ⟨_, rfl⟩, JoinBaseURLAndPath_empty_arguments.2 (str "http://%zz") (by decide)⟩

/-- Claim C11: for every base `https://example.com` followed by zero or more segments,
each preceded by `/`, and every path of one or more segments joined by `/` (segments being
non-empty strings of ASCII letters and digits), `JoinBaseURLAndPath` returns the base,
`/` and the path, and the result is the same when the base is given with a trailing `/`
and when the path is given with a leading `/`; the base `https://example.com/api` with
`v1/items` gives `https://example.com/api/v1/items`. -/
theorem JoinBaseURLAndPath_segments :
    (∀ (bsegs psegs : List GoString) (tb lp : Bool), psegs ≠ [] →
      (∀ s ∈ bsegs, isSegment s = true) → (∀ s ∈ psegs, isSegment s = true) →
      JoinBaseURLAndPath
          (str "https://example.com" ++ slashed bsegs ++ (if tb = true then str "/" else []))
          ((if lp = true then str "/" else []) ++ joined psegs) =
        (str "https://example.com" ++ slashed bsegs ++ str "/" ++ joined psegs, none)) ∧
    JoinBaseURLAndPath (str "https://example.com/api") (str "v1/items") =
      (str "https://example.com/api/v1/items", none) := by
  refine ⟨?_, by decide⟩
  intro bsegs psegs tb lp hp0 hb hp
  have h1 : ∀ c ∈ (if tb = true then str "/" else []), c = '/'.toNat := by
    cases tb <;> simp [str]
  have h2 : ∀ c ∈ (if lp = true then str "/" else []), c = '/'.toNat := by
    cases lp <;> simp [str]
  have htail : slashed bsegs ++ (if tb = true then str "/" else []) = [] ∨
      ∃ t, slashed bsegs ++ (if tb = true then str "/" else []) = '/'.toNat :: t := by
    rcases slashed_head bsegs with e | ⟨y, e⟩
    · rw [e]
      cases tb
      · exact Or.inl rfl
      · exact Or.inr ⟨[], rfl⟩
    · exact Or.inr ⟨y ++ _, by rw [e]; rfl⟩
  have hplain : ∀ c ∈ slashed bsegs ++ (if tb = true then str "/" else []),
      isPlainByte c = true := plain_append (slashed_plain bsegs hb) (slashes_plain h1)
  have hparse := @Parse_http_url (str "https") (str "example.com") _
    (Or.inl rfl) (by decide) (by decide) hplain htail
  have ebase : str "https://example.com" ++ slashed bsegs ++ (if tb = true then str "/" else []) =
      str "https" ++ str "://" ++ str "example.com" ++
        (slashed bsegs ++ (if tb = true then str "/" else [])) := by
    simp [str]
  obtain ⟨c, t, hjc, hca⟩ := joined_head psegs hp0 hp
  have hpne : (if lp = true then str "/" else []) ++ joined psegs ≠ [] := by
    rw [hjc]; simp
  have hres : ∀ x ∈ (if slashed bsegs ++ (if tb = true then str "/" else []) = []
      then joined psegs else slashed (bsegs ++ psegs)), isPlainByte x = true := by
    by_cases hP : slashed bsegs ++ (if tb = true then str "/" else []) = []
    · rw [if_pos hP]
      exact fun x hx => isPlainByte_of_isPathByte (joined_path_bytes psegs hp x hx)
    · rw [if_neg hP]
      apply slashed_plain
      intro s hs
      rcases List.mem_append.1 hs with hs | hs
      · exact hb s hs
      · exact hp s hs
  have hs1 : str "https" ≠ [] := by decide
  have hh1 : ∀ c ∈ str "example.com", isPlainByte c = true := by decide
  have hh2 : '/'.toNat ∉ str "example.com" := by decide
  have hh3 : str "example.com" ≠ [] := by decide
  have hvalid : unescapeCheck encodePath ((if lp = true then str "/" else []) ++ joined psegs) =
      none := unescapeCheck_of_plain (plain_append (slashes_plain h2)
    fun x hx => isPlainByte_of_isPathByte (joined_path_bytes psegs hp x hx))
  rw [ebase, JoinBaseURLAndPath_of_valid (by simp [str]) hpne hparse (joinedPath_valid _ _ hvalid)]
  rw [JoinPath_segments _ _ bsegs psegs _ _ hb hp hp0 h1 h2,
    String_http_url _ hs1 rfl rfl hh1 hh2 hh3 hres rfl rfl]
  simp only [Bool.false_eq_true, false_or, ne_eq, not_true_eq_false, if_false, List.append_nil]
  by_cases hP : slashed bsegs ++ (if tb = true then str "/" else []) = []
  · rw [if_pos hP]
    have hbn : bsegs = [] := by
      cases bsegs with
      | nil => rfl
      | cons s rest =>
        rw [slashed_cons] at hP
        cases hP
    subst hbn
    rw [hjc, if_pos ⟨List.cons_ne_nil _ _, fun h => isAlnum_not_slash hca (Option.some.inj h)⟩]
    simp [str, slashed]
  · rw [if_neg hP, slashed_append, slashed_eq_joined psegs hp0]
    rcases slashed_head bsegs with e | ⟨y, e⟩
    · rw [e]
      simp [str]
    · rw [e]
      simp [str]

/-- Claim C11, witness: the base `https://example.com/api/v2/` and the path
`/feeds/42/entries`. -/
theorem JoinBaseURLAndPath_segments_witness :
    JoinBaseURLAndPath
        (str "https://example.com" ++ slashed [str "api", str "v2"] ++
          (if true = true then str "/" else []))
        ((if true = true then str "/" else []) ++ joined [str "feeds", str "42", str "entries"]) =
      (str "https://example.com" ++ slashed [str "api", str "v2"] ++ str "/" ++
        joined [str "feeds", str "42", str "entries"], none) :=
  JoinBaseURLAndPath_segments.1 [str "api", str "v2"] [str "feeds", str "42", str "entries"]
    true true (by decide) (by decide) (by decide)

/-- Claim C12: for every scheme among `http` and `https`, every non-empty host of ASCII
letters, digits, `.` and `-`, and every path and query of ASCII letters, digits and `/`,
`RootURL` of scheme, `://`, host, `/`, path, `?`, query is scheme, `://`, host, `/`: path
and query are dropped and the host is kept verbatim; `https://example.com/path?q=1`
gives `https://example.com/`. -/
theorem RootURL_drops_path_and_query :
    (∀ scheme host path query : GoString,
      (scheme = str "http" ∨ scheme = str "https") → host ≠ [] →
      (∀ c ∈ host, isHostByte c = true) → (∀ c ∈ path, isPathByte c = true) →
      (∀ c ∈ query, isPathByte c = true) →
      RootURL (scheme ++ str "://" ++ host ++ str "/" ++ path ++ str "?" ++ query) =
        scheme ++ str "://" ++ host ++ str "/") ∧
    RootURL (str "https://example.com/path?q=1") = str "https://example.com/" := by
  refine ⟨?_, by decide⟩
  intro scheme host path query hs hne hh hp hq
  have hpl : ∀ c ∈ path, isPlainByte c = true := fun c hc => isPlainByte_of_isPathByte (hp c hc)
  have hql : ∀ c ∈ query, isPlainByte c = true := fun c hc => isPlainByte_of_isPathByte (hq c hc)
  have hparse := @Parse_http_url_query scheme host
    ('/'.toNat :: path) query hs.symm (host_plain hh).1 (host_plain hh).2
    (plain_cons_slash hpl) (Or.inr ⟨path, rfl⟩) hql
  have e : scheme ++ str "://" ++ host ++ str "/" ++ path ++ str "?" ++ query =
      scheme ++ str "://" ++ host ++ '/'.toNat :: path ++ str "?" ++ query := by
    simp [str]
  rw [e]
  refine RootURL_of_http_parse hs.symm (host_plain hh).1 (host_plain hh).2 hne hpl
    (isPathByte_not_dot hp) hql ?_ hparse
  simp only [List.append_assoc]
  exact HasPrefix_slashes_of_http hs.symm _

/-- Claim C12, witness: `http://feeds.example-site.org/a/b/c?x/1` has the root
`http://feeds.example-site.org/`. -/
theorem RootURL_drops_path_and_query_witness :
    RootURL (str "http" ++ str "://" ++ str "feeds.example-site.org" ++ str "/" ++ str "a/b/c" ++
      str "?" ++ str "x/1") = str "http" ++ str "://" ++ str "feeds.example-site.org" ++ str "/" :=
  RootURL_drops_path_and_query.1 (str "http") (str "feeds.example-site.org") (str "a/b/c")
    (str "x/1") (Or.inl rfl) (by decide) (by decide) (by decide) (by decide)

/-- Claim C13: `RootURL` never fails and degrades to an already-computed string: for every
input that does not start with `//` and does not parse as a URL it returns the input
unchanged, and for every input `//` followed by `rest` such that `https://` followed by
`rest` does not parse it returns `https://` followed by `rest`. -/
theorem RootURL_fallback :
    (∀ input : GoString, HasPrefix input (str "//") = false →
      (∃ err, Parse input = .error err) → RootURL input = input) ∧
    (∀ rest : GoString, (∃ err, Parse (str "https://" ++ rest) = .error err) →
      RootURL (str "//" ++ rest) = str "https://" ++ rest) := by
  constructor
  · rintro input h ⟨err, hp⟩
    exact RootURL_of_parse_error h hp
  · rintro rest ⟨err, hp⟩
    rw [RootURL_of_slashes]
    exact RootURL_of_parse_error rfl hp

/-- Claim C13, witness: the inputs `http://exa mple.com/feed` and `//exa mple.com/feed`,
neither of which parses. -/
theorem RootURL_fallback_witness :
    RootURL (str "http://exa mple.com/feed") = str "http://exa mple.com/feed" ∧
    RootURL (str "//" ++ str "exa mple.com/feed") = str "https://" ++ str "exa mple.com/feed" :=
  ⟨RootURL_fallback.1 (str "http://exa mple.com/feed") (by decide) ⟨_, rfl⟩,
    RootURL_fallback.2 (str "exa mple.com/feed") ⟨_, rfl⟩⟩

/-- Claim C14: for every base `https://example.com/` followed by `d` and `/`, and every
relative reference `r`, where `d` and `r` are each one or more segments joined by `/`
and every segment is a non-empty string of ASCII letters and digits, `AbsoluteURL base r`
succeeds and returns the base followed by `r`; the base `https://example.com/a/` with
`b/c` gives `https://example.com/a/b/c`. -/
theorem AbsoluteURL_appends_relative :
    (∀ dsegs rsegs : List GoString, dsegs ≠ [] → rsegs ≠ [] →
      (∀ s ∈ dsegs, isSegment s = true) → (∀ s ∈ rsegs, isSegment s = true) →
      AbsoluteURL (str "https://example.com/" ++ joined dsegs ++ str "/") (joined rsegs) =
        (str "https://example.com/" ++ joined dsegs ++ str "/" ++ joined rsegs, none)) ∧
    AbsoluteURL (str "https://example.com/a/") (str "b/c") =
      (str "https://example.com/a/b/c", none) := by
  refine ⟨?_, by decide⟩
  intro dsegs rsegs hd0 hr0 hd hr
  have hdp := joined_path_bytes dsegs hd
  have hrp := joined_path_bytes rsegs hr
  obtain ⟨c, t, hrc, hca⟩ := joined_head rsegs hr0 hr
  have hres := resolvePath_append_plain (joined dsegs) (joined rsegs) (isPathByte_not_dot hdp)
    (isPathByte_not_dot hrp) (by rw [hrc]; exact List.cons_ne_nil _ _)
    (by rw [hrc]; intro h; exact isAlnum_not_slash hca (Option.some.inj h))
  have hmain := @AbsoluteURL_relative_http (str "https") (str "example.com")
    ('/'.toNat :: joined dsegs ++ str "/") (joined rsegs) (Or.inl rfl) (by decide) (by decide)
    (by decide)
    (plain_append (plain_cons_slash fun c hc => isPlainByte_of_isPathByte (hdp c hc)) (by decide))
    (Or.inr ⟨_, rfl⟩) (fun c hc => isPlainByte_of_isPathByte (hrp c hc))
    (by rw [hrc]; exact List.cons_ne_nil _ _)
    (by rw [hrc]; intro h; exact isAlnum_not_slash hca (Option.some.inj h))
    (joined dsegs ++ str "/" ++ joined rsegs) (by rw [hres]; simp)
    (plain_append (plain_append (fun c hc => isPlainByte_of_isPathByte (hdp c hc)) (by decide))
      fun c hc => isPlainByte_of_isPathByte (hrp c hc))
  have e1 : str "https://example.com/" ++ joined dsegs ++ str "/" =
      str "https" ++ str "://" ++ str "example.com" ++ ('/'.toNat :: joined dsegs ++ str "/") := by
    simp [str]
  have e2 : str "https://example.com/" ++ joined dsegs ++ str "/" ++ joined rsegs =
      str "https" ++ str "://" ++ str "example.com" ++
        '/'.toNat :: (joined dsegs ++ str "/" ++ joined rsegs) := by
    simp [str]
  rw [e2, e1]
  exact hmain

/-- Claim C14, witness: the base `https://example.com/feeds/2024/` and the reference
`posts/1/atom`. -/
theorem AbsoluteURL_appends_relative_witness :
    AbsoluteURL (str "https://example.com/" ++ joined [str "feeds", str "2024"] ++ str "/")
        (joined [str "posts", str "1", str "atom"]) =
      (str "https://example.com/" ++ joined [str "feeds", str "2024"] ++ str "/" ++
        joined [str "posts", str "1", str "atom"], none) :=
  AbsoluteURL_appends_relative.1 [str "feeds", str "2024"] [str "posts", str "1", str "atom"]
    (by decide) (by decide) (by decide) (by decide)

/-- Claim C15: dot-segment removal: for all segments `a`, `b`, `c` that are non-empty
strings of ASCII letters and digits, `AbsoluteURL` of the base `https://example.com/`
followed by `a`, `/`, `b` and of the reference `../` followed by `c` succeeds and returns
`https://example.com/` followed by `c`, a string in which `..` does not occur; the base
`https://example.com/a/b` with `../c` gives `https://example.com/c`. -/
theorem AbsoluteURL_removes_dot_dot :
    (∀ a b c : GoString, isSegment a = true → isSegment b = true → isSegment c = true →
      AbsoluteURL (str "https://example.com/" ++ a ++ str "/" ++ b) (str "../" ++ c) =
        (str "https://example.com/" ++ c, none) ∧
      Contains (AbsoluteURL (str "https://example.com/" ++ a ++ str "/" ++ b)
        (str "../" ++ c)).1 (str "..") = false) ∧
    AbsoluteURL (str "https://example.com/a/b") (str "../c") =
      (str "https://example.com/c", none) := by
  refine ⟨?_, by decide⟩
  intro a b c ha hb hc
  have hres := resolvePath_dotdot a b c (segment_not_mem ha).1 (segment_not_mem ha).2
    (segment_not_mem hb).1 (segment_not_mem hc).2
  have hmain := @AbsoluteURL_relative_http (str "https") (str "example.com")
    ('/'.toNat :: a ++ '/'.toNat :: b) (str "../" ++ c)
    (Or.inl rfl) (by decide) (by decide) (by decide)
    (plain_append (plain_cons_slash (segment_plain ha)) (plain_cons_slash (segment_plain hb)))
    (Or.inr ⟨_, rfl⟩) (plain_append (by decide) (segment_plain hc))
    (by show '.'.toNat :: '.'.toNat :: '/'.toNat :: c ≠ []; exact List.cons_ne_nil _ _)
    (by show some '.'.toNat ≠ some '/'.toNat; decide) c hres (segment_plain hc)
  have e1 : str "https://example.com/" ++ a ++ str "/" ++ b =
      str "https" ++ str "://" ++ str "example.com" ++ ('/'.toNat :: a ++ '/'.toNat :: b) := by
    simp [str]
  have e2 : str "https" ++ str "://" ++ str "example.com" ++ '/'.toNat :: c =
      str "https://example.com/" ++ c := by
    simp [str]
  rw [e1, hmain, e2]
  refine ⟨rfl, ?_⟩
  have hi := Index_dots_none (segment_not_mem hc).2
  have hi2 : Index c [46, 46] = none := hi
  simp [Contains, Index, str, List.isPrefixOf, hi2]

/-- Claim C15, witness: the base `https://example.com/blog/2024` and the reference
`../feed`. -/
theorem AbsoluteURL_removes_dot_dot_witness :
    AbsoluteURL (str "https://example.com/" ++ str "blog" ++ str "/" ++ str "2024")
        (str "../" ++ str "feed") = (str "https://example.com/" ++ str "feed", none) :=
  (AbsoluteURL_removes_dot_dot.1 (str "blog") (str "2024") (str "feed")
    (by decide) (by decide) (by decide)).1

/-- Claim C16: for every input string, `DomainWithoutWWW input` is `Domain input` with its
first four bytes removed when `Domain input` starts with the lower-case literal `www.`
(what remains is what follows `www.`), and `Domain input` unchanged otherwise; hosts that
start with `wwww.`, `xwww.`, `WWW.` or `www` without the dot are not stripped. -/
theorem DomainWithoutWWW_spec :
    (∀ input : GoString, DomainWithoutWWW input =
      if HasPrefix (Domain input) (str "www.") = true then (Domain input).drop 4
      else Domain input) ∧
    (∀ input t : GoString, Domain input = str "www." ++ t → DomainWithoutWWW input = t) ∧
    DomainWithoutWWW (str "https://www.example.com") = str "example.com" ∧
    DomainWithoutWWW (str "https://wwwexample.com") = str "wwwexample.com" ∧
    DomainWithoutWWW (str "https://wwww.example.com") = str "wwww.example.com" ∧
    DomainWithoutWWW (str "https://xwww.example.com") = str "xwww.example.com" ∧
    DomainWithoutWWW (str "https://WWW.example.com") = str "WWW.example.com" := by
  refine ⟨fun input => rfl, ?_, by decide, by decide, by decide, by decide, by decide⟩
  intro input t h
  unfold DomainWithoutWWW TrimPrefix
  rw [h, if_pos ((HasPrefix_iff _ _).2 (List.prefix_append _ _))]
  exact List.drop_left' rfl

/-- Claim C16, witness: an input whose domain is `www.example.com`. -/
theorem DomainWithoutWWW_spec_witness :
    Domain (str "https://www.example.com/feed") = str "www." ++ str "example.com" ∧
    DomainWithoutWWW (str "https://www.example.com/feed") = str "example.com" :=
  ⟨by decide, DomainWithoutWWW_spec.2.1 (str "https://www.example.com/feed") (str "example.com")
    (by decide)⟩

/-- Claim C17: for every input string, `IsHTTPS input` is true if and only if the input
parses as a URL whose scheme equals `https` compared case-insensitively; for every case
variant `s` of `https`, `IsHTTPS` is true on `s` followed by `://example.com`; and `IsHTTPS`
is false for every input that fails to parse. -/
theorem IsHTTPS_spec :
    (∀ input : GoString, IsHTTPS input = true ↔
      ∃ u, Parse input = .ok u ∧ EqualFold u.Scheme (str "https") = true) ∧
    (∀ s : GoString, EqualFold s (str "https") = true →
      IsHTTPS (s ++ str "://example.com") = true) ∧
    (∀ (input : GoString) (err : Error), Parse input = .error err → IsHTTPS input = false) := by
  refine ⟨?_, ?_, ?_⟩
  · intro input
    unfold IsHTTPS
    cases Parse input with
    | error e => simp
    | ok u => simp
  · intro s hs
    unfold IsHTTPS
    rw [Parse_https_variant ((EqualFold_https_iff s).1 hs)]
    rfl
  · intro input err h
    unfold IsHTTPS
    rw [h]

/-- Claim C17, witness: the case variant `HttpS`, and an input that does not parse. -/
theorem IsHTTPS_spec_witness :
    IsHTTPS (str "HttpS" ++ str "://example.com") = true ∧
    IsHTTPS (str "https://exa mple.com") = false :=
  ⟨IsHTTPS_spec.2.1 (str "HttpS") (by decide), IsHTTPS_spec.2.2 (str "https://exa mple.com") _ rfl⟩

/-- Claim C18: for every input string, `Domain input` is the input itself, unchanged, when
the input fails to parse as a URL, and otherwise the host component of the parsed URL,
including any port; `Domain` of `https://example.com:8080/x` is `example.com:8080`. -/
theorem Domain_spec :
    (∀ (input : GoString) (err : Error), Parse input = .error err → Domain input = input) ∧
    (∀ (input : GoString) (u : URL), Parse input = .ok u → Domain input = u.Host) ∧
    Domain (str "https://example.com:8080/x") = str "example.com:8080" := by
  refine ⟨?_, ?_, by decide⟩
  · intro input err h
    unfold Domain
    rw [h]
  · intro input u h
    unfold Domain
    rw [h]

/-- Claim C18, witness: `%zz`, which does not parse, and `https://example.com:8080/x`. -/
theorem Domain_spec_witness :
    Domain (str "%zz") = str "%zz" ∧
    Domain (str "https://example.com:8080/x") =
      (URL.Host { Scheme := str "https", Host := str "example.com:8080", Path := str "/x" }) :=
  ⟨Domain_spec.1 (str "%zz") _ rfl,
    Domain_spec.2.1 (str "https://example.com:8080/x")
      { Scheme := str "https", Host := str "example.com:8080", Path := str "/x" } rfl⟩

/-- Claim C19, counterexample: the "unable to join" branch is reached.  The base
`https://example.com` is non-empty and parses, the path `%zz` is non-empty, and
`JoinBaseURLAndPath` returns the "unable to join" error: `url.JoinPath` fails on the joined
path `%zz`, whose `%` is not followed by two hexadecimal digits. -/
theorem JoinBaseURLAndPath_unable_to_join :
    Parse (str "https://example.com") =
      .ok { Scheme := str "https", Host := str "example.com" } ∧
    URL.joinedPath { Scheme := str "https", Host := str "example.com" } [str "%zz"] =
      str "%zz" ∧
    JoinBaseURLAndPath (str "https://example.com") (str "%zz") =
      ([], some (.unableToJoin (str "https://example.com") (str "%zz")
        (.setPath (.EscapeError (str "%zz"))))) :=
  ⟨rfl, by decide, by decide⟩

/-- Claim C19, as amended: `JoinBaseURLAndPath` returns no error if and only if the base is
non-empty, the path is non-empty, the base parses as a URL and the path joined by
`url.JoinPath` is validly percent-encoded (every `%` is followed by two hexadecimal
digits); it returns the "unable to join" error if and only if the base is non-empty and
parses, the path is non-empty and the joined path is not validly percent-encoded; and it
succeeds for every non-empty base that parses and every non-empty path that is itself
validly percent-encoded. -/
theorem JoinBaseURLAndPath_error_iff (baseURL path : GoString) :
    ((JoinBaseURLAndPath baseURL path).2 = none ↔
      baseURL ≠ [] ∧ path ≠ [] ∧
        ∃ u, Parse baseURL = .ok u ∧ validEscapes (u.joinedPath [path]) = true) ∧
    ((∃ e, JoinBaseURLAndPath baseURL path = ([], some (.unableToJoin baseURL path e))) ↔
      baseURL ≠ [] ∧ path ≠ [] ∧
        ∃ u, Parse baseURL = .ok u ∧ validEscapes (u.joinedPath [path]) = false) ∧
    (baseURL ≠ [] → path ≠ [] → (∃ u, Parse baseURL = .ok u) → validEscapes path = true →
      (JoinBaseURLAndPath baseURL path).2 = none) := by
  by_cases h1 : baseURL = []
  · subst h1
    simp [JoinBaseURLAndPath]
  by_cases h2 : path = []
  · subst h2
    simp [JoinBaseURLAndPath, h1]
  cases hp : Parse baseURL with
  | error err =>
    have hj : JoinBaseURLAndPath baseURL path = ([], some (.invalidBaseURL err)) := by
      unfold JoinBaseURLAndPath
      rw [if_neg h1, if_neg h2, hp]
    rw [hj]
    simp
  | ok u =>
    cases hv : unescapeCheck encodePath (u.joinedPath [path]) with
    | none =>
      have hval : validEscapes (u.joinedPath [path]) = true := (validEscapes_eq_true _).2 hv
      rw [JoinBaseURLAndPath_of_valid h1 h2 hp hv]
      simp [h1, h2, hval]
    | some e =>
      have hval : validEscapes (u.joinedPath [path]) = false :=
        (validEscapes_eq_false _).2 ⟨e, hv⟩
      rw [JoinBaseURLAndPath_of_invalid h1 h2 hp hv]
      refine ⟨by simp [hval], by simp [h1, h2, hval], ?_⟩
      intro _ _ _ hpv
      have := joinedPath_valid u path ((validEscapes_eq_true _).1 hpv)
      rw [hv] at this
      cases this

/-- Claim C19, witness of the amended claim: the base `https://example.com/a%2Fb` and the
validly percent-encoded path `c%20d/`. -/
theorem JoinBaseURLAndPath_error_iff_witness :
    (JoinBaseURLAndPath (str "https://example.com/a%2Fb") (str "c%20d/")).2 = none ∧
    JoinBaseURLAndPath (str "https://example.com/a%2Fb") (str "c%20d/") =
      (str "https://example.com/a%2Fb/c%20d/", none) ∧
    JoinBaseURLAndPath (str "https://example.com") (str "%zz/..") =
      (str "https://example.com", none) :=
  ⟨(JoinBaseURLAndPath_error_iff (str "https://example.com/a%2Fb") (str "c%20d/")).2.2
      (by decide) (by decide) ⟨_, rfl⟩ (by decide),
    by decide, by decide⟩

/-- Claim C20, counterexample: `RootURL` is not idempotent.  The host of `http://a%2525b/`
is `a%25b` once unescaped, so its root is `http://a%25b/`, whose own host unescapes to
`a%b` and whose root is `http://a%b/`; and the root of `.//a b` is the unparseable
string `//a%20b`, whose root is `https://a%20b`. -/
theorem RootURL_not_idempotent :
    RootURL (str "http://a%2525b/") = str "http://a%25b/" ∧
    RootURL (RootURL (str "http://a%2525b/")) = str "http://a%b/" ∧
    RootURL (RootURL (str "http://a%2525b/")) ≠ RootURL (str "http://a%2525b/") ∧
    RootURL (RootURL (str ".//a b")) ≠ RootURL (str ".//a b") := by
  decide

/-- Claim C20, as amended: for every input `s` (a Go string, so a sequence of bytes),
`RootURL (RootURL s)` is `RootURL s` if and only if `RootURL s` does not start with `//`
and either holds no `%` or does not parse as a URL.  So `RootURL` is idempotent on every
result `scheme://host/` whose host holds no `%`, whatever the scheme and with or without
port, brackets or non-ASCII bytes, and on every fallback result that does not start with
`//`; it is not on a result that starts with `//`, which the next call rewrites to
`https://`, nor on a result that parses and whose host holds a `%`, which the next call
decodes once more. -/
theorem RootURL_idempotent_iff (s : GoString) (hs : ∀ c ∈ s, c < 256) :
    RootURL (RootURL s) = RootURL s ↔
      HasPrefix (RootURL s) (str "//") = false ∧
        ('%'.toNat ∉ RootURL s ∨ ∃ err, Parse (RootURL s) = .error err) := by
  constructor
  · intro hid
    have hpre : HasPrefix (RootURL s) (str "//") = false := by
      by_contra hc
      exact RootURL_ne_of_slashes (by simpa using hc) hid
    refine ⟨hpre, ?_⟩
    by_contra hcon
    simp only [not_or, not_not, not_exists] at hcon
    obtain ⟨hpc, hnerr⟩ := hcon
    obtain ⟨w, hw, hwpre, hweq⟩ := RootURL_cases s
    have hwb : ∀ c ∈ w, c < 256 := by
      rcases hw with rfl | rfl
      · exact hs
      · have l1 : ∀ c ∈ str "https://", c < 256 := by decide
        exact mem_append_lt l1 (fun c hc => hs c (List.mem_of_mem_drop hc))
    rw [hweq] at hid hpc hnerr
    rcases RootURL_cases_of_not_slashes hwpre with ⟨e1, err, herr⟩ | ⟨base, hb, e1, err, herr⟩ |
      ⟨base, u, hb, hu, e1⟩
    · rw [e1] at hnerr; exact hnerr err herr
    · rw [e1] at hnerr; exact hnerr err herr
    · rw [e1] at hid hpc hnerr
      cases hpr : Parse (u.Scheme ++ str "://" ++ u.Host ++ str "/") with
      | error err => exact hnerr err hpr
      | ok v =>
        have hhost : '%'.toNat ∈ u.Host := by
          have l1 : '%'.toNat ∉ str "://" := by decide
          have l2 : '%'.toNat ∉ str "/" := by decide
          have l3 : '%'.toNat ∉ u.Scheme := by
            rcases Parse_scheme_valid hu with h0 | ⟨hv, -⟩
            · rw [h0]; exact List.not_mem_nil _
            · intro hm
              have := isSchemeByte_cases (validScheme_bytes hv _ hm)
              rw [show '%'.toNat = 37 from rfl] at this
              omega
          rcases List.mem_append.1 hpc with hm | hm
          · rcases List.mem_append.1 hm with hm | hm
            · rcases List.mem_append.1 hm with hm | hm
              · exact absurd hm l3
              · exact absurd hm l1
            · exact hm
          · exact absurd hm l2
        exact RootURL_ne_of_percent hu (ResolveReference_empty_lt hb hwb) hhost hpr hid
  · rintro ⟨hpre, hc⟩
    exact RootURL_idem s hs hpre hc

/-- Claim C20, witness of the amended claim: `RootURL` is idempotent on URLs with a port,
with an IPv6 literal, with the schemes `ftp` and `mailto`, with an escaped non-ASCII
host, on the relative reference `foo`, whose root `:///` does not parse, and on
`http://exa mple.com/feed`, which does not parse and is its own root. -/
theorem RootURL_idempotent_iff_witness :
    RootURL (RootURL (str "https://example.com:8080/a?b")) =
      RootURL (str "https://example.com:8080/a?b") ∧
    RootURL (RootURL (str "http://[::1]:443/x")) = RootURL (str "http://[::1]:443/x") ∧
    RootURL (RootURL (str "ftp://files.example.org/pub")) =
      RootURL (str "ftp://files.example.org/pub") ∧
    RootURL (RootURL (str "mailto:someone@example.com")) =
      RootURL (str "mailto:someone@example.com") ∧
    RootURL (RootURL (str "http://%C3%A9.example/")) = RootURL (str "http://%C3%A9.example/") ∧
    RootURL (RootURL (str "foo")) = RootURL (str "foo") ∧
    RootURL (RootURL (str "http://exa mple.com/feed")) = RootURL (str "http://exa mple.com/feed") :=
  ⟨(RootURL_idempotent_iff (str "https://example.com:8080/a?b") (by decide)).2
      ⟨by decide, Or.inl (by decide)⟩,
    (RootURL_idempotent_iff (str "http://[::1]:443/x") (by decide)).2
      ⟨by decide, Or.inl (by decide)⟩,
    (RootURL_idempotent_iff (str "ftp://files.example.org/pub") (by decide)).2
      ⟨by decide, Or.inl (by decide)⟩,
    (RootURL_idempotent_iff (str "mailto:someone@example.com") (by decide)).2
      ⟨by decide, Or.inl (by decide)⟩,
    (RootURL_idempotent_iff (str "http://%C3%A9.example/") (by decide)).2
      ⟨by decide, Or.inl (by decide)⟩,
    (RootURL_idempotent_iff (str "foo") (by decide)).2 ⟨by decide, Or.inr ⟨_, rfl⟩⟩,
    (RootURL_idempotent_iff (str "http://exa mple.com/feed") (by decide)).2
      ⟨by decide, Or.inr ⟨_, rfl⟩⟩⟩

end Urllib
